import Mathlib

/-!
# GroundTraffic: the configuration reader (`src/routes.c`)

A shallow embedding of `clearconfig`, `failconfig`, `readconfig` and `expandtrain`
together with the declarations of `src/groundtraffic.h` they use.

Conventions of the embedding

* A C string is a `List Char`; every `Char` stands for one byte and no string holds a NUL.
* `float` and `double` values are rationals (exact arithmetic); what `sscanf` makes of a
  `%f` token is a parameter `sf` of the reader, so nothing depends on the accepted syntax.
* The singly linked lists `airport->routes` and `airport->trains` are Lean lists and a
  pointer to one of their records is its position in the list.  Storing `q` in `p->next`
  makes the list end with `q` right after `p`: `l.take (p+1) ++ [q]`.
* `malloc` and `realloc` are taken to succeed.
* Undefined behaviour (a NULL handed to `strlen` or `sscanf`, a `vsprintf` argument that
  does not fit its conversion, a value `%d` cannot represent, an indeterminate `eol1`)
  is the outcome `none`.
-/

namespace GroundTraffic

/-! ## groundtraffic.h -/

def MAX_NAME : Nat := 256

def MAX_TRAIN : Nat := 16

def MAX_ATTIMES : Nat := 24

def INVALID_AT : Int := -1

def DAY_SUN : Nat := 1

def DAY_MON : Nat := 2

def DAY_TUE : Nat := 4

def DAY_WED : Nat := 8

def DAY_THU : Nat := 16

def DAY_FRI : Nat := 32

def DAY_SAT : Nat := 64

def DAY_ALL : Nat := DAY_SUN ||| DAY_MON ||| DAY_TUE ||| DAY_WED ||| DAY_THU ||| DAY_FRI ||| DAY_SAT

/-- The sentinel `INVALID_ALT`, which is `DBL_MAX`. -/
def INVALID_ALT : ℚ := (2 ^ 53 - 1) * 2 ^ 971

/-- The enum of `airport_t.state`. -/
inductive state_t where
  | noconfig
  | inactive
  | active
  deriving DecidableEq, Repr

/-- Geolocation (`loc_t` and `dloc_t`). -/
structure loc_t where
  lat : ℚ
  lon : ℚ
  alt : ℚ
  deriving DecidableEq, Repr

/-- One node of a route path.  The fields `routes.c` never writes other than by the
`memset` of a new waypoint (`p`, `p1`, `p3`, `collisions`, ...) are left out. -/
structure path_t where
  waypoint : loc_t
  pausetime : Int
  attime : List Int
  atdays : Nat
  reverse : Bool
  deriving DecidableEq, Repr

/-- An object definition: `offset` is in metres in a train definition and holds the time
lag in seconds in a route (`routes.c` line 387); `lag` is declared but never written. -/
structure objdef_t where
  name : List Char
  heading : ℚ
  offset : ℚ
  lag : ℚ
  deriving DecidableEq, Repr

/-- A route.  `parent` is the position of the head of the train in `airport->routes`;
`next` is the list order.  Fields that `routes.c` only zeroes are left out. -/
structure route_t where
  object : objdef_t
  path : List path_t
  pathlen : Nat
  direction : Int
  next_time : ℚ
  speed : ℚ
  parent : Option Nat
  deriving DecidableEq, Repr

/-- A train of interconnected objects: `objects` has `MAX_TRAIN` entries, the used ones
first, an empty name marking the first unused one. -/
structure train_t where
  name : List Char
  objects : List objdef_t
  deriving DecidableEq, Repr

/-- The airport, as far as `routes.c` reads and writes it. -/
structure airport_t where
  state : state_t
  ICAO : List Char
  tower : loc_t
  routes : List route_t
  trains : List train_t
  deriving DecidableEq, Repr

/-- The globals of `routes.c` and `groundtraffic.h` that the reader works on: the airport
and the static `mtime`, the modification time of the control file loaded last. -/
structure globals_t where
  airport : airport_t
  mtime : Int
  deriving DecidableEq, Repr

/-! ## The C library, as far as the reader uses it -/

/-- The separators handed to `strtok`: `sep[]=" \t\r\n"`. -/
def issep (c : Char) : Bool :=
  c == ' ' || c == '\t' || c == '\r' || c == '\n'

/-- Splitting at separators; `acc` holds the token being read, last byte first. -/
def strtok_from : List Char → List Char → List (List Char)
  | [], acc => if acc.isEmpty then [] else [acc.reverse]
  | c :: cs, acc =>
    if issep c then
      (if acc.isEmpty then strtok_from cs [] else acc.reverse :: strtok_from cs [])
    else strtok_from cs (c :: acc)

/-- All tokens that `strtok(line, sep)` followed by `strtok(NULL, sep)` until NULL yield. -/
def strtok (line : List Char) : List (List Char) :=
  strtok_from line []

/-- Lower case of an ASCII letter, as `tolower` in the C locale. -/
def tolower (c : Char) : Char :=
  if 65 ≤ c.toNat ∧ c.toNat ≤ 90 then Char.ofNat (c.toNat + 32) else c

/-- The test `!strcasecmp(a, b)`. -/
def strcaseeq (a b : List Char) : Bool :=
  a.map tolower == b.map tolower

/-- The test `!strncasecmp(a, b, strlen(a))`: `a` is a prefix of `b`, letter case aside. -/
def strncaseeq (a b : List Char) : Bool :=
  (a.map tolower).isPrefixOf (b.map tolower)

/-- White space that `sscanf` skips before a conversion (`isspace` in the C locale). -/
def isspace (c : Char) : Bool :=
  c == ' ' || c == '\t' || c == '\n' || c.toNat == 11 || c.toNat == 12 || c == '\r'

/-- What one conversion of `sscanf` did: converted a value and left `rest` unread,
failed to match, met the end of the input before any byte of the item, or met a number
that the target type cannot hold. -/
inductive scan_t (α : Type) where
  | conv (v : α) (rest : List Char)
  | nomatch
  | eof
  | overflow
  deriving DecidableEq, Repr

def isdigit (c : Char) : Bool :=
  48 ≤ c.toNat && c.toNat ≤ 57

/-- Reads decimal digits: the value so far, how many were read, and what is left. -/
def scan_digits : List Char → Nat → Nat → Nat × Nat × List Char
  | [], v, n => (v, n, [])
  | c :: cs, v, n =>
    if isdigit c then scan_digits cs (10 * v + (c.toNat - 48)) (n + 1) else (v, n, c :: cs)

def INT_MAX : Int := 2147483647

def INT_MIN : Int := -2147483648

/-- The digits and the range check of `%d`, after white space and sign. -/
def scan_d_digits (neg : Bool) (s : List Char) : scan_t Int :=
  match scan_digits s 0 0 with
  | (v, n, rest) =>
    if n = 0 then scan_t.nomatch
    else
      let i : Int := if neg then -(v : Int) else (v : Int)
      if INT_MIN ≤ i ∧ i ≤ INT_MAX then scan_t.conv i rest else scan_t.overflow

/-- The conversion `%d`: white space is skipped, then an optional sign and the longest run
of decimal digits are read. The end of the input before any byte of the item is `eof`
(`sscanf` returns EOF), no digit after that is `nomatch` (`sscanf` returns 0). -/
def scan_d : List Char → scan_t Int
  | [] => scan_t.eof
  | c :: cs =>
    if isspace c then scan_d cs
    else if c == '-' then scan_d_digits true cs
    else if c == '+' then scan_d_digits false cs
    else scan_d_digits false (c :: cs)

/-- One argument of a variadic call. -/
inductive arg_t where
  | str (s : List Char)
  | int (n : Int)
  deriving DecidableEq, Repr

/-- Decimal digits of an `int`, as `%d` prints them. -/
def itoa (n : Int) : List Char :=
  match n with
  | Int.ofNat m => Nat.toDigits 10 m
  | Int.negSucc m => '-' :: Nat.toDigits 10 (m + 1)

/-- The text `vsprintf(buffer, format, ap)` writes, for the conversions `%s` and `%d`;
`none` when a conversion finds no argument or one of the other type. -/
def vsprintf : List Char → List arg_t → Option (List Char)
  | [], _ => some []
  | '%' :: 's' :: fmt, arg_t.str s :: ap => (vsprintf fmt ap).map (fun t => s ++ t)
  | '%' :: 'd' :: fmt, arg_t.int n :: ap => (vsprintf fmt ap).map (fun t => itoa n ++ t)
  | '%' :: _, _ => none
  | c :: fmt, ap => (vsprintf fmt ap).map (fun t => c :: t)

/-- The macro `N(c)`: the string, or the empty string for NULL. -/
def N (c : Option (List Char)) : List Char :=
  c.getD []

/-- Outcome of scanning a whole token with `!sscanf(c, "%f%n", &x, &eol) || c[eol]`:
the value when the conversion took the whole token, `bad` when the test fires, `undef`
when `sscanf` returns EOF or the number does not fit, so that `eol` is read indeterminate. -/
inductive full_t (α : Type) where
  | val (v : α)
  | bad
  | undef
  deriving DecidableEq, Repr

def fullscan {α : Type} : scan_t α → full_t α
  | scan_t.conv v [] => full_t.val v
  | scan_t.conv _ (_ :: _) => full_t.bad
  | scan_t.nomatch => full_t.bad
  | scan_t.eof => full_t.undef
  | scan_t.overflow => full_t.undef

/-- The test `!c1 || !sscanf(c1, "%f%n", ..) || c1[eol1] || !c2 || !sscanf(c2, ..) || c2[eol2]`
of the airport header and of a waypoint, evaluated left to right. -/
def scan_latlon (sf : List Char → scan_t ℚ) (c1 c2 : Option (List Char)) : full_t (ℚ × ℚ) :=
  match c1 with
  | none => full_t.bad
  | some t1 =>
    match fullscan (sf t1) with
    | full_t.undef => full_t.undef
    | full_t.bad => full_t.bad
    | full_t.val lat =>
      match c2 with
      | none => full_t.bad
      | some t2 =>
        match fullscan (sf t2) with
        | full_t.undef => full_t.undef
        | full_t.bad => full_t.bad
        | full_t.val lon => full_t.val (lat, lon)

/-- Writing through a pointer into an array or list: `l[i] = f(l[i])`. -/
def upd {α : Type} : List α → Nat → (α → α) → List α
  | [], _, _ => []
  | a :: l, 0, f => f a :: l
  | a :: l, i + 1, f => a :: upd l i f

/-- The statement `p->next = q` on a list: `q` follows the record at position `p`
(`none` is the list head itself, as in `airport->routes = q`). -/
def link {α : Type} (l : List α) (p : Option Nat) (q : α) : List α :=
  match p with
  | none => [q]
  | some i => l.take (i + 1) ++ [q]

/-! ## routes.c -/

/-- The globals after `clearconfig(airport)`. `deactivate(airport)`, defined outside
`routes.c`, runs first; every field of the model is overwritten after it. -/
def clearconfig (airport : airport_t) : globals_t :=
  { airport :=
      { airport with
        ICAO := []
        tower := { lat := 0, lon := 0, alt := INVALID_ALT }
        state := state_t.noconfig
        routes := []
        trains := [] }
    mtime := -1 }

/-- What a call of `readconfig` leaves: its return value, the globals, and the lines it
handed to `xplog`. -/
structure result_t where
  ret : Int
  g : globals_t
  log : List (List Char)
  deriving DecidableEq, Repr

/-- The convenience function `failconfig`: close, clear, format, log, return 1. -/
def failconfig (airport : airport_t) (format : List Char) (ap : List arg_t) :
    Option result_t :=
  let g1 := clearconfig airport
  match vsprintf format ap with
  | none => none
  | some buffer => some { ret := 1, g := g1, log := [buffer] }

/-- Assign carriage to its route: the name, `heading +=`, the distance converted to a
time lag, and `next_time`. (A division by a speed of 0 gives 0 in the rationals and an
infinity or NaN in C.) -/
def assign (o : objdef_t) (r : route_t) : route_t :=
  { r with
    object := { r.object with
                name := o.name
                heading := r.object.heading + o.heading
                offset := o.offset / r.speed }
    next_time := -(o.offset / r.speed) }

/-- The body of the loop in `expandtrain`, from carriage `i` on; `objs` are the entries
`train->objects[i..]`, `route` the position of the route the last carriage went to.
For `i > 0` the original route, as it is by then, is duplicated and linked after `route`. -/
def expandcars (currentroute : Nat) :
    List objdef_t → Nat → List route_t → Nat → List route_t × Nat
  | [], _, routes, route => (routes, route)
  | o :: objs, i, routes, route =>
    if o.name.isEmpty then (routes, route)
    else
      let dup : List route_t × Nat :=
        if i = 0 then (routes, route)
        else
          match routes[currentroute]? with
          | none => (routes, route)
          | some cur =>
            (upd (link routes (some route) cur) (route + 1)
              (fun r => { r with parent := some currentroute }), route + 1)
      expandcars currentroute objs (i + 1) (upd dup.1 dup.2 (assign o)) dup.2

/-- Check if this route names a train; if so replicate into multiple routes, and return
the position of the last. -/
def expandtrain (airport : airport_t) (currentroute : Nat) : airport_t × Nat :=
  match airport.routes[currentroute]? with
  | none => (airport, currentroute)
  | some cur =>
    match airport.trains.find? (fun train => cur.object.name == train.name) with
    | none => (airport, currentroute)
    | some train =>
      let r := expandcars currentroute (train.objects.take MAX_TRAIN) 0 airport.routes currentroute
      ({ airport with routes := r.1.take (r.2 + 1) }, r.2)

/-- The locals of `readconfig` that live across lines, and the airport being filled.
`lastroute`, `currentroute`, `lasttrain` and `currenttrain` are positions in
`airport.routes` and `airport.trains`, `none` for NULL. -/
structure parser_t where
  airport : airport_t
  lineno : Nat
  lastroute : Option Nat
  currentroute : Option Nat
  lasttrain : Option Nat
  currenttrain : Option Nat
  deriving DecidableEq, Repr

/-- How the branch taken for one line ends: it falls through to the check for
extraneous input with `rest` still to be read by `strtok`, it returns
`failconfig(h, airport, buffer, format, ...)`, or its behaviour is undefined. -/
inductive branch_t where
  | ok (p : parser_t) (rest : List (List Char))
  | fail (format : List Char) (ap : List arg_t)
  | undef
  deriving DecidableEq, Repr

/-- The branch `airport->state==noconfig`: the airport header. (`groundtraffic.h` declares
the tower as `dloc_t`, of doubles, while this file scans it with `%f`; the model stores the
number read.) -/
def header_line (sf : List Char → scan_t ℚ) (p : parser_t) (c1 : List Char)
    (rest : List (List Char)) : branch_t :=
  if c1.length = 4 then
    let a1 : airport_t := { p.airport with ICAO := c1 }
    match scan_latlon sf rest[0]? rest[1]? with
    | full_t.undef => branch_t.undef
    | full_t.bad =>
      branch_t.fail "Expecting an airport \"lat lon\", found \"%s %s\" at line %d".toList
        [arg_t.str (N rest[0]?), arg_t.str (N rest[1]?), arg_t.int p.lineno]
    | full_t.val (lat, lon) =>
      branch_t.ok
        { p with airport := { a1 with tower := { a1.tower with lat := lat, lon := lon },
                                      state := state_t.inactive } }
        (rest.drop 2)
  else
    branch_t.fail
      "Expecting a 4 character airport ICAO code, found \"%s\" at line %d".toList
      [arg_t.str c1, arg_t.int p.lineno]

/-- The test `sscanf(c1, "%d:%d%n", &hour, &minute, &eol1)!=2 || c1[eol1] || hour<0 ||
hour>23 || minute<0 || minute>59`: the two numbers when it does not fire. -/
def scan_hhmm (c1 : List Char) : full_t (Int × Int) :=
  match scan_d c1 with
  | scan_t.conv hour (c :: r) =>
    if c == ':' then
      match scan_d r with
      | scan_t.conv minute [] =>
        if hour < 0 ∨ hour > 23 ∨ minute < 0 ∨ minute > 59 then full_t.bad
        else full_t.val (hour, minute)
      | scan_t.overflow => full_t.undef
      | _ => full_t.bad
    else full_t.bad
  | scan_t.overflow => full_t.undef
  | _ => full_t.bad

/-- How the first loop of the `at` command ends. -/
inductive attimes_t where
  | done (attime : List Int) (i : Nat) (rest : List (List Char))
  | fail (format : List Char) (ap : List arg_t)
  | undef
  deriving DecidableEq, Repr

/-- The loop `while ((c1=strtok(NULL, sep)))` over the times of day of an `at` command;
`attime` is the array of the node, `i` the number of times stored so far. -/
def at_times (lineno : Nat) : List (List Char) → Nat → List Int → attimes_t
  | [], i, attime => attimes_t.done attime i []
  | c1 :: toks, i, attime =>
    if strcaseeq c1 "on".toList then attimes_t.done attime i toks
    else if i ≥ MAX_ATTIMES then
      attimes_t.fail "Exceeded %d times-of-day at line %d".toList
        [arg_t.int MAX_ATTIMES, arg_t.int lineno]
    else
      match scan_hhmm c1 with
      | full_t.undef => attimes_t.undef
      | full_t.bad =>
        attimes_t.fail
          "Expecting a time-of-day \"HH:MM\" or \"on\", found \"%s\" at line %d".toList
          [arg_t.str c1, arg_t.int lineno]
      | full_t.val (hour, minute) =>
        at_times lineno toks (i + 1) (attime.set i (hour * 60 + minute))

def daynames : List (List Char) :=
  ["monday".toList, "tuesday".toList, "wednesday".toList, "thursday".toList,
   "friday".toList, "saturday".toList, "sunday".toList]

def dayvals : List Nat :=
  [DAY_MON, DAY_TUE, DAY_WED, DAY_THU, DAY_FRI, DAY_SAT, DAY_SUN]

/-- The loop over the day names of an `at` command: the day mask, or the token that
names no day. -/
def at_days : List (List Char) → Nat → Except (List Char) Nat
  | [], atdays => Except.ok atdays
  | c1 :: toks, atdays =>
    match (daynames.zip dayvals).find? (fun d => strncaseeq c1 d.1) with
    | some d => at_days toks (atdays ||| d.2)
    | none => Except.error c1

/-- A new waypoint: `memset` to zero, then `alt` and `attime[0]`, then `lat` and `lon`. -/
def newnode (lat lon : ℚ) : path_t :=
  { waypoint := { lat := lat, lon := lon, alt := INVALID_ALT }
    pausetime := 0
    attime := (List.replicate MAX_ATTIMES (0 : Int)).set 0 INVALID_AT
    atdays := 0
    reverse := false }

/-- A write to the route at position `i` of `airport->routes`. -/
def store_route (airport : airport_t) (i : Nat) (f : route_t → route_t) : airport_t :=
  { airport with routes := upd airport.routes i f }

/-- A write to `objects[n]` of the train at position `ct` of `airport->trains`. -/
def store_object (airport : airport_t) (ct n : Nat) (f : objdef_t → objdef_t) : airport_t :=
  { airport with
    trains := upd airport.trains ct (fun t => { t with objects := upd t.objects n f }) }

/-- The assignment `path[currentroute->pathlen-1] = f(path[currentroute->pathlen-1])`. -/
def lastnode (r : route_t) (f : path_t → path_t) : route_t :=
  { r with path := upd r.path (r.pathlen - 1) f }

/-- The node goes to `path[currentroute->pathlen]`, the slot `realloc` added, and
`currentroute->pathlen++`. -/
def addnode (r : route_t) (node : path_t) : route_t :=
  { r with path := r.path.take r.pathlen ++ [node], pathlen := r.pathlen + 1 }

/-- The branch `currentroute`: a line inside a route, `cr` being `currentroute` and
`r` the route it points to. -/
def route_line (sf : List Char → scan_t ℚ) (p : parser_t) (cr : Nat) (r : route_t)
    (c1 : List Char) (rest : List (List Char)) : branch_t :=
  let store (f : route_t → route_t) : airport_t := store_route p.airport cr f
  if strcaseeq c1 "pause".toList then
    if r.pathlen = 0 then
      branch_t.fail "Route can\x27t start with a pause, at line %d".toList [arg_t.int p.lineno]
    else
      match rest with
      | [] => branch_t.undef
      | t :: rest1 =>
        match scan_d t with
        | scan_t.eof => branch_t.undef
        | scan_t.overflow => branch_t.undef
        | scan_t.nomatch =>
          branch_t.fail "Expecting a pause time, found \"%s\" at line %d".toList
            [arg_t.str t, arg_t.int p.lineno]
        | scan_t.conv pausetime left =>
          if !left.isEmpty then
            branch_t.fail "Expecting a pause time, found \"%s\" at line %d".toList
              [arg_t.str t, arg_t.int p.lineno]
          else if pausetime ≤ 0 ∨ pausetime ≥ 86400 then
            branch_t.fail "Pause time should be between 1 and 86399 seconds at line %d".toList
              [arg_t.int p.lineno]
          else
            branch_t.ok
              { p with airport := store (fun r =>
                  lastnode r (fun n => { n with pausetime := pausetime })) }
              rest1
  else if strcaseeq c1 "at".toList then
    if r.pathlen = 0 then
      branch_t.fail "Route can\x27t start with an \"at\", at line %d".toList
        [arg_t.int p.lineno]
    else
      match r.path[r.pathlen - 1]? with
      | none => branch_t.undef
      | some node =>
        match at_times p.lineno rest 0 node.attime with
        | attimes_t.undef => branch_t.undef
        | attimes_t.fail format ap => branch_t.fail format ap
        | attimes_t.done attime i rest1 =>
          let attime1 := if i < MAX_ATTIMES then attime.set i INVALID_AT else attime
          match at_days rest1 node.atdays with
          | Except.error c =>
            branch_t.fail "Expecting a day name, found \"%s\" at line %d".toList
              [arg_t.str c, arg_t.int p.lineno]
          | Except.ok atdays =>
            branch_t.ok
              { p with airport := store (fun r =>
                  lastnode r (fun n => { n with attime := attime1, atdays := atdays })) }
              []
  else if strcaseeq c1 "reverse".toList then
    if r.pathlen = 0 then
      branch_t.fail "Empty route at line %d".toList [arg_t.int p.lineno]
    else
      branch_t.ok
        { p with
          airport := store (fun r => lastnode r (fun n => { n with reverse := true })),
          currentroute := none }
        rest
  else
    match scan_latlon sf (some c1) rest[0]? with
    | full_t.undef => branch_t.undef
    | full_t.bad =>
      branch_t.fail "Expecting a waypoint \"lat lon\", found \"%s %s\" at line %d".toList
        [arg_t.str (N (some c1)), arg_t.str (N rest[0]?), arg_t.int p.lineno]
    | full_t.val (lat, lon) =>
      branch_t.ok
        { p with airport := store (fun r => addnode r (newnode lat lon)) }
        (rest.drop 1)

/-- Train length: `for (n=0; n<MAX_TRAIN && currenttrain->objects[n].name[0]; n++);`. -/
def trainlen (objects : List objdef_t) : Nat :=
  ((objects.take MAX_TRAIN).takeWhile (fun o => !o.name.isEmpty)).length

/-- The branch `currenttrain`: an object line inside a train, `ct` being `currenttrain`
and `train` the train it points to. -/
def train_line (sf : List Char → scan_t ℚ) (p : parser_t) (ct : Nat) (train : train_t)
    (c1 : List Char) (rest : List (List Char)) : branch_t :=
  let n := trainlen train.objects
  let store (f : objdef_t → objdef_t) (q : parser_t) : parser_t :=
    { q with airport := store_object q.airport ct n f }
  if n ≥ MAX_TRAIN then
    branch_t.fail "Exceeded %d objects in a train at line %d".toList
      [arg_t.int MAX_TRAIN, arg_t.int p.lineno]
  else if c1.length ≥ MAX_NAME - 1 then
    branch_t.fail "Object name exceeds %d characters at line %d".toList
      [arg_t.int (MAX_NAME - 1 : Nat), arg_t.int p.lineno]
  else
    let p1 := store (fun o => { o with name := c1 }) p
    let badoffset (c : Option (List Char)) : branch_t :=
      branch_t.fail "Expecting an object offset, found \"%s %s\" at line %d".toList
        [arg_t.str (N c), arg_t.int p.lineno]
    match rest with
    | [] => badoffset none
    | t :: rest1 =>
      match fullscan (sf t) with
      | full_t.undef => branch_t.undef
      | full_t.bad => badoffset (some t)
      | full_t.val offset =>
        let p2 := store (fun o => { o with offset := offset }) p1
        match rest1 with
        | [] => branch_t.ok p2 []
        | h :: rest2 =>
          match fullscan (sf h) with
          | full_t.undef => branch_t.undef
          | full_t.bad =>
            branch_t.fail
              "Expecting an object heading (or nothing), found \"%s\" at line %d".toList
              [arg_t.str h, arg_t.int p.lineno]
          | full_t.val heading =>
            branch_t.ok (store (fun o => { o with heading := heading }) p2) rest2

/-- The position of a record just stored in `p->next`. -/
def after (p : Option Nat) : Nat :=
  match p with
  | none => 0
  | some i => i + 1

/-- A route after `memset(newroute, 0, sizeof(route_t))` and `direction = 1`. -/
def newroute : route_t :=
  { object := { name := [], heading := 0, offset := 0, lag := 0 }
    path := []
    pathlen := 0
    direction := 1
    next_time := 0
    speed := 0
    parent := none }

/-- A train after `memset(newtrain, 0, sizeof(train_t))`. -/
def newtrain : train_t :=
  { name := []
    objects := List.replicate MAX_TRAIN { name := [], heading := 0, offset := 0, lag := 0 } }

/-- The branch `!strcasecmp(c1, "route")`: a new route. -/
def new_route (sf : List Char → scan_t ℚ) (p : parser_t) (rest : List (List Char)) :
    branch_t :=
  let nr := after p.lastroute
  let p1 : parser_t :=
    { p with airport := { p.airport with routes := link p.airport.routes p.lastroute newroute } }
  let store (f : route_t → route_t) (q : parser_t) : parser_t :=
    { q with airport := store_route q.airport nr f }
  let badroute : branch_t :=
    branch_t.fail
      "Expecting a route \"speed object [heading]\", found \"%s\" at line %d".toList
      [arg_t.str (N rest[0]?), arg_t.str (N rest[1]?), arg_t.int p.lineno]
  match rest[0]? with
  | none => badroute
  | some t =>
    match fullscan (sf t) with
    | full_t.undef => branch_t.undef
    | full_t.bad => badroute
    | full_t.val speed =>
      match rest[1]? with
      | none => badroute
      | some c2 =>
        if c2.length ≥ MAX_NAME - 1 then
          branch_t.fail "Object name exceeds %d characters at line %d".toList
            [arg_t.int (MAX_NAME - 1 : Nat), arg_t.int p.lineno]
        else
          let p2 := store (fun r => { r with speed := speed, object := { r.object with name := c2 } }) p1
          let finish (q : parser_t) : branch_t :=
            branch_t.ok
              { store (fun r => { r with speed := r.speed * (1000 / (60 * 60)) }) q with
                currentroute := some nr, lastroute := some nr }
              (rest.drop 3)
          match rest[2]? with
          | none => finish p2
          | some h =>
            match fullscan (sf h) with
            | full_t.undef => branch_t.undef
            | full_t.bad =>
              branch_t.fail
                "Expecting an object heading (or nothing), found \"%s\" at line %d".toList
                [arg_t.str h, arg_t.int p.lineno]
            | full_t.val heading =>
              finish (store (fun r => { r with object := { r.object with heading := heading } }) p2)

/-- The branch `!strcasecmp(c1, "train")`: a new train. -/
def new_train (p : parser_t) (rest : List (List Char)) : branch_t :=
  let nt := after p.lasttrain
  match rest with
  | [] => branch_t.undef
  | c1 :: rest1 =>
    if c1.length ≥ MAX_NAME - 1 then
      branch_t.fail "Train name exceeds %d characters at line %d".toList
        [arg_t.int (MAX_NAME - 1 : Nat), arg_t.int p.lineno]
    else
      branch_t.ok
        { p with
          airport :=
            { p.airport with trains := link p.airport.trains p.lasttrain { newtrain with name := c1 } },
          currenttrain := some nt, lasttrain := some nt }
        rest1

/-- How the loop body ends for one line: the loop goes on, or `readconfig` returns what
`failconfig` returns (`none` for undefined behaviour). -/
inductive line_t where
  | next (p : parser_t)
  | stop (r : Option result_t)
  deriving DecidableEq, Repr

/-- The UTF-8 byte order mark `"\xef\xbb\xbf"`. -/
def BOM : List Char := [Char.ofNat 0xef, Char.ofNat 0xbb, Char.ofNat 0xbf]

/-- The tokens of a line: `strtok(line+3, sep)` for a first line that starts with the
byte order mark, `strtok(line, sep)` otherwise. `lineno` is the count before this line. -/
def tokens (lineno : Nat) (line : List Char) : List (List Char) :=
  if lineno = 0 ∧ BOM.isPrefixOf line then strtok (line.drop 3) else strtok line

/-- The branch for a blank line: end of route or train. -/
def blank_line (p : parser_t) : line_t :=
  let closed : Except (Option result_t) parser_t :=
    match p.currentroute with
    | none => Except.ok p
    | some cr =>
      if (p.airport.routes[cr]?.map (fun r => r.pathlen)) = some 0 then
        Except.error (failconfig p.airport "Empty route at line %d".toList [arg_t.int p.lineno])
      else
        let e := expandtrain p.airport cr
        Except.ok { p with airport := e.1, lastroute := some e.2 }
  match closed with
  | Except.error r => line_t.stop r
  | Except.ok p1 =>
    let p2 : parser_t := { p1 with currentroute := none }
    let empty : Bool :=
      match p2.currenttrain with
      | none => false
      | some ct =>
        match p2.airport.trains[ct]? with
        | none => false
        | some train =>
          match train.objects.head? with
          | none => false
          | some o => o.name.isEmpty
    if empty then
      line_t.stop (failconfig p2.airport "Empty train at line %d".toList [arg_t.int p2.lineno])
    else line_t.next { p2 with currenttrain := none }

/-- The body of the loop `while (fgets(line, sizeof(line), h))` for one line. -/
def readline (sf : List Char → scan_t ℚ) (p0 : parser_t) (line : List Char) : line_t :=
  let p : parser_t := { p0 with lineno := p0.lineno + 1 }
  match tokens p0.lineno line with
  | [] => blank_line p
  | c1 :: rest =>
    if c1.head? = some '#' then line_t.next p
    else
      let branch : branch_t :=
        if p.airport.state = state_t.noconfig then header_line sf p c1 rest
        else
          match p.currentroute with
          | some cr =>
            match p.airport.routes[cr]? with
            | none => branch_t.undef
            | some r => route_line sf p cr r c1 rest
          | none =>
            match p.currenttrain with
            | some ct =>
              match p.airport.trains[ct]? with
              | none => branch_t.undef
              | some train => train_line sf p ct train c1 rest
            | none =>
              if strcaseeq c1 "route".toList then new_route sf p rest
              else if strcaseeq c1 "train".toList then new_train p rest
              else
                branch_t.fail "Expecting a route or train, found \"%s\" at line %d".toList
                  [arg_t.str c1, arg_t.int p.lineno]
      match branch with
      | branch_t.undef => line_t.stop none
      | branch_t.fail format ap => line_t.stop (failconfig p.airport format ap)
      | branch_t.ok p1 [] => line_t.next p1
      | branch_t.ok p1 (c :: _) =>
        line_t.stop (failconfig p1.airport "Extraneous input \"%s\" at line %d".toList
          [arg_t.str c, arg_t.int p1.lineno])

/-- The loop `while (fgets(line, sizeof(line), h))` over the lines of the file. -/
def readlines (sf : List Char → scan_t ℚ) : parser_t → List (List Char) → line_t
  | p, [] => line_t.next p
  | p, line :: lines =>
    match readline sf p line with
    | line_t.next p1 => readlines sf p1 lines
    | line_t.stop r => line_t.stop r

/-- What `readconfig` finds in the file system: whether `opendir(pkgpath)` succeeds and
a directory entry matches `groundtraffic.txt` letter case aside (both true on Windows,
which does not look), the `st_mtime` of `stat` if it succeeds, and the lines `fgets`
returns if `fopen` succeeds. -/
structure env_t where
  pkgpath : List Char
  opendir : Bool
  found : Bool
  st_mtime : Option Int
  file : Option (List (List Char))
  deriving DecidableEq, Repr

/-- The locals of `readconfig` at the top of the loop, after `clearconfig(airport)`. -/
def parser0 (airport : airport_t) : parser_t :=
  { airport := (clearconfig airport).airport
    lineno := 0
    lastroute := none
    currentroute := none
    lasttrain := none
    currenttrain := none }

/-- Handle missing blank line at eof: `if (currentroute && !expandtrain(airport,
currentroute))`. -/
def at_eof (p : parser_t) : airport_t :=
  match p.currentroute with
  | none => p.airport
  | some cr => (expandtrain p.airport cr).1

/-- Read our config file.
Return: 0=config has not changed, !0=config has changed and airport->state is updated. -/
def readconfig (sf : List Char → scan_t ℚ) (g : globals_t) (env : env_t) : Option result_t :=
  let cantfind : List Char := "Can\x27t find groundtraffic.txt in ".toList ++ env.pkgpath
  if !env.opendir then
    some { ret := 1, g := clearconfig g.airport, log := ["Can\x27t find my scenery folder".toList] }
  else if !env.found then
    some { ret := 1, g := clearconfig g.airport, log := [cantfind] }
  else
    match env.st_mtime with
    | none => some { ret := 1, g := clearconfig g.airport, log := [cantfind] }
    | some st_mtime =>
      if st_mtime = g.mtime then some { ret := 0, g := g, log := [] }
      else
        let g1 := clearconfig g.airport
        match env.file with
        | none =>
          some { ret := 1, g := g1
                 log := ["Can\x27t open ".toList ++ env.pkgpath ++ "/groundtraffic.txt".toList] }
        | some lines =>
          match readlines sf (parser0 g.airport) lines with
          | line_t.stop r => r
          | line_t.next p =>
            let airport : airport_t := at_eof p
            if airport.state = state_t.noconfig then
              some { ret := 1, g := { airport := airport, mtime := g1.mtime }
                     log := ["Can\x27t read groundtraffic.txt".toList] }
            else if airport.routes.isEmpty then
              some { ret := 1, g := clearconfig airport, log := ["No routes defined!".toList] }
            else
              some { ret := 2, g := { airport := airport, mtime := st_mtime }, log := [] }

/-! ## A decimal `%f`

The reader is stated for every conversion `sf`.  The one below reads plain decimal
numbers (sign, digits, fraction, exponent) and serves where a concrete one is needed. -/

/-- The exponent part of a decimal number: the factor it stands for and what is left;
`none` when an `e` is not followed by a number. -/
def scan_f_exp (s : List Char) : Option (ℚ × List Char) :=
  match s with
  | [] => some (1, [])
  | c :: cs =>
    if c == 'e' || c == 'E' then
      let neg : Bool := cs.head? == some '-'
      let ds : List Char := if cs.head? == some '-' || cs.head? == some '+' then cs.drop 1 else cs
      match scan_digits ds 0 0 with
      | (e, n, rest) =>
        if n = 0 then none
        else some (if neg then 1 / (10 : ℚ) ^ e else (10 : ℚ) ^ e, rest)
    else some (1, c :: cs)

/-- The digits of a decimal number, after white space and sign. -/
def scan_f_digits (neg : Bool) (s : List Char) : scan_t ℚ :=
  match scan_digits s 0 0 with
  | (ip, n1, r1) =>
    let frac : Nat × Nat × List Char :=
      if r1.head? == some '.' then scan_digits (r1.drop 1) 0 0 else (0, 0, r1)
    if n1 + frac.2.1 = 0 then scan_t.nomatch
    else
      match scan_f_exp frac.2.2 with
      | none => scan_t.nomatch
      | some (factor, rest) =>
        let m : ℚ := ((ip : ℚ) + (frac.1 : ℚ) / (10 : ℚ) ^ frac.2.1) * factor
        scan_t.conv (if neg then -m else m) rest

/-- A conversion `%f` for decimal numbers. -/
def scan_f : List Char → scan_t ℚ
  | [] => scan_t.eof
  | c :: cs =>
    if isspace c then scan_f cs
    else if c == '-' then scan_f_digits true cs
    else if c == '+' then scan_f_digits false cs
    else scan_f_digits false (c :: cs)

/-! ## groundtraffic.h: the inlines `inside` and `intersect` -/

/-- OpenGL coordinate (`float` in C, exact rationals here). -/
structure point_t where
  x : ℚ
  y : ℚ
  z : ℚ
  deriving DecidableEq, Repr

/-- The loop of `inside` from the vertex `poly[i]` on, `pj` being `poly[j]` and `c` the
flag so far; `none` when a quotient with a zero divisor is evaluated. -/
def inside_from (p : point_t) : point_t → List point_t → Int → Option Int
  | _, [], c => some c
  | pj, pi :: poly, c =>
    if (pi.z ≤ p.z ∧ p.z < pj.z) ∨ (pj.z ≤ p.z ∧ p.z < pi.z) then
      if pj.z - pi.z = 0 then none
      else if p.x < (pj.x - pi.x) * (p.z - pi.z) / (pj.z - pi.z) + pi.x then
        inside_from p pi poly (if c = 0 then 1 else 0)
      else inside_from p pi poly c
    else inside_from p pi poly c

/-- 2D is point inside polygon? `npoints` is the length of `poly`; the loop starts with
`i=0, j=npoints-1` and goes on with `j=i++`. -/
def inside (p : point_t) (poly : List point_t) : Option Int :=
  match poly.getLast? with
  | none => some 0
  | some pj => inside_from p pj poly 0

/-- 2D does line p0->p1 intersect p2->p3; `none` when `d` is 0, where C divides by zero. -/
def intersect (p0 p1 p2 p3 : point_t) : Option Bool :=
  let s1_x := p1.x - p0.x
  let s1_z := p1.z - p0.z
  let s2_x := p3.x - p2.x
  let s2_z := p3.z - p2.z
  let d := -s2_x * s1_z + s1_x * s2_z
  if d = 0 then none
  else
    let s := (-s1_z * (p0.x - p2.x) + s1_x * (p0.z - p2.z)) / d
    let t := (s2_x * (p0.z - p2.z) - s2_z * (p0.x - p2.x)) / d
    some (decide (s ≥ 0 ∧ s ≤ 1 ∧ t ≥ 0 ∧ t ≤ 1))

/-! ## Notions the lemmas and claims are stated with -/

/-- The carriages of a train: the entries `expandtrain` walks over. -/
def carriages (objects : List objdef_t) : List objdef_t :=
  (objects.take MAX_TRAIN).takeWhile (fun o => !o.name.isEmpty)

/-- The routes a route `r` at position `cr` becomes for the carriages `objs`: the leader,
then one follower per further carriage, each a copy of the leader. -/
def cars (cr : Nat) (r : route_t) : List objdef_t → List route_t
  | [] => [r]
  | o :: objs => assign o r :: objs.map (fun c => assign c { assign o r with parent := some cr })

/-- Facts about the locals of `readconfig` that every line preserves: before the header
nothing is stored; the state is never `active`; `lastroute` is the last route of the list;
`currentroute`, when set, is the last route too, and is as `memset` left it as far as
`parent`, the time lag and `next_time` go. -/
structure wf (p : parser_t) : Prop where
  fresh : p.airport.state = state_t.noconfig →
    p.airport = (clearconfig p.airport).airport ∧ p.currentroute = none
  quiet : p.airport.state ≠ state_t.active
  last : after p.lastroute = p.airport.routes.length
  cur : ∀ cr, p.currentroute = some cr → cr + 1 = p.airport.routes.length ∧
    ∃ r, p.airport.routes[cr]? = some r ∧ r.parent = none ∧ r.object.offset = 0 ∧
      r.next_time = 0

/-- The globals when the plugin starts: static storage is zero and `mtime` is -1. -/
def start : globals_t :=
  { airport := { state := state_t.noconfig, ICAO := [], tower := { lat := 0, lon := 0, alt := 0 }
                 routes := [], trains := [] }
    mtime := -1 }

/-- A call that touches the static `mtime`: `readconfig` with what it finds in the file
system, or `clearconfig`. -/
inductive call_t where
  | load (env : env_t)
  | clear
  deriving DecidableEq, Repr

/-- The globals after a sequence of calls; `none` when a call has undefined behaviour. -/
def run (sf : List Char → scan_t ℚ) : globals_t → List call_t → Option globals_t
  | g, [] => some g
  | g, call_t.load env :: calls =>
    match readconfig sf g env with
    | none => none
    | some r => run sf r.g calls
  | g, call_t.clear :: calls => run sf (clearconfig g.airport) calls

/-- In the words of the spec: the modification time recorded by the last successful load
(return 2), if there has been no failed load (return 1) and no `clearconfig` since;
`recorded` is what held before the calls. An unchanged file (return 0) records nothing
new. -/
def recorded_mtime (sf : List Char → scan_t ℚ) :
    globals_t → Option Int → List call_t → Option Int
  | _, recorded, [] => recorded
  | g, recorded, call_t.load env :: calls =>
    match readconfig sf g env with
    | none => none
    | some r =>
      if r.ret = 2 then recorded_mtime sf r.g env.st_mtime calls
      else if r.ret = 0 then recorded_mtime sf r.g recorded calls
      else recorded_mtime sf r.g none calls
  | g, _, call_t.clear :: calls => recorded_mtime sf (clearconfig g.airport) none calls

/-- A line that starts a route: its first token is `route`, letter case aside (with or
without a byte order mark in front). -/
def isrouteline (line : List Char) : Bool :=
  let starts (toks : List (List Char)) : Bool :=
    match toks with
    | [] => false
    | c1 :: _ => strcaseeq c1 "route".toList
  starts (tokens 0 line) || starts (tokens 1 line)

/-- The branch `readline` takes for a line with first token `c1` that is no comment;
`p` has the line counted. -/
def branch_of (sf : List Char → scan_t ℚ) (p : parser_t) (c1 : List Char)
    (rest : List (List Char)) : branch_t :=
  if p.airport.state = state_t.noconfig then header_line sf p c1 rest
  else
    match p.currentroute with
    | some cr =>
      match p.airport.routes[cr]? with
      | none => branch_t.undef
      | some r => route_line sf p cr r c1 rest
    | none =>
      match p.currenttrain with
      | some ct =>
        match p.airport.trains[ct]? with
        | none => branch_t.undef
        | some train => train_line sf p ct train c1 rest
      | none =>
        if strcaseeq c1 "route".toList then new_route sf p rest
        else if strcaseeq c1 "train".toList then new_train p rest
        else
          branch_t.fail "Expecting a route or train, found \"%s\" at line %d".toList
            [arg_t.str c1, arg_t.int p.lineno]

/-- How `readline` ends after the branch: the check for extraneous input. -/
def endline (p : parser_t) (b : branch_t) : line_t :=
  match b with
  | branch_t.undef => line_t.stop none
  | branch_t.fail format ap => line_t.stop (failconfig p.airport format ap)
  | branch_t.ok p1 [] => line_t.next p1
  | branch_t.ok p1 (c :: _) =>
    line_t.stop (failconfig p1.airport "Extraneous input \"%s\" at line %d".toList
      [arg_t.str c, arg_t.int p1.lineno])

/-- The locals with the line counted: `lineno++`. -/
def counted (p : parser_t) : parser_t :=
  { p with lineno := p.lineno + 1 }

/-- Further facts that every line preserves: a route block and a train block are never open
together, and the path of the open route block has `pathlen` nodes, each with an `attime`
array of `MAX_ATTIMES` entries. -/
structure wfblock (p : parser_t) : Prop where
  excl : ∀ cr, p.currentroute = some cr → p.currenttrain = none
  path : ∀ cr r, p.currentroute = some cr → p.airport.routes[cr]? = some r →
    r.pathlen = r.path.length ∧ ∀ node ∈ r.path, node.attime.length = MAX_ATTIMES

/-- The call `readconfig(pkgpath, airport)` with the globals `g` finds a changed file,
reads the lines `pre` without failure and comes to `line` with the locals `p`. -/
structure reaches (sf : List Char → scan_t ℚ) (g : globals_t) (env : env_t)
    (pre : List (List Char)) (line : List Char) (post : List (List Char)) (p : parser_t) :
    Prop where
  opendir : env.opendir = true
  found : env.found = true
  changed : ∃ t, env.st_mtime = some t ∧ t ≠ g.mtime
  file : env.file = some (pre ++ line :: post)
  lines : readlines sf (parser0 g.airport) pre = line_t.next p

/-- The branches for a line outside any block: `route`, `train`, or the failure
`Expecting a route or train`. -/
def toplevel (sf : List Char → scan_t ℚ) (p : parser_t) (c1 : List Char)
    (rest : List (List Char)) : branch_t :=
  if strcaseeq c1 "route".toList then new_route sf p rest
  else if strcaseeq c1 "train".toList then new_train p rest
  else
    branch_t.fail "Expecting a route or train, found \"%s\" at line %d".toList
      [arg_t.str c1, arg_t.int p.lineno]

/-- A line after the first that is blank or a comment: `strtok` finds no token, or a
first token that starts with `#`. -/
def skipped (line : List Char) : Bool :=
  match strtok line with
  | [] => true
  | c1 :: _ => c1.head? == some '#'

/-- The locals with another line count. -/
def relined (n : Nat) (p : parser_t) : parser_t :=
  { p with lineno := n }

/-- Two ends of a branch that differ by the line count only: the locals are the same but
for `lineno`, which is `m` in one and `n` in the other, the same tokens are left, the
same failure is reported, with a message that `vsprintf` can format in both or in
neither. -/
def brel (m n : Nat) : branch_t → branch_t → Prop
  | branch_t.ok p1 r1, branch_t.ok q1 r2 => p1.lineno = m ∧ q1 = relined n p1 ∧ r1 = r2
  | branch_t.fail f1 ap1, branch_t.fail f2 ap2 =>
    f1 = f2 ∧ (vsprintf f1 ap1).isSome = (vsprintf f2 ap2).isSome
  | branch_t.undef, branch_t.undef => True
  | _, _ => False

/-- Two ends of a line that differ by the line count only: the loop goes on with the same
locals but for `lineno`, or `readconfig` returns the same value with the same globals, or
the behaviour is undefined in both. -/
def sameline : line_t → line_t → Prop
  | line_t.next p1, line_t.next q1 => q1 = relined q1.lineno p1
  | line_t.stop none, line_t.stop none => True
  | line_t.stop (some r), line_t.stop (some s) => r.ret = s.ret ∧ r.g = s.g
  | _, _ => False

/-- The shape of a path: `pathlen` nodes, each with a full `attime` array. -/
def pathok (r : route_t) : Prop :=
  r.pathlen = r.path.length ∧ ∀ node ∈ r.path, node.attime.length = MAX_ATTIMES

/-- The number a run of decimal digits stands for, continuing from `v`. -/
def digits_value (l : List Char) (v : Nat) : Nat :=
  l.foldl (fun v c => 10 * v + (c.toNat - 48)) v

/-- The locals after a write `f` to the route at position `cr`. -/
def stored (p : parser_t) (cr : Nat) (f : route_t → route_t) : parser_t :=
  { p with airport := store_route p.airport cr f }

/-- The array writes `attime[i++] = v` for the values `vals` in turn. -/
def writes (attime : List Int) : Nat → List Int → List Int
  | _, [] => attime
  | i, v :: vals => writes (attime.set i v) (i + 1) vals

/-- The times of day an `attime` array holds: its entries up to the first `INVALID_AT`, or
all `MAX_ATTIMES` of them when there is none. -/
def schedule (attime : List Int) : List Int :=
  (attime.take MAX_ATTIMES).takeWhile (fun x => x != INVALID_AT)

/-- Minutes past midnight: `hour*60+minute`. -/
def minutes (hm : Int × Int) : Int :=
  hm.1 * 60 + hm.2

/-- The two decimal digits of a number below 100, as in `08` or `23`. -/
def two (k : Nat) : List Char :=
  if k < 10 then '0' :: Nat.toDigits 10 k else Nat.toDigits 10 k

/-- The `attime` array of a node after an accepted `at` command with the times `vals`. -/
def timed (attime vals : List Int) : List Int :=
  vals ++ (if vals.length < MAX_ATTIMES then INVALID_AT :: attime.drop (vals.length + 1) else [])

/-- In the words of the spec: the day names in the order monday, tuesday, .., sunday, each
with its `tm_wday` number. -/
def weekdays : List (List Char × Nat) :=
  [("monday".toList, 1), ("tuesday".toList, 2), ("wednesday".toList, 3),
   ("thursday".toList, 4), ("friday".toList, 5), ("saturday".toList, 6), ("sunday".toList, 0)]

/-- In the words of the spec: the bit, 2 to the power of the `tm_wday` number, of the first
day name that the token is a prefix of, letter case aside. -/
def day_bit (c1 : List Char) : Option Nat :=
  (weekdays.find? (fun d => (c1.map tolower).isPrefixOf (d.1.map tolower))).map
    (fun d => 2 ^ d.2)

/-- In the words of the spec: the day mask after the tokens that follow `on`, each adding
its bit; none when a token is a prefix of no day name. -/
def day_mask (mask : Nat) : List (List Char) → Option Nat
  | [] => some mask
  | c1 :: toks =>
    match day_bit c1 with
    | some b => day_mask (mask ||| b) toks
    | none => none

/-- In the words of the spec: the point `(x, z)` of the x-z plane lies on the closed
segment from `p` to `q`. -/
def on_segment (p q : point_t) (x z : ℚ) : Prop :=
  ∃ a : ℚ, 0 ≤ a ∧ a ≤ 1 ∧ x = p.x + a * (q.x - p.x) ∧ z = p.z + a * (q.z - p.z)

/-- In the words of the spec: the cross product of the direction vectors of the segments
`p0`-`p1` and `p2`-`p3` in the x-z plane. -/
def cross (p0 p1 p2 p3 : point_t) : ℚ :=
  (p1.x - p0.x) * (p3.z - p2.z) - (p1.z - p0.z) * (p3.x - p2.x)

/-- In the words of the spec: the corners of an axis-aligned rectangle in the x-z plane. -/
def corners (x0 x1 z0 z1 : ℚ) : List (ℚ × ℚ) :=
  [(x0, z0), (x1, z0), (x1, z1), (x0, z1)]

/-- In the words of the spec: a cyclic list given from any of its elements on, in either
orientation. -/
def cyclic_orders {α : Type} (l : List α) : List (List α) :=
  (List.range l.length).map (fun k => l.rotate k) ++
    (List.range l.length).map (fun k => l.reverse.rotate k)

/-- An entry of `objects` as `memset` leaves it. -/
def noobject : objdef_t :=
  { name := [], heading := 0, offset := 0, lag := 0 }

/-- `lasttrain` is the last train of the list. -/
def lasttrain_ok (p : parser_t) : Prop :=
  after p.lasttrain = p.airport.trains.length

/-- In the words of the spec: the entry that an object line `objectName offset [heading]`
of a train block stands for, the heading 0 when the line gives none; none for a line that
is not of this form. -/
def object_entry (sf : List Char → scan_t ℚ) (line : List Char) : Option objdef_t :=
  match strtok line with
  | [name, off] =>
    if name.head? = some '#' ∨ name.length ≥ MAX_NAME - 1 then none
    else
      match fullscan (sf off) with
      | full_t.val o => some { name := name, heading := 0, offset := o, lag := 0 }
      | _ => none
  | [name, off, hd] =>
    if name.head? = some '#' ∨ name.length ≥ MAX_NAME - 1 then none
    else
      match fullscan (sf off), fullscan (sf hd) with
      | full_t.val o, full_t.val h => some { name := name, heading := h, offset := o, lag := 0 }
      | _, _ => none
  | _ => none

/-- The locals after a write `f` to entry `n` of the train at position `ct`. -/
def entered (p : parser_t) (ct n : Nat) (f : objdef_t → objdef_t) : parser_t :=
  { p with airport := store_object p.airport ct n f }

/-- A train with the name `nm` and the named entries `es`, its other entries as `memset`
left them. -/
def train_of (nm : List Char) (es : List objdef_t) : train_t :=
  { name := nm, objects := es ++ List.replicate (MAX_TRAIN - es.length) noobject }

/-- A train block is open after the header and the first line: the train at position `ct`
has the name `nm`, the named entries `es` and then entries as `memset` left them. -/
structure inblock (p : parser_t) (ct : Nat) (nm : List Char) (es : List objdef_t) : Prop where
  wfp : wf p
  state : p.airport.state ≠ state_t.noconfig
  route : p.currentroute = none
  train : p.currenttrain = some ct
  lineno : p.lineno ≠ 0
  objects : p.airport.trains[ct]? = some (train_of nm es)
  named : ∀ e ∈ es, e.name ≠ []
  room : es.length ≤ MAX_TRAIN

/-- In the words of the claim as amended: the token holds at most nine decimal digits, so
that no number in it is too large for an `int`. -/
@[reducible] def few_digits (t : List Char) : Prop :=
  (t.filter isdigit).length ≤ 9

/-! ## Sample inputs -/

/-- The example of the spec with a byte order mark in front. -/
def bom_file : List String :=
  ["\xef\xbb\xbfKSEA 47.45 -122.31\n", "route 20 baggage_cart\n", "47.450 -122.310\n",
   "47.451 -122.311\n"]


/-- The scenery folder holds a readable `groundtraffic.txt` with modification time `t`
and the given lines. -/
def found_file (t : Int) (lines : List String) : env_t :=
  { pkgpath := "pkg".toList, opendir := true, found := true, st_mtime := some t
    file := some (lines.map String.toList) }

/-- The example of the spec: one route with two waypoints. -/
def good_file : List String :=
  ["KSEA 47.45 -122.31\n", "route 20 baggage_cart\n", "47.450 -122.310\n", "47.451 -122.311\n"]

/-- The same file with a malformed fifth line. -/
def bad_file : List String :=
  good_file ++ ["pause abc\n"]

/-- A header and a train definition, but no route. -/
def routeless_file : List String :=
  ["KSEA 47.45 -122.31\n", "train tug\n", "tractor 0\n", "cart 5 180\n", "\n"]

/-- What the first load of `good_file` returns. -/
def good_result : result_t :=
  (readconfig scan_f start (found_file 1 good_file)).getD { ret := 0, g := start, log := [] }

/-- What a reload returns after `bad_file` has replaced `good_file`. -/
def bad_result : result_t :=
  (readconfig scan_f good_result.g (found_file 2 bad_file)).getD { ret := 0, g := start, log := [] }

/-- A train of two carriages, the first with a heading of 90 degrees, and an open route
block that names it. -/
def train_file : List String :=
  ["KSEA 47.45 -122.31\n", "train tug\n", "tractor 0 90\n", "cart 5\n", "\n",
   "route 20 tug\n", "47.450 -122.310\n", "47.451 -122.311\n"]

/-- A train named `Tug` and an open route block for an object `tug`. -/
def plain_file : List String :=
  ["KSEA 47.45 -122.31\n", "train Tug\n", "tractor 0 90\n", "\n",
   "route 20 tug 45\n", "47.450 -122.310\n"]

/-- A file that ends right after a `route` line. -/
def open_file : List String :=
  ["KSEA 47.45 -122.31\n", "route 20 baggage_cart\n"]

/-- The example of the spec followed by a second route without a waypoint, at the end of
the file. -/
def unfinished_file : List String :=
  good_file ++ ["\n", "route 36 fuel_truck\n"]

/-- The locals of `readconfig` when the loop has read the lines, before the end of the
file is handled. -/
def after_lines (lines : List String) : parser_t :=
  match readlines scan_f (parser0 start.airport) (lines.map String.toList) with
  | line_t.next p => p
  | line_t.stop _ => parser0 start.airport

/-- The route at position `cr` after the lines. -/
def route_after (lines : List String) (cr : Nat) : route_t :=
  (after_lines lines).airport.routes[cr]?.getD newroute

/-- The first train defined by the lines. -/
def train_after (lines : List String) : train_t :=
  (after_lines lines).airport.trains.head?.getD newtrain

/-- The entries of the train of `routeless_file`. -/
def tug_entries : List objdef_t :=
  [{ name := "tractor".toList, heading := 0, offset := 0, lag := 0 },
   { name := "cart".toList, heading := 180, offset := 5, lag := 0 }]

/-! # Theorems -/

/-! ## Lists as arrays and linked lists -/

theorem upd_length {α : Type} (l : List α) (i : Nat) (f : α → α) :
    (upd l i f).length = l.length := by
  induction l generalizing i with
  | nil => rfl
  | cons a l ih => cases i <;> simp [upd, ih]

theorem upd_getElem? {α : Type} (l : List α) (i j : Nat) (f : α → α) :
    (upd l i f)[j]? = if i = j then l[j]?.map f else l[j]? := by
  induction l generalizing i j with
  | nil => simp [upd]
  | cons a l ih =>
    cases i with
    | zero => cases j <;> simp [upd]
    | succ i => cases j <;> simp [upd, ih]

theorem upd_append_last {α : Type} (l : List α) (a : α) (f : α → α) :
    upd (l ++ [a]) l.length f = l ++ [f a] := by
  induction l with
  | nil => rfl
  | cons b l ih => simp [upd, ih]

theorem upd_eq_nil {α : Type} (l : List α) (i : Nat) (f : α → α) :
    upd l i f = [] ↔ l = [] := by
  cases l with
  | nil => simp [upd]
  | cons a l => cases i <;> simp [upd]

theorem link_last {α : Type} (l : List α) (p : Option Nat) (q : α)
    (h : after p = l.length) : link l p q = l ++ [q] := by
  cases p with
  | none =>
    have h0 : l = [] := List.eq_nil_of_length_eq_zero (by simpa [after] using h.symm)
    simp [link, h0]
  | some i =>
    have h1 : i + 1 = l.length := by simpa [after] using h
    simp [link, h1]

theorem trainlen_eq (objects : List objdef_t) : trainlen objects = (carriages objects).length :=
  rfl

/-- The followers: every carriage after the first gets a copy of the leader `cur`, as it is
after the first carriage went to it, with `parent` set. -/
theorem expandcars_followers (cr : Nat) (cur : route_t) (objs : List objdef_t) :
    ∀ (i : Nat) (routes : List route_t) (route : Nat), i ≠ 0 → route + 1 = routes.length →
      routes[cr]? = some cur →
      expandcars cr objs i routes route =
        (routes ++ (objs.takeWhile (fun o => !o.name.isEmpty)).map
            (fun o => assign o { cur with parent := some cr }),
         route + (objs.takeWhile (fun o => !o.name.isEmpty)).length) := by
  induction objs with
  | nil => intro i routes route _ _ _; simp [expandcars]
  | cons o objs ih =>
    intro i routes route hi hlen hcur
    by_cases ho : o.name.isEmpty = true
    · simp [expandcars, ho]
    · have hlink : link routes (some route) cur = routes ++ [cur] :=
        link_last routes (some route) cur (by simpa [after] using hlen)
      have hcr : cr < routes.length := by
        rcases Nat.lt_or_ge cr routes.length with h | h
        · exact h
        · rw [List.getElem?_eq_none h] at hcur; cases hcur
      have hstep : upd (upd (routes ++ [cur]) (route + 1)
            (fun r => { r with parent := some cr })) (route + 1) (assign o)
          = routes ++ [assign o { cur with parent := some cr }] := by
        rw [hlen, upd_append_last, upd_append_last]
      have hnext := ih (i + 1) (routes ++ [assign o { cur with parent := some cr }]) (route + 1)
        (Nat.succ_ne_zero i) (by simp [hlen])
        (by rw [List.getElem?_append_left hcr]; exact hcur)
      simp only [Bool.not_eq_true] at ho
      have hunf : expandcars cr (o :: objs) i routes route =
          expandcars cr objs (i + 1)
            (upd (upd (link routes (some route) cur) (route + 1)
              (fun r => { r with parent := some cr })) (route + 1) (assign o)) (route + 1) := by
        simp [expandcars, ho, hi, hcur]
      rw [hunf, hlink, hstep, hnext]
      simp [ho, List.takeWhile_cons, Nat.add_assoc, Nat.add_comm]

theorem cars_length (cr : Nat) (r : route_t) (objs : List objdef_t) :
    (cars cr r objs).length = objs.length - 1 + 1 := by
  cases objs <;> simp [cars]

theorem expandcars_all (r : route_t) (pre : List route_t) (objs : List objdef_t) :
    expandcars pre.length objs 0 (pre ++ [r]) pre.length =
      (pre ++ cars pre.length r (objs.takeWhile (fun o => !o.name.isEmpty)),
       pre.length + ((objs.takeWhile (fun o => !o.name.isEmpty)).length - 1)) := by
  cases objs with
  | nil => simp [expandcars, cars]
  | cons o objs =>
    by_cases ho : o.name.isEmpty = true
    · simp [expandcars, cars, ho]
    · simp only [Bool.not_eq_true] at ho
      have hunf : expandcars pre.length (o :: objs) 0 (pre ++ [r]) pre.length =
          expandcars pre.length objs 1 (upd (pre ++ [r]) pre.length (assign o)) pre.length := by
        simp [expandcars, ho]
      rw [hunf, upd_append_last,
        expandcars_followers pre.length (assign o r) objs 1 (pre ++ [assign o r]) pre.length
          (by decide) (by simp) (by simp)]
      simp [ho, List.takeWhile_cons, cars]

theorem split_last {α : Type} (l : List α) (i : Nat) (a : α) (h : l[i]? = some a)
    (hlen : i + 1 = l.length) : l = l.take i ++ [a] ∧ (l.take i).length = i := by
  have hi : i < l.length := by omega
  constructor
  · have h1 : l = l.take i ++ l.drop i := (List.take_append_drop i l).symm
    have h2 : l.drop i = [a] := by
      rw [List.drop_eq_getElem_cons hi]
      have h3 : l[i] = a := by
        rw [List.getElem?_eq_getElem hi] at h
        exact Option.some.inj h
      have h4 : l.drop (i + 1) = [] := by
        apply List.drop_eq_nil_of_le
        omega
      rw [h3, h4]
    rw [h2] at h1
    exact h1
  · simp [List.length_take]; omega

/-- What `expandtrain` does to the last route of the list when it names a train. -/
theorem expandtrain_match (airport : airport_t) (cr : Nat) (r : route_t) (train : train_t)
    (hr : airport.routes[cr]? = some r) (hlast : cr + 1 = airport.routes.length)
    (ht : airport.trains.find? (fun t => r.object.name == t.name) = some train) :
    expandtrain airport cr =
      ({ airport with routes := airport.routes.take cr ++ cars cr r (carriages train.objects) },
       cr + ((carriages train.objects).length - 1)) := by
  obtain ⟨hsplit, hpre⟩ := split_last airport.routes cr r hr hlast
  have hall := expandcars_all r (airport.routes.take cr) (train.objects.take MAX_TRAIN)
  rw [hpre, ← hsplit] at hall
  have hcl : (cars cr r (carriages train.objects)).length =
      (carriages train.objects).length - 1 + 1 := cars_length cr r _
  simp only [expandtrain, hr, ht, hall]
  congr 1
  rw [List.take_of_length_le]
  · rfl
  · simp only [List.length_append, hpre]
    unfold carriages at hcl
    omega

/-- A route that names no train is left alone. -/
theorem expandtrain_nomatch (airport : airport_t) (cr : Nat) (r : route_t)
    (hr : airport.routes[cr]? = some r)
    (ht : airport.trains.find? (fun t => r.object.name == t.name) = none) :
    expandtrain airport cr = (airport, cr) := by
  simp [expandtrain, hr, ht]

/-! ## What holds at the top of the loop -/

/-- The cleared airport does not depend on what was cleared. -/
theorem clearconfig_const (a b : airport_t) : clearconfig a = clearconfig b := rfl

theorem wf_parser0 (a : airport_t) : wf (parser0 a) := by
  constructor
  · intro _; exact ⟨rfl, rfl⟩
  · simp [parser0, clearconfig]
  · rfl
  · intro cr h; simp [parser0] at h

/-- A write to the current route that keeps `parent`, time lag and `next_time`. -/
theorem wf_store (p q : parser_t) (cr : Nat) (f : route_t → route_t) (hp : wf p)
    (hstate : p.airport.state ≠ state_t.noconfig)
    (hq : q.airport = store_route p.airport cr f)
    (hlast : q.lastroute = p.lastroute)
    (hcur : q.currentroute = p.currentroute ∨ q.currentroute = none)
    (hf : ∀ r, (f r).parent = r.parent ∧ (f r).object.offset = r.object.offset ∧
      (f r).next_time = r.next_time) : wf q := by
  have hst : q.airport.state = p.airport.state := by rw [hq]; rfl
  have hro : q.airport.routes = upd p.airport.routes cr f := by rw [hq]; rfl
  constructor
  · intro h; rw [hst] at h; exact absurd h hstate
  · rw [hst]; exact hp.quiet
  · rw [hlast, hro, upd_length]; exact hp.last
  · intro c hc
    rcases hcur with h | h
    · rw [h] at hc
      obtain ⟨h1, r, h2, h3, h4, h5⟩ := hp.cur c hc
      refine ⟨by rw [hro, upd_length]; exact h1, ?_⟩
      rw [hro, upd_getElem?]
      by_cases hcc : cr = c
      · refine ⟨f r, by simp [hcc, h2], ?_⟩
        obtain ⟨g1, g2, g3⟩ := hf r
        exact ⟨g1.trans h3, g2.trans h4, g3.trans h5⟩
      · exact ⟨r, by simp [hcc, h2], h3, h4, h5⟩
    · rw [h] at hc; cases hc

theorem route_line_wf (sf : List Char → scan_t ℚ) (p p1 : parser_t) (cr : Nat) (r : route_t)
    (c1 : List Char) (rest rest1 : List (List Char)) (hp : wf p)
    (hstate : p.airport.state ≠ state_t.noconfig)
    (h : route_line sf p cr r c1 rest = branch_t.ok p1 rest1) : wf p1 := by
  unfold route_line at h
  simp only [] at h
  repeat' split at h
  all_goals first
    | contradiction
    | (cases h
       exact wf_store p _ cr _ hp hstate rfl rfl (Or.inl rfl) (fun r => ⟨rfl, rfl, rfl⟩))
    | (cases h
       exact wf_store p _ cr _ hp hstate rfl rfl (Or.inr rfl) (fun r => ⟨rfl, rfl, rfl⟩))

/-- A step that leaves the route list alone, after the header. -/
theorem wf_frame (p q : parser_t) (hp : wf p)
    (hstate : q.airport.state = state_t.inactive)
    (hro : q.airport.routes = p.airport.routes)
    (hlast : q.lastroute = p.lastroute)
    (hcur : q.currentroute = p.currentroute ∨ q.currentroute = none) : wf q := by
  constructor
  · intro h; rw [hstate] at h; cases h
  · rw [hstate]; decide
  · rw [hlast, hro]; exact hp.last
  · intro c hc
    rcases hcur with h | h
    · rw [h] at hc; rw [hro]; exact hp.cur c hc
    · rw [h] at hc; cases hc

theorem state_inactive (p : parser_t) (hp : wf p)
    (hstate : p.airport.state ≠ state_t.noconfig) : p.airport.state = state_t.inactive := by
  have h := hp.quiet
  cases hs : p.airport.state
  · exact absurd hs hstate
  · rfl
  · exact absurd hs h

theorem header_line_wf (sf : List Char → scan_t ℚ) (p p1 : parser_t)
    (c1 : List Char) (rest rest1 : List (List Char)) (hp : wf p)
    (h : header_line sf p c1 rest = branch_t.ok p1 rest1) : wf p1 := by
  unfold header_line at h
  simp only [] at h
  repeat' split at h
  all_goals first
    | contradiction
    | (cases h
       exact wf_frame p _ hp rfl rfl rfl (Or.inl rfl))

theorem train_line_wf (sf : List Char → scan_t ℚ) (p p1 : parser_t) (ct : Nat)
    (train : train_t) (c1 : List Char) (rest rest1 : List (List Char)) (hp : wf p)
    (hstate : p.airport.state ≠ state_t.noconfig)
    (h : train_line sf p ct train c1 rest = branch_t.ok p1 rest1) : wf p1 := by
  have hin := state_inactive p hp hstate
  unfold train_line at h
  simp only [] at h
  repeat' split at h
  all_goals first
    | contradiction
    | (cases h
       exact wf_frame p _ hp hin rfl rfl (Or.inl rfl))

theorem new_train_wf (p p1 : parser_t) (rest rest1 : List (List Char)) (hp : wf p)
    (hstate : p.airport.state ≠ state_t.noconfig)
    (h : new_train p rest = branch_t.ok p1 rest1) : wf p1 := by
  have hin := state_inactive p hp hstate
  unfold new_train at h
  simp only [] at h
  repeat' split at h
  all_goals first
    | contradiction
    | (cases h
       exact wf_frame p _ hp hin rfl rfl (Or.inl rfl))

theorem new_route_wf (sf : List Char → scan_t ℚ) (p p1 : parser_t)
    (rest rest1 : List (List Char)) (hp : wf p)
    (hstate : p.airport.state ≠ state_t.noconfig)
    (h : new_route sf p rest = branch_t.ok p1 rest1) : wf p1 := by
  have hin := state_inactive p hp hstate
  have hl := hp.last
  have hlink := link_last p.airport.routes p.lastroute newroute hl
  unfold new_route at h
  simp only [] at h
  repeat' split at h
  all_goals first
    | contradiction
    | (cases h
       constructor
       · intro h0; simp [store_route, hin] at h0
       · simp [store_route, hin]
       · simp only [store_route, hlink, hl, upd_append_last]
         simp [after]
       · intro cr hcr
         simp only [Option.some.injEq] at hcr
         subst hcr
         simp only [store_route, hlink, hl, upd_append_last]
         simp [newroute])

/-- A step that leaves the airport alone. -/
theorem wf_same (p q : parser_t) (hp : wf p) (ha : q.airport = p.airport)
    (hlast : q.lastroute = p.lastroute)
    (hcur : q.currentroute = p.currentroute ∨ q.currentroute = none) : wf q := by
  constructor
  · intro h
    rw [ha] at h ⊢
    refine ⟨(hp.fresh h).1, ?_⟩
    rcases hcur with h1 | h1
    · rw [h1]; exact (hp.fresh h).2
    · exact h1
  · rw [ha]; exact hp.quiet
  · rw [hlast, ha]; exact hp.last
  · intro c hc
    rcases hcur with h | h
    · rw [h] at hc; rw [ha]; exact hp.cur c hc
    · rw [h] at hc; cases hc

/-- What `expandtrain` keeps, and that it returns the last route of the list. -/
theorem expandtrain_frame (airport : airport_t) (cr : Nat) (r : route_t)
    (hr : airport.routes[cr]? = some r) (hlast : cr + 1 = airport.routes.length) :
    (expandtrain airport cr).1.state = airport.state ∧
    (expandtrain airport cr).1.ICAO = airport.ICAO ∧
    (expandtrain airport cr).1.tower = airport.tower ∧
    (expandtrain airport cr).1.trains = airport.trains ∧
    (expandtrain airport cr).2 + 1 = (expandtrain airport cr).1.routes.length ∧
    (expandtrain airport cr).1.routes ≠ [] := by
  cases ht : airport.trains.find? (fun t => r.object.name == t.name) with
  | none =>
    rw [expandtrain_nomatch airport cr r hr ht]
    refine ⟨rfl, rfl, rfl, rfl, hlast, ?_⟩
    intro h; rw [h] at hlast; simp at hlast
  | some train =>
    rw [expandtrain_match airport cr r train hr hlast ht]
    have hpre := (split_last airport.routes cr r hr hlast).2
    have hcl := cars_length cr r (carriages train.objects)
    refine ⟨rfl, rfl, rfl, rfl, ?_, ?_⟩
    · simp only [List.length_append, hpre, hcl]; omega
    · intro h
      have h2 := congrArg List.length h
      simp only [List.length_append, hpre, hcl, List.length_nil] at h2
      omega

theorem blank_line_wf (p p1 : parser_t) (hp : wf p)
    (h : blank_line p = line_t.next p1) : wf p1 := by
  unfold blank_line at h
  cases hc : p.currentroute with
  | none =>
    simp only [hc] at h
    split at h
    · cases h
    · cases h
      exact wf_same p _ hp rfl rfl (Or.inr rfl)
  | some cr =>
    obtain ⟨hlen, r, hr, _, _, _⟩ := hp.cur cr hc
    have hstate : p.airport.state ≠ state_t.noconfig := by
      intro h0
      have := (hp.fresh h0).2
      rw [hc] at this; cases this
    have hin := state_inactive p hp hstate
    obtain ⟨f1, _, _, _, f5, _⟩ := expandtrain_frame p.airport cr r hr hlen
    simp only [hc] at h
    split at h
    · cases h
    · rename_i q hq
      split at hq
      · cases hq
      · cases hq
        split at h
        · cases h
        · cases h
          constructor
          · intro h0; simp only [f1, hin] at h0; cases h0
          · simp only [f1, hin]; decide
          · simpa [after] using f5
          · intro c hc2; cases hc2

theorem readline_wf (sf : List Char → scan_t ℚ) (p0 p1 : parser_t) (line : List Char)
    (hp0 : wf p0) (h : readline sf p0 line = line_t.next p1) : wf p1 := by
  have hp : wf { p0 with lineno := p0.lineno + 1 } := wf_same p0 _ hp0 rfl rfl (Or.inl rfl)
  unfold readline at h
  simp only [] at h
  split at h
  · exact blank_line_wf _ _ hp h
  · split at h
    · cases h; exact hp
    · split at h
      · cases h
      · cases h
      · rename_i heq
        cases h
        repeat' split at heq
        all_goals first
          | contradiction
          | exact header_line_wf sf _ _ _ _ _ hp heq
          | exact route_line_wf sf _ _ _ _ _ _ _ hp (by assumption) heq
          | exact train_line_wf sf _ _ _ _ _ _ _ hp (by assumption) heq
          | exact new_route_wf sf _ _ _ _ hp (by assumption) heq
          | exact new_train_wf _ _ _ _ hp (by assumption) heq
      · cases h

theorem readlines_wf (sf : List Char → scan_t ℚ) (lines : List (List Char)) :
    ∀ (p p1 : parser_t), wf p → readlines sf p lines = line_t.next p1 → wf p1 := by
  induction lines with
  | nil => intro p p1 hp h; simp only [readlines] at h; cases h; exact hp
  | cons line lines ih =>
    intro p p1 hp h
    simp only [readlines] at h
    split at h
    · rename_i q hq
      exact ih q p1 (readline_wf sf p q line hp hq) h
    · cases h

/-! ## The three results of `readconfig` -/

theorem failconfig_some (a : airport_t) (format : List Char) (ap : List arg_t) (r : result_t)
    (h : failconfig a format ap = some r) : r.ret = 1 ∧ r.g = clearconfig a := by
  unfold failconfig at h
  simp only [] at h
  split at h
  · cases h
  · cases h; exact ⟨rfl, rfl⟩

theorem blank_line_stop (p : parser_t) (r : result_t)
    (h : blank_line p = line_t.stop (some r)) : r.ret = 1 ∧ r.g = clearconfig p.airport := by
  unfold blank_line at h
  simp only [] at h
  split at h
  · rename_i r0 hq
    injection h with h
    subst h
    split at hq
    · cases hq
    · split at hq
      · injection hq with hq
        exact failconfig_some _ _ _ _ hq
      · cases hq
  · split at h
    · injection h with h
      have := failconfig_some _ _ _ _ h
      exact ⟨this.1, this.2.trans (clearconfig_const _ _)⟩
    · cases h

theorem readline_stop (sf : List Char → scan_t ℚ) (p : parser_t) (line : List Char)
    (r : result_t) (h : readline sf p line = line_t.stop (some r)) :
    r.ret = 1 ∧ r.g = clearconfig p.airport := by
  unfold readline at h
  simp only [] at h
  split at h
  · have := blank_line_stop _ r h
    exact ⟨this.1, this.2.trans (clearconfig_const _ _)⟩
  · split at h
    · cases h
    · split at h
      · injection h with h; cases h
      · injection h with h
        have := failconfig_some _ _ _ _ h
        exact ⟨this.1, this.2.trans (clearconfig_const _ _)⟩
      · cases h
      · injection h with h
        have := failconfig_some _ _ _ _ h
        exact ⟨this.1, this.2.trans (clearconfig_const _ _)⟩

theorem readlines_stop (sf : List Char → scan_t ℚ) (lines : List (List Char)) :
    ∀ (p : parser_t) (r : result_t), readlines sf p lines = line_t.stop (some r) →
      r.ret = 1 ∧ r.g = clearconfig p.airport := by
  induction lines with
  | nil => intro p r h; simp only [readlines] at h; cases h
  | cons line lines ih =>
    intro p r h
    simp only [readlines] at h
    split at h
    · rename_i q hq
      have := ih q r h
      exact ⟨this.1, this.2.trans (clearconfig_const _ _)⟩
    · rename_i x hx
      cases h
      exact readline_stop sf p line r hx

theorem at_eof_wf (p : parser_t) (hp : wf p) :
    (at_eof p).state ≠ state_t.active ∧
    ((at_eof p).state = state_t.noconfig → at_eof p = (clearconfig p.airport).airport) := by
  unfold at_eof
  cases hc : p.currentroute with
  | none => exact ⟨hp.quiet, fun h => (hp.fresh h).1⟩
  | some cr =>
    obtain ⟨hlen, r, hr, _, _, _⟩ := hp.cur cr hc
    obtain ⟨f1, _, _, _, _, _⟩ := expandtrain_frame p.airport cr r hr hlen
    simp only []
    refine ⟨by rw [f1]; exact hp.quiet, ?_⟩
    intro h
    rw [f1] at h
    have := (hp.fresh h).2
    rw [hc] at this; cases this

/-- The three results of `readconfig` and what each leaves behind. -/
theorem readconfig_cases (sf : List Char → scan_t ℚ) (g : globals_t) (env : env_t)
    (r : result_t) (h : readconfig sf g env = some r) :
    (r.ret = 0 ∧ r.g = g ∧ env.st_mtime = some g.mtime) ∨
    (r.ret = 1 ∧ r.g = clearconfig g.airport) ∨
    (r.ret = 2 ∧ r.g.airport.state = state_t.inactive ∧ r.g.airport.routes ≠ [] ∧
      env.st_mtime = some r.g.mtime ∧ r.g.mtime ≠ g.mtime) := by
  unfold readconfig at h
  simp only [] at h
  split at h
  · cases h; exact Or.inr (Or.inl ⟨rfl, rfl⟩)
  · split at h
    · cases h; exact Or.inr (Or.inl ⟨rfl, rfl⟩)
    · split at h
      · cases h; exact Or.inr (Or.inl ⟨rfl, rfl⟩)
      · rename_i t ht
        split at h
        · rename_i heq
          cases h
          exact Or.inl ⟨rfl, rfl, by rw [ht, heq]⟩
        · rename_i hne
          split at h
          · cases h; exact Or.inr (Or.inl ⟨rfl, rfl⟩)
          · rename_i lines hl
            split at h
            · rename_i r0 hstop
              subst h
              have := readlines_stop sf lines _ r hstop
              exact Or.inr (Or.inl ⟨this.1, this.2.trans (clearconfig_const _ _)⟩)
            · rename_i p hnext
              have hp := readlines_wf sf lines _ p (wf_parser0 g.airport) hnext
              obtain ⟨hq, hf⟩ := at_eof_wf p hp
              split at h
              · rename_i hno
                cases h
                refine Or.inr (Or.inl ⟨rfl, ?_⟩)
                have := hf hno
                show ({ airport := at_eof p, mtime := (clearconfig g.airport).mtime } : globals_t)
                  = clearconfig g.airport
                rw [this]
                rfl
              · rename_i hno
                split at h
                · cases h; exact Or.inr (Or.inl ⟨rfl, clearconfig_const (at_eof p) g.airport⟩)
                · rename_i hro
                  cases h
                  refine Or.inr (Or.inr ⟨rfl, ?_, ?_, ht, hne⟩)
                  · show (at_eof p).state = state_t.inactive
                    cases hs : (at_eof p).state
                    · exact absurd hs hno
                    · rfl
                    · exact absurd hs hq
                  · show (at_eof p).routes ≠ []
                    intro h0
                    rw [h0] at hro
                    exact hro rfl

/-! ## The carriages of an expanded train -/

theorem prefix_getElem? {α : Type} (l1 l2 : List α) (h : l1 <+: l2) (i : Nat)
    (hi : i < l1.length) : l1[i]? = l2[i]? := by
  obtain ⟨t, rfl⟩ := h
  rw [List.getElem?_append_left hi]

/-- Entry `i` of a train, for `i` below the train length, is carriage `i`. -/
theorem carriages_getElem? (objects : List objdef_t) (i : Nat) (hi : i < trainlen objects) :
    (carriages objects)[i]? = objects[i]? := by
  have h1 : carriages objects <+: objects.take MAX_TRAIN := List.takeWhile_prefix _
  have h2 : objects.take MAX_TRAIN <+: objects := List.take_prefix _ _
  exact prefix_getElem? _ _ (h1.trans h2) i hi

/-- Carriage `i` of `cars`: what it takes from entry `i` and what from the route. -/
theorem cars_getElem? (cr : Nat) (r : route_t) (objs : List objdef_t) (i : Nat) (o : objdef_t)
    (h : objs[i]? = some o) :
    ∃ c, (cars cr r objs)[i]? = some c ∧ c.object.name = o.name ∧
      c.object.offset = o.offset / r.speed ∧ c.next_time = -(o.offset / r.speed) ∧
      c.path = r.path ∧ c.pathlen = r.pathlen ∧ c.speed = r.speed ∧
      c.parent = (if i = 0 then r.parent else some cr) ∧
      c.object.heading =
        (if i = 0 then r.object.heading + o.heading
         else r.object.heading + ((objs.head?.map (fun f => f.heading)).getD 0) + o.heading) := by
  cases objs with
  | nil => simp at h
  | cons o0 objs =>
    cases i with
    | zero =>
      simp only [List.getElem?_cons_zero, Option.some.injEq] at h
      subst h
      exact ⟨assign o0 r, by simp [cars], rfl, rfl, rfl, rfl, rfl, rfl, by simp [assign],
        by simp [assign]⟩
    | succ i =>
      simp only [List.getElem?_cons_succ] at h
      refine ⟨assign o { assign o0 r with parent := some cr }, ?_, rfl, rfl, rfl, rfl, rfl, rfl,
        by simp [assign], by simp [assign]⟩
      simp [cars, h]

/-- The route that carriage `i` of the train goes to when `expandtrain` meets the last
route of the list naming a train. -/
theorem expandtrain_car (airport : airport_t) (cr : Nat) (r : route_t) (train : train_t)
    (hr : airport.routes[cr]? = some r) (hlast : cr + 1 = airport.routes.length)
    (ht : airport.trains.find? (fun t => r.object.name == t.name) = some train)
    (i : Nat) (o : objdef_t) (hi : i < trainlen train.objects)
    (ho : train.objects[i]? = some o) :
    ∃ c, (expandtrain airport cr).1.routes[cr + i]? = some c ∧ c.object.name = o.name ∧
      c.object.offset = o.offset / r.speed ∧ c.next_time = -(o.offset / r.speed) ∧
      c.path = r.path ∧ c.pathlen = r.pathlen ∧ c.speed = r.speed ∧
      c.parent = (if i = 0 then r.parent else some cr) ∧
      c.object.heading =
        (if i = 0 then r.object.heading + o.heading
         else r.object.heading + ((train.objects.head?.map (fun f => f.heading)).getD 0)
           + o.heading) := by
  have hc : (carriages train.objects)[i]? = some o := by
    rw [carriages_getElem? _ i hi]; exact ho
  have h0 : (carriages train.objects).head? = train.objects.head? := by
    have hpos : 0 < trainlen train.objects := by omega
    have := carriages_getElem? train.objects 0 hpos
    simpa [List.head?_eq_getElem?] using this
  obtain ⟨c, h1, h2⟩ := cars_getElem? cr r (carriages train.objects) i o hc
  have hpre := (split_last airport.routes cr r hr hlast).2
  refine ⟨c, ?_, ?_⟩
  · rw [expandtrain_match airport cr r train hr hlast ht]
    show (airport.routes.take cr ++ cars cr r (carriages train.objects))[cr + i]? = some c
    rw [List.getElem?_append_right (by omega)]
    simpa [hpre] using h1
  · rw [h0] at h2; exact h2

/-! ## The claims -/

/-- C1: whenever `readconfig` reports a failed load (returns 1), whatever the airport held
before the call and whatever had been parsed before the bad line, the airport is left
unconfigured: state `noconfig`, empty ICAO code, no routes and no trains. -/
theorem readconfig_failed_load_unconfigured (sf : List Char → scan_t ℚ) (g : globals_t)
    (env : env_t) (r : result_t) (h : readconfig sf g env = some r) (h1 : r.ret = 1) :
    r.g.airport.state = state_t.noconfig ∧ r.g.airport.ICAO = [] ∧
    r.g.airport.routes = [] ∧ r.g.airport.trains = [] := by
  rcases readconfig_cases sf g env r h with h0 | h0 | h0
  · rw [h0.1] at h1; cases h1
  · rw [h0.2]; exact ⟨rfl, rfl, rfl, rfl⟩
  · rw [h0.1] at h1; cases h1

theorem readconfig_failed_load_unconfigured_witness :
    readconfig scan_f start (found_file 1 bad_file) =
      some { ret := 1, g := clearconfig start.airport
             log := ["Expecting a pause time, found \"abc\" at line 5".toList] } ∧
    (clearconfig start.airport).airport.state = state_t.noconfig ∧
    (clearconfig start.airport).airport.ICAO = [] ∧
    (clearconfig start.airport).airport.routes = [] ∧
    (clearconfig start.airport).airport.trains = [] :=
  ⟨by rfl, readconfig_failed_load_unconfigured scan_f start (found_file 1 bad_file)
    { ret := 1, g := clearconfig start.airport
      log := ["Expecting a pause time, found \"abc\" at line 5".toList] } (by rfl) rfl⟩

/-- C2 as stated fails: after `good_file` has been loaded (return 2, one route, state
`inactive`), a reload of the changed file `bad_file` returns 1 and leaves no route and the
state `noconfig`; the loaded configuration is not preserved. -/
theorem reload_failure_loses_config :
    (good_result.ret, good_result.g.airport.state, good_result.g.airport.routes.length,
      good_result.g.airport.ICAO) = (2, state_t.inactive, 1, "KSEA".toList) ∧
    readconfig scan_f good_result.g (found_file 2 bad_file) = some bad_result ∧
    (bad_result.ret, bad_result.g.airport.state, bad_result.g.airport.routes.length,
      bad_result.g.airport.ICAO) = (1, state_t.noconfig, 0, []) := by
  refine ⟨by decide, by rfl, by decide⟩

/-- C2 amended: if a valid configuration is loaded (return 2) and `readconfig` is then
called on a file that fails to load (return 1), the previously loaded configuration is
discarded: the airport is unconfigured (state `noconfig`, empty ICAO code, no routes, no
trains), it differs from the loaded one, and no modification time is remembered. -/
theorem reload_failure_discards (sf : List Char → scan_t ℚ) (g : globals_t) (env0 env1 : env_t)
    (r0 r1 : result_t) (h0 : readconfig sf g env0 = some r0) (hr0 : r0.ret = 2)
    (h1 : readconfig sf r0.g env1 = some r1) (hr1 : r1.ret = 1) :
    r1.g.airport.state = state_t.noconfig ∧ r1.g.airport.ICAO = [] ∧
    r1.g.airport.routes = [] ∧ r1.g.airport.trains = [] ∧ r1.g.mtime = -1 ∧
    r1.g.airport ≠ r0.g.airport := by
  have hroutes : r0.g.airport.routes ≠ [] := by
    rcases readconfig_cases sf g env0 r0 h0 with c | c | c
    · rw [c.1] at hr0; cases hr0
    · rw [c.1] at hr0; cases hr0
    · exact c.2.2.1
  rcases readconfig_cases sf r0.g env1 r1 h1 with c | c | c
  · rw [c.1] at hr1; cases hr1
  · rw [c.2]
    refine ⟨rfl, rfl, rfl, rfl, rfl, ?_⟩
    intro heq
    apply hroutes
    rw [← heq]
    rfl
  · rw [c.1] at hr1; cases hr1

theorem reload_failure_discards_witness :
    bad_result.g.airport.state = state_t.noconfig ∧ bad_result.g.airport.ICAO = [] ∧
    bad_result.g.airport.routes = [] ∧ bad_result.g.airport.trains = [] ∧
    bad_result.g.mtime = -1 ∧ bad_result.g.airport ≠ good_result.g.airport :=
  reload_failure_discards scan_f start (found_file 1 good_file) (found_file 2 bad_file)
    good_result bad_result (by rfl) (by decide) (by rfl) (by decide)

/-! ## Files without a route -/

theorem not_route_token (n : Nat) (line c1 : List Char) (rest : List (List Char))
    (h : tokens n line = c1 :: rest) (hr : isrouteline line = false) :
    strcaseeq c1 "route".toList = false := by
  unfold isrouteline at hr
  simp only [Bool.or_eq_false_iff] at hr
  cases n with
  | zero => have := hr.1; rw [h] at this; exact this
  | succ n =>
    have h1 : tokens (n + 1) line = tokens 1 line := by simp [tokens]
    rw [h1] at h
    have := hr.2; rw [h] at this; exact this

theorem header_line_routes (sf : List Char → scan_t ℚ) (p p1 : parser_t)
    (c1 : List Char) (rest rest1 : List (List Char))
    (h : header_line sf p c1 rest = branch_t.ok p1 rest1) :
    p1.airport.routes = p.airport.routes ∧ p1.currentroute = p.currentroute := by
  unfold header_line at h
  simp only [] at h
  repeat' split at h
  all_goals first
    | contradiction
    | (cases h; exact ⟨rfl, rfl⟩)

theorem train_line_routes (sf : List Char → scan_t ℚ) (p p1 : parser_t) (ct : Nat)
    (train : train_t) (c1 : List Char) (rest rest1 : List (List Char))
    (h : train_line sf p ct train c1 rest = branch_t.ok p1 rest1) :
    p1.airport.routes = p.airport.routes ∧ p1.currentroute = p.currentroute := by
  unfold train_line at h
  simp only [] at h
  repeat' split at h
  all_goals first
    | contradiction
    | (cases h; exact ⟨rfl, rfl⟩)

theorem new_train_routes (p p1 : parser_t) (rest rest1 : List (List Char))
    (h : new_train p rest = branch_t.ok p1 rest1) :
    p1.airport.routes = p.airport.routes ∧ p1.currentroute = p.currentroute := by
  unfold new_train at h
  simp only [] at h
  repeat' split at h
  all_goals first
    | contradiction
    | (cases h; exact ⟨rfl, rfl⟩)

theorem readline_routeless (sf : List Char → scan_t ℚ) (p0 p1 : parser_t) (line : List Char)
    (h : readline sf p0 line = line_t.next p1) (hr : isrouteline line = false)
    (h0 : p0.airport.routes = [] ∧ p0.currentroute = none) :
    p1.airport.routes = [] ∧ p1.currentroute = none := by
  obtain ⟨hro, hcu⟩ := h0
  unfold readline at h
  simp only [] at h
  split at h
  · unfold blank_line at h
    simp only [hcu] at h
    split at h
    · cases h
    · cases h; exact ⟨hro, rfl⟩
  · rename_i c1 rest htok
    have hnr := not_route_token _ _ _ _ htok hr
    split at h
    · cases h; exact ⟨hro, hcu⟩
    · split at h
      · cases h
      · cases h
      · rename_i heq
        cases h
        simp only [hcu, hnr] at heq
        repeat' split at heq
        all_goals first
          | contradiction
          | exact ⟨(header_line_routes sf _ _ _ _ _ heq).1.trans hro,
              (header_line_routes sf _ _ _ _ _ heq).2⟩
          | exact ⟨(train_line_routes sf _ _ _ _ _ _ _ heq).1.trans hro,
              (train_line_routes sf _ _ _ _ _ _ _ heq).2⟩
          | exact ⟨(new_train_routes _ _ _ _ heq).1.trans hro, (new_train_routes _ _ _ _ heq).2⟩
      · cases h

theorem readlines_routeless (sf : List Char → scan_t ℚ) (lines : List (List Char)) :
    ∀ (p p1 : parser_t), readlines sf p lines = line_t.next p1 →
      (∀ line ∈ lines, isrouteline line = false) →
      p.airport.routes = [] ∧ p.currentroute = none →
      p1.airport.routes = [] ∧ p1.currentroute = none := by
  induction lines with
  | nil => intro p p1 h _ h0; simp only [readlines] at h; cases h; exact h0
  | cons line lines ih =>
    intro p p1 h hr h0
    simp only [readlines] at h
    split at h
    · rename_i q hq
      exact ih q p1 h (fun l hl => hr l (List.mem_cons_of_mem _ hl))
        (readline_routeless sf p q line hq (hr line (List.mem_cons_self _ _)) h0)
    · cases h

/-- C3: the result of `readconfig` determines the airport state. It is 0, 1 or 2; when it
is 2 the state is `inactive` and the route list is not empty; when it is 1 the state is
`noconfig`. And a changed file that is read to its end without a malformed line but has
no line starting a route makes `readconfig` return 1 and leaves no routes and no trains. -/
theorem readconfig_tristate (sf : List Char → scan_t ℚ) (g : globals_t) (env : env_t) :
    (∀ r, readconfig sf g env = some r →
      (r.ret = 0 ∨ r.ret = 1 ∨ r.ret = 2) ∧
      (r.ret = 2 → r.g.airport.state = state_t.inactive ∧ r.g.airport.routes ≠ []) ∧
      (r.ret = 1 → r.g.airport.state = state_t.noconfig)) ∧
    (∀ (lines : List (List Char)) (t : Int) (p : parser_t),
      env.opendir = true → env.found = true → env.st_mtime = some t → t ≠ g.mtime →
      env.file = some lines → readlines sf (parser0 g.airport) lines = line_t.next p →
      (∀ line ∈ lines, isrouteline line = false) →
      ∃ r, readconfig sf g env = some r ∧ r.ret = 1 ∧ r.g.airport.routes = [] ∧
        r.g.airport.trains = []) := by
  constructor
  · intro r h
    rcases readconfig_cases sf g env r h with c | c | c
    · refine ⟨Or.inl c.1, ?_, ?_⟩ <;> intro h2 <;> rw [c.1] at h2 <;> cases h2
    · refine ⟨Or.inr (Or.inl c.1), ?_, ?_⟩
      · intro h2; rw [c.1] at h2; cases h2
      · intro _; rw [c.2]; rfl
    · refine ⟨Or.inr (Or.inr c.1), ?_, ?_⟩
      · intro _; exact ⟨c.2.1, c.2.2.1⟩
      · intro h2; rw [c.1] at h2; cases h2
  · intro lines t p ho hf ht hne hl hnext hnr
    have hp := readlines_routeless sf lines _ p hnext hnr ⟨rfl, rfl⟩
    have heof : at_eof p = p.airport := by simp [at_eof, hp.2]
    by_cases hst : p.airport.state = state_t.noconfig
    · refine ⟨{ ret := 1, g := { airport := p.airport, mtime := (clearconfig g.airport).mtime }
                log := ["Can\x27t read groundtraffic.txt".toList] }, ?_, rfl, hp.1, ?_⟩
      · simp [readconfig, ho, hf, ht, hne, hl, hnext, heof, hst]
      · have hw := readlines_wf sf lines _ p (wf_parser0 g.airport) hnext
        show p.airport.trains = []
        rw [(hw.fresh hst).1]; rfl
    · refine ⟨{ ret := 1, g := clearconfig p.airport, log := ["No routes defined!".toList] },
        ?_, rfl, rfl, rfl⟩
      simp [readconfig, ho, hf, ht, hne, hl, hnext, heof, hst, hp.1]

theorem readconfig_tristate_witness :
    ∃ r, readconfig scan_f start (found_file 1 routeless_file) = some r ∧ r.ret = 1 ∧
      r.g.airport.routes = [] ∧ r.g.airport.trains = [] :=
  (readconfig_tristate scan_f start (found_file 1 routeless_file)).2
    (routeless_file.map String.toList) 1
    ((match readlines scan_f (parser0 start.airport) (routeless_file.map String.toList) with
      | line_t.next p => p
      | line_t.stop _ => parser0 start.airport))
    rfl rfl rfl (by decide) rfl (by rfl) (by decide)

/-! ## The cached modification time -/

/-- The static `mtime` holds the recorded modification time, or -1 when there is none. -/
theorem mtime_recorded (sf : List Char → scan_t ℚ) (calls : List call_t) :
    ∀ (g g1 : globals_t) (recorded : Option Int), g.mtime = recorded.getD (-1) →
      run sf g calls = some g1 → g1.mtime = (recorded_mtime sf g recorded calls).getD (-1) := by
  induction calls with
  | nil =>
    intro g g1 recorded h hrun
    simp only [run, Option.some.injEq] at hrun
    subst hrun
    exact h
  | cons call calls ih =>
    intro g g1 recorded h hrun
    cases call with
    | clear =>
      simp only [run] at hrun
      simp only [recorded_mtime]
      exact ih _ g1 none rfl hrun
    | load env =>
      simp only [run] at hrun
      simp only [recorded_mtime]
      cases hr : readconfig sf g env with
      | none => rw [hr] at hrun; cases hrun
      | some r =>
        rw [hr] at hrun
        simp only [] at hrun ⊢
        rcases readconfig_cases sf g env r hr with c | c | c
        · have h2 : ¬ r.ret = 2 := by rw [c.1]; decide
          simp only [h2, c.1, if_true, if_false]
          exact ih r.g g1 recorded (by rw [c.2.1]; exact h) hrun
        · have h2 : ¬ r.ret = 2 := by rw [c.1]; decide
          have h0 : ¬ r.ret = 0 := by rw [c.1]; decide
          simp only [h2, h0, if_false]
          exact ih r.g g1 none (by rw [c.2]; rfl) hrun
        · simp only [c.1, if_true]
          exact ih r.g g1 env.st_mtime (by rw [c.2.2.2.1]; rfl) hrun

/-- When the file is found, `readconfig` returns 0, and changes nothing, exactly when
`st_mtime` equals the static `mtime`. -/
theorem readconfig_unchanged (sf : List Char → scan_t ℚ) (g : globals_t) (env : env_t) (t : Int)
    (ho : env.opendir = true) (hf : env.found = true) (ht : env.st_mtime = some t) :
    (t = g.mtime → readconfig sf g env = some { ret := 0, g := g, log := [] }) ∧
    (∀ r, readconfig sf g env = some r → r.ret = 0 → t = g.mtime ∧ r.g = g) := by
  constructor
  · intro h
    simp [readconfig, ho, hf, ht, h]
  · intro r hr h0
    rcases readconfig_cases sf g env r hr with c | c | c
    · refine ⟨?_, c.2.1⟩
      have := c.2.2
      rw [ht] at this
      exact Option.some.inj this
    · rw [c.1] at h0; cases h0
    · rw [c.1] at h0; cases h0

/-- C4 as stated fails: at the start (no load has succeeded, `mtime` is -1) a file whose
modification time is -1 makes `readconfig` return 0, although no successful load has
recorded that time; the airport stays unconfigured. -/
theorem unchanged_without_load :
    readconfig scan_f start (found_file (-1) good_file) = some { ret := 0, g := start, log := [] } ∧
    recorded_mtime scan_f start none [] = none ∧
    start.airport.state = state_t.noconfig := by
  refine ⟨by rfl, by rfl, by rfl⟩

/-- C4 amended: given that `groundtraffic.txt` is found and its modification time `t` is
not -1, after any sequence of calls from the start `readconfig` returns 0 exactly when `t`
equals the time recorded by the last successful load, with no failed load and no
`clearconfig` since; in that case it does return, and whenever it returns 0 it changes
nothing (airport and `mtime`). A second call on a file that was just loaded successfully
returns 0 and changes nothing. -/
theorem readconfig_unchanged_iff_recorded (sf : List Char → scan_t ℚ) (calls : List call_t)
    (g : globals_t) (env : env_t) (t : Int) (hrun : run sf start calls = some g)
    (ho : env.opendir = true) (hf : env.found = true) (ht : env.st_mtime = some t)
    (hneg : t ≠ -1) :
    (recorded_mtime sf start none calls = some t →
      readconfig sf g env = some { ret := 0, g := g, log := [] }) ∧
    (∀ r, readconfig sf g env = some r →
      (r.ret = 0 ↔ recorded_mtime sf start none calls = some t) ∧ (r.ret = 0 → r.g = g) ∧
      (r.ret = 2 → readconfig sf r.g env = some { ret := 0, g := r.g, log := [] })) := by
  have hm := mtime_recorded sf calls start g none rfl hrun
  have hiff : t = g.mtime ↔ recorded_mtime sf start none calls = some t := by
    rw [hm]
    cases hrec : recorded_mtime sf start none calls with
    | none => simp [hneg]
    | some v => simp [eq_comm]
  obtain ⟨hu1, hu2⟩ := readconfig_unchanged sf g env t ho hf ht
  refine ⟨fun h => hu1 (hiff.2 h), ?_⟩
  intro r hr
  refine ⟨⟨fun h0 => hiff.1 (hu2 r hr h0).1, ?_⟩, fun h0 => (hu2 r hr h0).2, ?_⟩
  · intro hrec
    have := hu1 (hiff.2 hrec)
    rw [hr] at this
    cases this
    rfl
  · intro h2
    rcases readconfig_cases sf g env r hr with c | c | c
    · rw [c.1] at h2; cases h2
    · rw [c.1] at h2; cases h2
    · have hts : t = r.g.mtime := by
        have := c.2.2.2.1
        rw [ht] at this
        exact Option.some.inj this
      exact (readconfig_unchanged sf r.g env t ho hf ht).1 hts

theorem readconfig_unchanged_iff_recorded_witness :
    (recorded_mtime scan_f start none [call_t.load (found_file 1 good_file)] = some 1 →
      readconfig scan_f good_result.g (found_file 1 good_file) =
        some { ret := 0, g := good_result.g, log := [] }) ∧
    (∀ r, readconfig scan_f good_result.g (found_file 1 good_file) = some r →
      (r.ret = 0 ↔
        recorded_mtime scan_f start none [call_t.load (found_file 1 good_file)] = some 1) ∧
      (r.ret = 0 → r.g = good_result.g) ∧
      (r.ret = 2 → readconfig scan_f r.g (found_file 1 good_file) =
        some { ret := 0, g := r.g, log := [] })) :=
  readconfig_unchanged_iff_recorded scan_f [call_t.load (found_file 1 good_file)]
    good_result.g (found_file 1 good_file) 1 (by rfl) rfl rfl rfl (by decide)

/-! ## Train expansion when a route block is closed -/

/-- A route block that is open after some lines is the last route of the list, as `memset`
left it as far as `parent`, time lag and `next_time` go. -/
theorem open_route_fresh (sf : List Char → scan_t ℚ) (a : airport_t) (lines : List (List Char))
    (p : parser_t) (cr : Nat) (r : route_t)
    (hreach : readlines sf (parser0 a) lines = line_t.next p)
    (hcur : p.currentroute = some cr) (hr : p.airport.routes[cr]? = some r) :
    cr + 1 = p.airport.routes.length ∧ r.parent = none ∧ r.object.offset = 0 ∧
    r.next_time = 0 := by
  have hw := readlines_wf sf lines _ p (wf_parser0 a) hreach
  obtain ⟨h1, r1, h2, h3, h4, h5⟩ := hw.cur cr hcur
  rw [hr] at h2
  cases h2
  exact ⟨h1, h3, h4, h5⟩

theorem trainlen_le (objects : List objdef_t) : trainlen objects ≤ MAX_TRAIN := by
  unfold trainlen
  calc ((objects.take MAX_TRAIN).takeWhile (fun o => !o.name.isEmpty)).length
      ≤ (objects.take MAX_TRAIN).length := (List.takeWhile_prefix _).length_le
    _ ≤ MAX_TRAIN := by simp [List.length_take]

theorem entry_exists (objects : List objdef_t) (i : Nat) (hi : i < trainlen objects) :
    ∃ o, objects[i]? = some o := by
  rw [← carriages_getElem? objects i hi]
  exact ⟨(carriages objects)[i], List.getElem?_eq_getElem hi⟩

/-- The call of `expandtrain` for the open route block at position `cr`: when the object name of the route is the name of a train with
`k` object entries, `1 ≤ k ≤ 16`, the route list then ends with exactly `k` consecutive
routes for the block, from position `cr` on and in train-entry order: the first is the
original record and has no parent, every other one has the first as its parent, and all
`k` have the path and the path length of the block. -/
theorem expandtrain_replicates (sf : List Char → scan_t ℚ) (a : airport_t)
    (lines : List (List Char)) (p : parser_t) (cr : Nat) (r : route_t) (train : train_t)
    (hreach : readlines sf (parser0 a) lines = line_t.next p)
    (hcur : p.currentroute = some cr) (hr : p.airport.routes[cr]? = some r)
    (ht : p.airport.trains.find? (fun t => r.object.name == t.name) = some train)
    (hk : 1 ≤ trainlen train.objects) :
    trainlen train.objects ≤ 16 ∧
    (expandtrain p.airport cr).1.routes.length = cr + trainlen train.objects ∧
    (expandtrain p.airport cr).1.routes.take cr = p.airport.routes.take cr ∧
    (expandtrain p.airport cr).2 + 1 = cr + trainlen train.objects ∧
    ∀ i, i < trainlen train.objects →
      ∃ c o, (expandtrain p.airport cr).1.routes[cr + i]? = some c ∧
        train.objects[i]? = some o ∧ c.object.name = o.name ∧
        c.parent = (if i = 0 then none else some cr) ∧
        c.path = r.path ∧ c.pathlen = r.pathlen := by
  obtain ⟨hlast, hpar, _, _⟩ := open_route_fresh sf a lines p cr r hreach hcur hr
  have hpre := (split_last p.airport.routes cr r hr hlast).2
  have hcl := cars_length cr r (carriages train.objects)
  have hm := expandtrain_match p.airport cr r train hr hlast ht
  rw [trainlen_eq] at hk ⊢
  refine ⟨trainlen_le train.objects, ?_, ?_, ?_, ?_⟩
  · rw [hm]
    simp only [List.length_append, hpre, hcl]
    omega
  · rw [hm]
    show (p.airport.routes.take cr ++ cars cr r (carriages train.objects)).take cr = _
    rw [List.take_append_of_le_length (by omega)]
    rw [List.take_take]
    simp
  · rw [hm]
    show cr + ((carriages train.objects).length - 1) + 1 = _
    omega
  · intro i hi
    obtain ⟨o, ho⟩ := entry_exists train.objects i hi
    obtain ⟨c, h1, h2, _, _, h5, h6, _, h8, _⟩ :=
      expandtrain_car p.airport cr r train hr hlast ht i o hi ho
    rw [hpar] at h8
    exact ⟨c, o, h1, ho, h2, h8, h5, h6⟩

theorem expandtrain_replicates_witness :
    trainlen (train_after train_file).objects = 2 ∧
    trainlen (train_after train_file).objects ≤ 16 ∧
    (expandtrain (after_lines train_file).airport 0).1.routes.length =
      0 + trainlen (train_after train_file).objects ∧
    (expandtrain (after_lines train_file).airport 0).1.routes.take 0 =
      (after_lines train_file).airport.routes.take 0 ∧
    (expandtrain (after_lines train_file).airport 0).2 + 1 =
      0 + trainlen (train_after train_file).objects ∧
    ∀ i, i < trainlen (train_after train_file).objects →
      ∃ c o, (expandtrain (after_lines train_file).airport 0).1.routes[0 + i]? = some c ∧
        (train_after train_file).objects[i]? = some o ∧ c.object.name = o.name ∧
        c.parent = (if i = 0 then none else some 0) ∧
        c.path = (route_after train_file 0).path ∧
        c.pathlen = (route_after train_file 0).pathlen :=
  ⟨by decide,
   expandtrain_replicates scan_f start.airport (train_file.map String.toList)
    (after_lines train_file) 0 (route_after train_file 0) (train_after train_file)
    (by rfl) (by rfl) (by rfl) (by rfl) (by decide)⟩

/-- C6: for every carriage `i` of a train expanded on a route whose speed `s`, in m/s, is
greater than 0, the time lag of the car (kept in `object.offset` of its route) is the
offset of train entry `i`, in metres, divided by `s`, and its `next_time` is the negation
of that lag; every car runs at the speed `s` of the route. -/
theorem expandtrain_time_lag (sf : List Char → scan_t ℚ) (a : airport_t)
    (lines : List (List Char)) (p : parser_t) (cr : Nat) (r : route_t) (train : train_t)
    (hreach : readlines sf (parser0 a) lines = line_t.next p)
    (hcur : p.currentroute = some cr) (hr : p.airport.routes[cr]? = some r)
    (ht : p.airport.trains.find? (fun t => r.object.name == t.name) = some train)
    (_hs : 0 < r.speed) (i : Nat) (o : objdef_t) (hi : i < trainlen train.objects)
    (ho : train.objects[i]? = some o) :
    ∃ c, (expandtrain p.airport cr).1.routes[cr + i]? = some c ∧
      c.object.offset = o.offset / r.speed ∧ c.next_time = -c.object.offset ∧
      c.speed = r.speed := by
  obtain ⟨hlast, _, _, _⟩ := open_route_fresh sf a lines p cr r hreach hcur hr
  obtain ⟨c, h1, _, h3, h4, _, _, h7, _, _⟩ :=
    expandtrain_car p.airport cr r train hr hlast ht i o hi ho
  exact ⟨c, h1, h3, by rw [h4, h3], h7⟩

theorem expandtrain_time_lag_witness :
    (train_after train_file).objects[1]? =
      some { name := "cart".toList, heading := 0, offset := 5, lag := 0 } ∧
    ∃ c : route_t, (expandtrain (after_lines train_file).airport 0).1.routes[0 + 1]? = some c ∧
      c.object.offset = 5 / (route_after train_file 0).speed ∧
      c.next_time = -c.object.offset ∧ c.speed = (route_after train_file 0).speed :=
  ⟨by with_unfolding_all rfl,
   expandtrain_time_lag scan_f start.airport (train_file.map String.toList)
    (after_lines train_file) 0 (route_after train_file 0) (train_after train_file)
    (by rfl) (by rfl) (by rfl) (by rfl) (by with_unfolding_all decide) 1
    { name := "cart".toList, heading := 0, offset := 5, lag := 0 } (by decide)
    (by with_unfolding_all rfl)⟩

/-- C8: train matching is exact and a route that matches no train is left alone. If the
object name of the open route block at position `cr` is not, byte for byte, the name of
any train defined so far, `expandtrain` returns `cr` and changes nothing in the airport: the
block stays the single, last route of the list, with its object name, heading, speed, path
and path length, and it has no parent, time lag 0 and `next_time` 0. -/
theorem expandtrain_no_train (sf : List Char → scan_t ℚ) (a : airport_t)
    (lines : List (List Char)) (p : parser_t) (cr : Nat) (r : route_t)
    (hreach : readlines sf (parser0 a) lines = line_t.next p)
    (hcur : p.currentroute = some cr) (hr : p.airport.routes[cr]? = some r)
    (hno : ∀ t ∈ p.airport.trains, t.name ≠ r.object.name) :
    expandtrain p.airport cr = (p.airport, cr) ∧
    (expandtrain p.airport cr).1.routes[cr]? = some r ∧
    cr + 1 = (expandtrain p.airport cr).1.routes.length ∧
    r.parent = none ∧ r.object.offset = 0 ∧ r.next_time = 0 := by
  obtain ⟨hlast, h1, h2, h3⟩ := open_route_fresh sf a lines p cr r hreach hcur hr
  have hfind : p.airport.trains.find? (fun t => r.object.name == t.name) = none := by
    rw [List.find?_eq_none]
    intro t htm hb
    exact hno t htm (beq_iff_eq.mp hb).symm
  have hm := expandtrain_nomatch p.airport cr r hr hfind
  rw [hm]
  exact ⟨rfl, hr, hlast, h1, h2, h3⟩

theorem expandtrain_no_train_witness :
    (route_after plain_file 0).object.name = "tug".toList ∧
    (after_lines plain_file).airport.trains.map (fun t => t.name) = ["Tug".toList] ∧
    expandtrain (after_lines plain_file).airport 0 = ((after_lines plain_file).airport, 0) ∧
    (expandtrain (after_lines plain_file).airport 0).1.routes[0]? =
      some (route_after plain_file 0) ∧
    0 + 1 = (expandtrain (after_lines plain_file).airport 0).1.routes.length ∧
    (route_after plain_file 0).parent = none ∧ (route_after plain_file 0).object.offset = 0 ∧
    (route_after plain_file 0).next_time = 0 :=
  ⟨by rfl, by rfl,
   expandtrain_no_train scan_f start.airport (plain_file.map String.toList)
    (after_lines plain_file) 0 (route_after plain_file 0) (by rfl) (by rfl) (by rfl)
    (by decide)⟩

/-- The heading of the carriages: the leader gets the heading of the `route` line plus
that of entry 0; a follower is copied from the leader after that, so it gets the heading of
the `route` line plus that of entry 0 plus that of its own entry. -/
theorem expandtrain_heading (sf : List Char → scan_t ℚ) (a : airport_t)
    (lines : List (List Char)) (p : parser_t) (cr : Nat) (r : route_t) (train : train_t)
    (hreach : readlines sf (parser0 a) lines = line_t.next p)
    (hcur : p.currentroute = some cr) (hr : p.airport.routes[cr]? = some r)
    (ht : p.airport.trains.find? (fun t => r.object.name == t.name) = some train)
    (i : Nat) (o o0 : objdef_t) (hi : i < trainlen train.objects)
    (ho : train.objects[i]? = some o) (ho0 : train.objects[0]? = some o0) :
    ∃ c, (expandtrain p.airport cr).1.routes[cr + i]? = some c ∧ c.object.name = o.name ∧
      c.object.heading =
        (if i = 0 then r.object.heading + o.heading
         else r.object.heading + o0.heading + o.heading) := by
  obtain ⟨hlast, _, _, _⟩ := open_route_fresh sf a lines p cr r hreach hcur hr
  obtain ⟨c, h1, h2, _, _, _, _, _, _, h9⟩ :=
    expandtrain_car p.airport cr r train hr hlast ht i o hi ho
  refine ⟨c, h1, h2, ?_⟩
  rw [h9]
  simp [List.head?_eq_getElem?, ho0]

/-- C7 at a failing input: the train `tug` has the entries `tractor` (heading 90) and `cart`
(heading 0) and the route line `route 20 tug` gives no heading. The load succeeds with two
cars; the car `cart` has heading 90, the route heading 0 plus the heading 0 of its entry
would be 0. -/
theorem follower_heading_adds_leader_entry :
    (readconfig scan_f start (found_file 1 train_file)).map
      (fun r => (r.ret, r.g.airport.routes.map
        (fun c => (c.object.name, c.object.heading, c.parent)))) =
      some (2, [("tractor".toList, 90, none), ("cart".toList, 90, some 0)]) ∧
    (train_after train_file).objects.map (fun o => o.heading) =
      [90, 0] ++ List.replicate 14 0 ∧
    (route_after train_file 0).object.heading = 0 := by
  refine ⟨by with_unfolding_all rfl, by with_unfolding_all rfl, by with_unfolding_all rfl⟩

/-- C9 at a failing input: a file that ends right after a `route` line loads successfully
(return 2) with a route that has no waypoint, while the same file with one blank line
appended fails to load (return 1, `Empty route at line 3`). -/
theorem eof_skips_empty_route_check :
    (readconfig scan_f start (found_file 1 open_file)).map
      (fun r => (r.ret, r.g.airport.state, r.g.airport.routes.map (fun c => c.pathlen), r.log)) =
      some (2, state_t.inactive, [0], []) ∧
    (readconfig scan_f start (found_file 1 (open_file ++ ["\n"]))).map
      (fun r => (r.ret, r.g.airport.state, r.g.airport.routes.map (fun c => c.pathlen), r.log)) =
      some (1, state_t.noconfig, [], ["Empty route at line 3".toList]) := by
  refine ⟨by rfl, by rfl⟩

/-- C10 at a failing input: a file whose last line is a `route` line loads successfully
(return 2) and the route list then holds a route with no waypoint: path length 0 and an
empty path. -/
theorem loaded_route_without_waypoint :
    (readconfig scan_f start (found_file 1 unfinished_file)).map
      (fun r => (r.ret, r.g.airport.routes.map (fun c => (c.object.name, c.pathlen, c.path.length)))) =
      some (2, [("baggage_cart".toList, 2, 2), ("fuel_truck".toList, 0, 0)]) := by
  rfl

/-! ## One line at a time -/

theorem readline_eq (sf : List Char → scan_t ℚ) (p : parser_t) (line c1 : List Char)
    (rest : List (List Char)) (htok : tokens p.lineno line = c1 :: rest)
    (hc : c1.head? ≠ some '#') :
    readline sf p line = endline (counted p) (branch_of sf (counted p) c1 rest) := by
  unfold readline
  simp only [htok, hc, if_false]
  unfold endline branch_of counted
  rfl

theorem readline_blank (sf : List Char → scan_t ℚ) (p : parser_t) (line : List Char)
    (htok : tokens p.lineno line = []) : readline sf p line = blank_line (counted p) := by
  unfold readline
  simp only [htok]
  rfl

theorem readline_comment (sf : List Char → scan_t ℚ) (p : parser_t) (line c1 : List Char)
    (rest : List (List Char)) (htok : tokens p.lineno line = c1 :: rest)
    (hc : c1.head? = some '#') : readline sf p line = line_t.next (counted p) := by
  unfold readline
  simp only [htok, hc, if_true]
  rfl

theorem readlines_append (sf : List Char → scan_t ℚ) (pre : List (List Char)) :
    ∀ (p q : parser_t) (post : List (List Char)), readlines sf p pre = line_t.next q →
      readlines sf p (pre ++ post) = readlines sf q post := by
  induction pre with
  | nil => intro p q post h; simp only [readlines] at h; cases h; rfl
  | cons l pre ih =>
    intro p q post h
    simp only [readlines, List.cons_append] at h ⊢
    cases hp1 : readline sf p l with
    | next p1 =>
      rw [hp1] at h
      exact ih p1 q post h
    | stop r => rw [hp1] at h; cases h

/-- A line that makes `failconfig` return ends the call with that result. -/
theorem reaches_stop (sf : List Char → scan_t ℚ) (g : globals_t) (env : env_t)
    (pre : List (List Char)) (line : List Char) (post : List (List Char)) (p : parser_t)
    (h : reaches sf g env pre line post p) (r : Option result_t)
    (hstop : readline sf p line = line_t.stop r) : readconfig sf g env = r := by
  obtain ⟨t, ht, hne⟩ := h.changed
  have hl : readlines sf (parser0 g.airport) (pre ++ line :: post) = line_t.stop r := by
    rw [readlines_append sf pre _ p _ h.lines]
    simp only [readlines, hstop]
  simp [readconfig, h.opendir, h.found, ht, hne, h.file, hl]

theorem reaches_wf (sf : List Char → scan_t ℚ) (g : globals_t) (env : env_t)
    (pre : List (List Char)) (line : List Char) (post : List (List Char)) (p : parser_t)
    (h : reaches sf g env pre line post p) : wf p :=
  readlines_wf sf pre _ p (wf_parser0 g.airport) h.lines

/-! ## The open route block and its path -/

theorem mem_upd {α : Type} (l : List α) (i : Nat) (f : α → α) (x : α) (h : x ∈ upd l i f) :
    x ∈ l ∨ ∃ a ∈ l, x = f a := by
  induction l generalizing i with
  | nil => simp [upd] at h
  | cons a l ih =>
    cases i with
    | zero =>
      simp only [upd, List.mem_cons] at h
      rcases h with h | h
      · exact Or.inr ⟨a, List.mem_cons_self _ _, h⟩
      · exact Or.inl (List.mem_cons_of_mem _ h)
    | succ i =>
      simp only [upd, List.mem_cons] at h
      rcases h with h | h
      · exact Or.inl (h ▸ List.mem_cons_self _ _)
      · rcases ih i h with h1 | ⟨b, hb, h1⟩
        · exact Or.inl (List.mem_cons_of_mem _ h1)
        · exact Or.inr ⟨b, List.mem_cons_of_mem _ hb, h1⟩

theorem at_times_length (lineno : Nat) (toks : List (List Char)) :
    ∀ (i : Nat) (attime attime1 : List Int) (i1 : Nat) (rest : List (List Char)),
      at_times lineno toks i attime = attimes_t.done attime1 i1 rest →
      attime1.length = attime.length := by
  induction toks with
  | nil =>
    intro i attime attime1 i1 rest h
    simp only [at_times] at h
    cases h
    rfl
  | cons c1 toks ih =>
    intro i attime attime1 i1 rest h
    simp only [at_times] at h
    repeat' split at h
    all_goals first
      | contradiction
      | (cases h; rfl)
      | (have hh := ih _ _ _ _ _ h
         simpa using hh)

theorem pathok_lastnode (r : route_t) (f : path_t → path_t)
    (hf : ∀ n, n.attime.length = MAX_ATTIMES → (f n).attime.length = MAX_ATTIMES)
    (h : pathok r) : pathok (lastnode r f) := by
  obtain ⟨h1, h2⟩ := h
  constructor
  · show r.pathlen = (upd r.path (r.pathlen - 1) f).length
    rw [upd_length]; exact h1
  · intro node hn
    rcases mem_upd _ _ _ _ hn with h3 | ⟨a, ha, h3⟩
    · exact h2 node h3
    · rw [h3]; exact hf a (h2 a ha)

theorem pathok_addnode (r : route_t) (lat lon : ℚ) (h : pathok r) :
    pathok (addnode r (newnode lat lon)) := by
  obtain ⟨h1, h2⟩ := h
  constructor
  · show r.pathlen + 1 = (r.path.take r.pathlen ++ [newnode lat lon]).length
    simp [h1]
  · intro node hn
    have hn1 : node ∈ r.path.take r.pathlen ++ [newnode lat lon] := hn
    rw [List.mem_append] at hn1
    rcases hn1 with h3 | h3
    · exact h2 node (List.mem_of_mem_take h3)
    · simp only [List.mem_singleton] at h3
      rw [h3]
      simp [newnode, MAX_ATTIMES]

/-- What a line inside a route block does when it is accepted: one write to the open route
that keeps the shape of its path; the block stays open or, for `reverse`, is closed. -/
theorem route_line_ok (sf : List Char → scan_t ℚ) (p p1 : parser_t) (cr : Nat) (r : route_t)
    (c1 : List Char) (rest rest1 : List (List Char))
    (h : route_line sf p cr r c1 rest = branch_t.ok p1 rest1) :
    ∃ f : route_t → route_t, p1.airport = store_route p.airport cr f ∧
      p1.currenttrain = p.currenttrain ∧ p1.lineno = p.lineno ∧
      (p1.currentroute = p.currentroute ∨ p1.currentroute = none) ∧
      (pathok r → pathok (f r)) ∧ (f r).speed = r.speed ∧ (f r).object = r.object := by
  unfold route_line at h
  simp only [] at h
  repeat' split at h
  all_goals first
    | contradiction
    | (cases h
       exact ⟨_, rfl, rfl, rfl, Or.inl rfl,
         fun hp => pathok_lastnode r _ (fun n hn => hn) hp, rfl, rfl⟩)
    | (cases h
       exact ⟨_, rfl, rfl, rfl, Or.inr rfl,
         fun hp => pathok_lastnode r _ (fun n hn => hn) hp, rfl, rfl⟩)
    | (cases h
       exact ⟨_, rfl, rfl, rfl, Or.inl rfl, fun hp => pathok_addnode r _ _ hp, rfl, rfl⟩)
    | (cases h
       refine ⟨_, rfl, rfl, rfl, Or.inl rfl, fun hp => pathok_lastnode r _ ?_ hp, rfl, rfl⟩
       intro n _
       have hl := at_times_length _ _ _ _ _ _ _ (by assumption)
       have hnl := hp.2 _ (List.getElem?_mem (by assumption))
       simp [hl, hnl])

theorem blank_line_next (p p1 : parser_t) (h : blank_line p = line_t.next p1) :
    p1.currentroute = none ∧ p1.currenttrain = none ∧ p1.lineno = p.lineno := by
  unfold blank_line at h
  simp only [] at h
  split at h
  · cases h
  · rename_i q hq
    have hln : q.lineno = p.lineno := by
      repeat' split at hq
      all_goals first
        | contradiction
        | (cases hq; rfl)
    split at h
    · cases h
    · cases h; exact ⟨rfl, rfl, hln⟩

/-- What an accepted `route` line stores: a new last route with an empty path, the speed
read from the line converted to m/s, and the block open. -/
theorem new_route_ok (sf : List Char → scan_t ℚ) (p p1 : parser_t)
    (rest rest1 : List (List Char)) (hp : wf p)
    (h : new_route sf p rest = branch_t.ok p1 rest1) :
    p1.currentroute = some p.airport.routes.length ∧ p1.currenttrain = p.currenttrain ∧
    p1.lineno = p.lineno ∧ rest1 = rest.drop 3 ∧
    ∃ (r : route_t) (t c2 : List Char) (v : ℚ),
      p1.airport.routes = p.airport.routes ++ [r] ∧
      rest[0]? = some t ∧ fullscan (sf t) = full_t.val v ∧ rest[1]? = some c2 ∧
      r.speed = v * (1000 / (60 * 60)) ∧ r.object.name = c2 ∧ r.path = [] ∧ r.pathlen = 0 ∧
      r.parent = none := by
  have hl := hp.last
  have hlink := link_last p.airport.routes p.lastroute newroute hl
  unfold new_route at h
  simp only [] at h
  repeat' split at h
  all_goals first
    | contradiction
    | (cases h
       refine ⟨by simp [hl], rfl, rfl, rfl, ?_⟩
       simp only [store_route, hlink, hl, upd_append_last]
       exact ⟨_, _, _, _, rfl, by assumption, by assumption, by assumption,
         by simp [newroute], rfl, rfl, rfl, rfl⟩)

theorem readline_wfblock (sf : List Char → scan_t ℚ) (p p1 : parser_t) (line : List Char)
    (hw : wf p) (hb : wfblock p) (h : readline sf p line = line_t.next p1) : wfblock p1 := by
  have hvac : p1.currentroute = none → wfblock p1 := by
    intro hn
    constructor
    · intro cr hc; rw [hn] at hc; cases hc
    · intro cr r hc _; rw [hn] at hc; cases hc
  have hwc : wf (counted p) := wf_same p _ hw rfl rfl (Or.inl rfl)
  cases htok : tokens p.lineno line with
  | nil =>
    rw [readline_blank sf p line htok] at h
    exact hvac (blank_line_next _ _ h).1
  | cons c1 rest =>
    by_cases hc : c1.head? = some '#'
    · rw [readline_comment sf p line c1 rest htok hc] at h
      cases h
      exact ⟨hb.excl, hb.path⟩
    · rw [readline_eq sf p line c1 rest htok hc] at h
      unfold endline at h
      split at h
      · cases h
      · cases h
      · rename_i q hq
        cases h
        unfold branch_of at hq
        split at hq
        · rename_i hst
          have h1 := header_line_routes sf _ _ _ _ _ hq
          exact hvac (h1.2.trans (hw.fresh hst).2)
        · split at hq
          · rename_i cr hcr
            split at hq
            · cases hq
            · rename_i r hr
              obtain ⟨f, ha, ht, _, hcur, hpk, _, _⟩ := route_line_ok sf _ _ _ _ _ _ _ hq
              have hro : p1.airport.routes = upd p.airport.routes cr f := by rw [ha]; rfl
              constructor
              · intro c hc1
                rw [ht]
                rcases hcur with h2 | h2
                · rw [h2] at hc1; exact hb.excl c hc1
                · rw [h2] at hc1; cases hc1
              · intro c r1 hc1 hr1
                rcases hcur with h2 | h2
                · rw [h2] at hc1
                  have hcc : cr = c := Option.some.inj (hcr.symm.trans hc1)
                  subst hcc
                  rw [hro, upd_getElem?] at hr1
                  have hr' : p.airport.routes[cr]? = some r := hr
                  simp only [hr', if_true, Option.map_some', Option.some.injEq] at hr1
                  rw [← hr1]
                  exact hpk (hb.path cr r hcr hr)
                · rw [h2] at hc1; cases hc1
          · rename_i hnone
            split at hq
            · split at hq
              · cases hq
              · exact hvac ((train_line_routes sf _ _ _ _ _ _ _ hq).2.trans hnone)
            · rename_i htr
              split at hq
              · obtain ⟨h1, h2, _, _, r, _, _, _, h3, _, _, _, _, _, h4, h5, _⟩ :=
                  new_route_ok sf _ _ _ _ hwc hq
                have hlen : (counted p).airport.routes.length = p.airport.routes.length := rfl
                constructor
                · intro _ _; rw [h2]; exact htr
                · intro c r1 hc1 hr1
                  rw [h1] at hc1
                  have hcc := Option.some.inj hc1
                  rw [h3, ← hcc] at hr1
                  simp only [List.getElem?_concat_length, Option.some.injEq] at hr1
                  rw [← hr1]
                  exact ⟨by rw [h5, h4]; rfl, by rw [h4]; intro n hn; cases hn⟩
              · split at hq
                · exact hvac ((new_train_routes _ _ _ _ hq).2.trans hnone)
                · cases hq
      · cases h

theorem readlines_wfblock (sf : List Char → scan_t ℚ) (lines : List (List Char)) :
    ∀ (p p1 : parser_t), wf p → wfblock p → readlines sf p lines = line_t.next p1 →
      wfblock p1 := by
  induction lines with
  | nil => intro p p1 _ hb h; simp only [readlines] at h; cases h; exact hb
  | cons line lines ih =>
    intro p p1 hw hb h
    simp only [readlines] at h
    cases hq : readline sf p line with
    | next q =>
      rw [hq] at h
      exact ih q p1 (readline_wf sf p q line hw hq) (readline_wfblock sf p q line hw hb hq) h
    | stop r => rw [hq] at h; cases h

theorem reaches_wfblock (sf : List Char → scan_t ℚ) (g : globals_t) (env : env_t)
    (pre : List (List Char)) (line : List Char) (post : List (List Char)) (p : parser_t)
    (h : reaches sf g env pre line post p) : wfblock p :=
  readlines_wfblock sf pre _ p (wf_parser0 g.airport)
    ⟨fun cr hc => (by simp [parser0] at hc), fun cr r hc _ => (by simp [parser0] at hc)⟩ h.lines

/-! ## Decimal numerals and `%d` -/

theorem scan_digits_all (l : List Char) :
    ∀ (v k : Nat) (rest : List Char), (∀ c ∈ l, isdigit c = true) →
      (∀ c r, rest = c :: r → isdigit c = false) →
      scan_digits (l ++ rest) v k = (digits_value l v, k + l.length, rest) := by
  induction l with
  | nil =>
    intro v k rest _ hrest
    cases rest with
    | nil => simp [scan_digits, digits_value]
    | cons c r => simp [scan_digits, digits_value, hrest c r rfl]
  | cons a l ih =>
    intro v k rest hl hrest
    have ha : isdigit a = true := hl a (List.mem_cons_self _ _)
    have := ih (10 * v + (a.toNat - 48)) (k + 1) rest
      (fun c hc => hl c (List.mem_cons_of_mem _ hc)) hrest
    have hk : k + 1 + l.length = k + (l.length + 1) := by omega
    rw [hk] at this
    simp only [List.cons_append, scan_digits, ha, if_true, digits_value, List.foldl_cons,
      List.length_cons]
    exact this

theorem digitChar_digit (d : Nat) (h : d < 10) :
    isdigit (Nat.digitChar d) = true ∧ (Nat.digitChar d).toNat - 48 = d := by
  interval_cases d <;> exact ⟨by decide, by decide⟩

theorem toDigitsCore_digits (fuel : Nat) :
    ∀ (n : Nat) (ds : List Char), (∀ c ∈ ds, isdigit c = true) →
      ∀ c ∈ Nat.toDigitsCore 10 fuel n ds, isdigit c = true := by
  induction fuel with
  | zero => intro n ds h; simpa [Nat.toDigitsCore] using h
  | succ fuel ih =>
    intro n ds h
    have hd := (digitChar_digit (n % 10) (Nat.mod_lt _ (by decide))).1
    have hcons : ∀ c ∈ Nat.digitChar (n % 10) :: ds, isdigit c = true := by
      intro c hc
      rcases List.mem_cons.1 hc with h1 | h1
      · rw [h1]; exact hd
      · exact h c h1
    simp only [Nat.toDigitsCore]
    split
    · exact hcons
    · exact ih _ _ hcons

theorem toDigitsCore_value (fuel : Nat) :
    ∀ (n : Nat) (ds : List Char), n < fuel →
      digits_value (Nat.toDigitsCore 10 fuel n ds) 0 = digits_value ds n := by
  induction fuel with
  | zero => intro n ds h; omega
  | succ fuel ih =>
    intro n ds h
    have hd := (digitChar_digit (n % 10) (Nat.mod_lt _ (by decide))).2
    simp only [Nat.toDigitsCore]
    split
    · rename_i h0
      have hn : n % 10 = n := by omega
      rw [hn] at hd
      simp only [digits_value, List.foldl_cons, hn, hd]
      simp
    · rename_i h0
      rw [ih (n / 10) _ (by omega)]
      simp only [digits_value, List.foldl_cons, hd]
      congr 1
      omega

theorem toDigitsCore_ne_nil (fuel n : Nat) (ds : List Char) (h : 0 < fuel) :
    Nat.toDigitsCore 10 fuel n ds ≠ [] := by
  have hlen : 0 < (Nat.toDigitsCore 10 fuel n ds).length := by
    cases fuel with
    | zero => omega
    | succ fuel =>
      simp only [Nat.toDigitsCore]
      split
      · simp
      · rw [Nat.toDigitsCore_lens_eq]; omega
  intro h0
  rw [h0] at hlen
  simp at hlen

/-- Reading the decimal digits of `n` gives `n`, with at least one digit read. -/
theorem scan_digits_toDigits (n : Nat) (rest : List Char)
    (hrest : ∀ c r, rest = c :: r → isdigit c = false) :
    ∃ k, 0 < k ∧ scan_digits (Nat.toDigits 10 n ++ rest) 0 0 = (n, k, rest) := by
  have hall := toDigitsCore_digits (n + 1) n [] (by simp)
  have hval := toDigitsCore_value (n + 1) n [] (Nat.lt_succ_self n)
  have hne := toDigitsCore_ne_nil (n + 1) n [] (Nat.succ_pos n)
  refine ⟨(Nat.toDigits 10 n).length, ?_, ?_⟩
  · exact List.length_pos.2 hne
  · show scan_digits (Nat.toDigitsCore 10 (n + 1) n [] ++ rest) 0 0 = _
    rw [scan_digits_all _ 0 0 rest hall hrest, hval]
    simp [digits_value, Nat.toDigits]

theorem digit_plain (c : Char) (h : isdigit c = true) :
    isspace c = false ∧ (c == '-') = false ∧ (c == '+') = false ∧ (c == ':') = false := by
  have h1 : 48 ≤ c.toNat ∧ c.toNat ≤ 57 := by simpa [isdigit] using h
  refine ⟨?_, ?_, ?_, ?_⟩
  · simp only [isspace, Bool.or_eq_false_iff, beq_eq_false_iff_ne, ne_eq]
    refine ⟨⟨⟨⟨⟨?_, ?_⟩, ?_⟩, ?_⟩, ?_⟩, ?_⟩
    all_goals (intro h2; try (rw [h2] at h1; revert h1; decide); try omega)
  all_goals
    (simp only [beq_eq_false_iff_ne, ne_eq]
     intro h2
     rw [h2] at h1
     revert h1
     decide)

theorem toDigits_cons (n : Nat) :
    ∃ c cs, Nat.toDigits 10 n = c :: cs ∧ isdigit c = true := by
  have hall := toDigitsCore_digits (n + 1) n [] (by simp)
  have hne := toDigitsCore_ne_nil (n + 1) n [] (Nat.succ_pos n)
  cases hd : Nat.toDigitsCore 10 (n + 1) n [] with
  | nil => exact absurd hd hne
  | cons c cs =>
    refine ⟨c, cs, hd, hall c ?_⟩
    rw [hd]
    exact List.mem_cons_self _ _

theorem scan_d_digits_toDigits (neg : Bool) (n : Nat) (rest : List Char)
    (hrest : ∀ c r, rest = c :: r → isdigit c = false) :
    scan_d_digits neg (Nat.toDigits 10 n ++ rest) =
      (if INT_MIN ≤ (if neg then -(n : Int) else (n : Int)) ∧
          (if neg then -(n : Int) else (n : Int)) ≤ INT_MAX
       then scan_t.conv (if neg then -(n : Int) else (n : Int)) rest else scan_t.overflow) := by
  obtain ⟨k, hk, hs⟩ := scan_digits_toDigits n rest hrest
  have hk0 : ¬ k = 0 := by omega
  simp only [scan_d_digits, hs, hk0, if_false]

/-- `%d` reads the decimal digits of a natural number back. -/
theorem scan_d_toDigits (n : Nat) (rest : List Char)
    (hrest : ∀ c r, rest = c :: r → isdigit c = false) :
    scan_d (Nat.toDigits 10 n ++ rest) =
      (if (n : Int) ≤ INT_MAX then scan_t.conv (n : Int) rest else scan_t.overflow) := by
  obtain ⟨c, cs, hd, hc⟩ := toDigits_cons n
  obtain ⟨h1, h2, h3, _⟩ := digit_plain c hc
  have hstep : scan_d (Nat.toDigits 10 n ++ rest) =
      scan_d_digits false (Nat.toDigits 10 n ++ rest) := by
    rw [hd]
    simp [scan_d, h1, h2, h3]
  rw [hstep, scan_d_digits_toDigits false n rest hrest]
  have hmin : INT_MIN ≤ (n : Int) := by
    have : (0 : Int) ≤ (n : Int) := Int.ofNat_nonneg n
    unfold INT_MIN
    omega
  simp [hmin]

/-- `%d` reads what `%d` prints: the decimal numeral of an `int` converts to that `int`,
and a numeral outside the range of `int` cannot be converted. -/
theorem scan_d_itoa (n : Int) :
    scan_d (itoa n) =
      (if INT_MIN ≤ n ∧ n ≤ INT_MAX then scan_t.conv n [] else scan_t.overflow) := by
  cases n with
  | ofNat m =>
    have h := scan_d_toDigits m [] (by intro c r h; cases h)
    simp only [List.append_nil] at h
    have hmin : INT_MIN ≤ Int.ofNat m := by
      have : (0 : Int) ≤ Int.ofNat m := Int.ofNat_nonneg m
      unfold INT_MIN
      omega
    simp only [itoa, h, hmin, true_and]
    rfl
  | negSucc m =>
    have h := scan_d_digits_toDigits true (m + 1) [] (by intro c r h; cases h)
    simp only [List.append_nil, if_true] at h
    have hneg : -((m + 1 : Nat) : Int) = Int.negSucc m := by
      rw [Int.negSucc_eq]; push_cast; ring
    rw [hneg] at h
    have hsp : isspace '-' = false := by decide
    simp only [itoa, scan_d, hsp, beq_self_eq_true, if_true, h]
    simp

/-! ## Lines inside a route block -/

theorem failconfig_defined (a : airport_t) (format : List Char) (ap : List arg_t)
    (h : (vsprintf format ap).isSome = true) :
    ∃ r msg, failconfig a format ap = some r ∧ r.ret = 1 ∧ r.g = clearconfig a ∧
      vsprintf format ap = some msg ∧ r.log = [msg] := by
  cases hv : vsprintf format ap with
  | none => rw [hv] at h; cases h
  | some msg =>
    exact ⟨{ ret := 1, g := clearconfig a, log := [msg] }, msg, by simp [failconfig, hv],
      rfl, rfl, rfl, rfl⟩

theorem keyword_no_comment (c1 kw : List Char) (k : Char) (h : strcaseeq c1 kw = true)
    (hk : kw.head? = some k) (hne : tolower k ≠ '#') : c1.head? ≠ some '#' := by
  intro hc
  cases c1 with
  | nil => cases hc
  | cons a c1 =>
    simp only [List.head?_cons, Option.some.injEq] at hc
    subst hc
    cases kw with
    | nil => cases hk
    | cons b kw =>
      simp only [List.head?_cons, Option.some.injEq] at hk
      subst hk
      simp only [strcaseeq, List.map_cons, beq_iff_eq, List.cons.injEq] at h
      apply hne
      rw [← h.1]
      decide

theorem open_state (p : parser_t) (hw : wf p) (cr : Nat) (hcur : p.currentroute = some cr) :
    p.airport.state ≠ state_t.noconfig := by
  intro h0
  have := (hw.fresh h0).2
  rw [hcur] at this
  cases this

/-- Inside a route block a line that is no comment goes to the branch for route lines. -/
theorem readline_route (sf : List Char → scan_t ℚ) (p : parser_t) (line c1 : List Char)
    (rest : List (List Char)) (cr : Nat) (r : route_t) (hw : wf p)
    (hcur : p.currentroute = some cr) (hr : p.airport.routes[cr]? = some r)
    (htok : tokens p.lineno line = c1 :: rest) (hc : c1.head? ≠ some '#') :
    readline sf p line = endline (counted p) (route_line sf (counted p) cr r c1 rest) := by
  rw [readline_eq sf p line c1 rest htok hc]
  have hst : (counted p).airport.state ≠ state_t.noconfig := open_state p hw cr hcur
  have hcur1 : (counted p).currentroute = some cr := hcur
  have hr1 : (counted p).airport.routes[cr]? = some r := hr
  simp only [branch_of, hst, if_false, hcur1, hr1]

/-- The last node of a path of the right shape, and what a write to it changes. -/
theorem lastnode_facts (r : route_t) (f : path_t → path_t) (hp : pathok r)
    (h1 : r.pathlen ≠ 0) :
    ∃ node, r.path[r.pathlen - 1]? = some node ∧ r.path.getLast? = some node ∧
      (lastnode r f).path[r.pathlen - 1]? = some (f node) ∧
      (lastnode r f).path.length = r.path.length ∧ (lastnode r f).pathlen = r.pathlen ∧
      ∀ j, j ≠ r.pathlen - 1 → (lastnode r f).path[j]? = r.path[j]? := by
  have hlt : r.pathlen - 1 < r.path.length := by have := hp.1; omega
  refine ⟨r.path[r.pathlen - 1], List.getElem?_eq_getElem hlt, ?_, ?_, ?_, rfl, ?_⟩
  · rw [List.getLast?_eq_getElem?, ← hp.1]
    exact List.getElem?_eq_getElem hlt
  · show (upd r.path (r.pathlen - 1) f)[r.pathlen - 1]? = _
    rw [upd_getElem?]
    simp [List.getElem?_eq_getElem hlt]
  · exact upd_length _ _ _
  · intro j hj
    show (upd r.path (r.pathlen - 1) f)[j]? = _
    rw [upd_getElem?]
    simp [Ne.symm hj]

theorem store_route_getElem? (a : airport_t) (cr : Nat) (f : route_t → route_t) (r : route_t)
    (hr : a.routes[cr]? = some r) : (store_route a cr f).routes[cr]? = some (f r) := by
  show (upd a.routes cr f)[cr]? = _
  rw [upd_getElem?]
  simp [hr]

/-- How a `pause` line with one argument ends, by what `%d` makes of the argument. -/
theorem pause_outcome (sf : List Char → scan_t ℚ) (p : parser_t) (cr : Nat) (r : route_t)
    (c1 t : List Char) (hkw : strcaseeq c1 "pause".toList = true) (hlen : r.pathlen ≠ 0) :
    (∀ n, scan_d t = scan_t.conv n [] → 1 ≤ n → n ≤ 86399 →
      endline p (route_line sf p cr r c1 [t]) =
        line_t.next (stored p cr (fun r => lastnode r (fun nd => { nd with pausetime := n })))) ∧
    ((scan_d t = scan_t.nomatch ∨
        ∃ n left, scan_d t = scan_t.conv n left ∧ (left ≠ [] ∨ n ≤ 0 ∨ 86400 ≤ n)) →
      ∃ res, endline p (route_line sf p cr r c1 [t]) = line_t.stop (some res) ∧ res.ret = 1) ∧
    (scan_d t = scan_t.eof ∨ scan_d t = scan_t.overflow →
      endline p (route_line sf p cr r c1 [t]) = line_t.stop none) := by
  have hE : route_line sf p cr r c1 [t] =
      (match scan_d t with
        | scan_t.eof => branch_t.undef
        | scan_t.overflow => branch_t.undef
        | scan_t.nomatch =>
          branch_t.fail "Expecting a pause time, found \"%s\" at line %d".toList
            [arg_t.str t, arg_t.int p.lineno]
        | scan_t.conv pausetime left =>
          if !left.isEmpty then
            branch_t.fail "Expecting a pause time, found \"%s\" at line %d".toList
              [arg_t.str t, arg_t.int p.lineno]
          else if pausetime ≤ 0 ∨ pausetime ≥ 86400 then
            branch_t.fail "Pause time should be between 1 and 86399 seconds at line %d".toList
              [arg_t.int p.lineno]
          else
            branch_t.ok
              (stored p cr (fun r => lastnode r (fun n => { n with pausetime := pausetime })))
              []) := by
    unfold route_line
    simp only [hkw, if_true, hlen, if_false]
    rfl
  rw [hE]
  refine ⟨?_, ?_, ?_⟩
  · intro n hs h1 h2
    have hr : ¬ (n ≤ 0 ∨ n ≥ 86400) := by omega
    simp only [hs, List.isEmpty_nil, Bool.not_true, Bool.false_eq_true, hr, if_false, endline]
  · intro hbad
    rcases hbad with hs | ⟨n, left, hs, hbad⟩
    · obtain ⟨res, _, hf, h1, _⟩ := failconfig_defined p.airport
        "Expecting a pause time, found \"%s\" at line %d".toList
        [arg_t.str t, arg_t.int p.lineno] rfl
      exact ⟨res, by simp only [hs, endline, hf], h1⟩
    · cases left with
      | nil =>
        have hr : n ≤ 0 ∨ n ≥ 86400 := by
          rcases hbad with h | h | h
          · exact absurd rfl h
          · exact Or.inl h
          · exact Or.inr h
        obtain ⟨res, _, hf, h1, _⟩ := failconfig_defined p.airport
          "Pause time should be between 1 and 86399 seconds at line %d".toList
          [arg_t.int p.lineno] rfl
        refine ⟨res, ?_, h1⟩
        simp only [hs, List.isEmpty_nil, Bool.not_true, Bool.false_eq_true, hr, if_true, if_false,
          endline, hf]
      | cons a left =>
        obtain ⟨res, _, hf, h1, _⟩ := failconfig_defined p.airport
          "Expecting a pause time, found \"%s\" at line %d".toList
          [arg_t.str t, arg_t.int p.lineno] rfl
        refine ⟨res, ?_, h1⟩
        simp only [hs, List.isEmpty_cons, Bool.not_false, if_true, endline, hf]
  · intro hs
    rcases hs with hs | hs <;> simp only [hs, endline]

/-- A line `pause t` (keyword in any letter case) inside a route block. With no waypoint
yet the load fails (returns 1). With at least one waypoint, and a token `t` in which `%d`
finds neither the end of the input before a number nor a number too large for an `int`,
the line is accepted exactly when `t` is read by `%d` as a whole as an integer `n` with
`1 ≤ n ≤ 86399`; for the decimal numeral of an integer `n` that fits an `int` that is
exactly when `1 ≤ n ≤ 86399`. An accepted line sets the pause time of the last node of the
path, the most recently added waypoint, to `n` and changes neither the path length nor any
other node. A token that is no integer (such as `abc`), is followed by other bytes, or is
out of range (such as `0` and `86400`) fails the load. When `%d` finds the end of the
input or a number too large for an `int`, the behaviour is undefined. -/
theorem pause_line (sf : List Char → scan_t ℚ) (g : globals_t) (env : env_t)
    (pre : List (List Char)) (line : List Char) (post : List (List Char)) (p : parser_t)
    (cr : Nat) (r : route_t) (c1 t : List Char)
    (h : reaches sf g env pre line post p) (hcur : p.currentroute = some cr)
    (hr : p.airport.routes[cr]? = some r) (htok : tokens p.lineno line = [c1, t])
    (hkw : strcaseeq c1 "pause".toList = true) :
    (r.pathlen = 0 → ∃ res, readconfig sf g env = some res ∧ res.ret = 1) ∧
    (r.pathlen ≠ 0 →
      (scan_d t ≠ scan_t.eof → scan_d t ≠ scan_t.overflow →
        ((∃ p1, readline sf p line = line_t.next p1) ↔
          ∃ n, scan_d t = scan_t.conv n [] ∧ 1 ≤ n ∧ n ≤ 86399)) ∧
      (∀ n : Int, INT_MIN ≤ n → n ≤ INT_MAX → t = itoa n →
        ((∃ p1, readline sf p line = line_t.next p1) ↔ 1 ≤ n ∧ n ≤ 86399)) ∧
      (scan_d t = scan_t.eof ∨ scan_d t = scan_t.overflow → readconfig sf g env = none) ∧
      (∀ n, scan_d t = scan_t.conv n [] → 1 ≤ n → n ≤ 86399 →
        ∃ p1 r1 node, readline sf p line = line_t.next p1 ∧ p1.currentroute = some cr ∧
          p1.airport.routes[cr]? = some r1 ∧ r1.pathlen = r.pathlen ∧
          r.pathlen = r.path.length ∧ r1.path.length = r.path.length ∧
          r.path.getLast? = some node ∧
          r1.path[r.pathlen - 1]? = some { node with pausetime := n } ∧
          ∀ j, j ≠ r.pathlen - 1 → r1.path[j]? = r.path[j]?) ∧
      ((scan_d t = scan_t.nomatch ∨
          ∃ n left, scan_d t = scan_t.conv n left ∧ (left ≠ [] ∨ n ≤ 0 ∨ 86400 ≤ n)) →
        ∃ res, readconfig sf g env = some res ∧ res.ret = 1) ∧
      (t = "0".toList ∨ t = "86400".toList ∨ t = "abc".toList →
        ∃ res, readconfig sf g env = some res ∧ res.ret = 1)) := by
  have hw := reaches_wf sf g env pre line post p h
  have hpk : pathok r := (reaches_wfblock sf g env pre line post p h).path cr r hcur hr
  have hc : c1.head? ≠ some '#' := keyword_no_comment c1 _ 'p' hkw rfl (by decide)
  have hrl := readline_route sf p line c1 [t] cr r hw hcur hr htok hc
  constructor
  · intro h0
    obtain ⟨res, _, hf, h1, _⟩ := failconfig_defined (counted p).airport
      "Route can\x27t start with a pause, at line %d".toList [arg_t.int (counted p).lineno] rfl
    refine ⟨res, reaches_stop sf g env pre line post p h _ ?_, h1⟩
    rw [hrl]
    unfold route_line
    simp only [hkw, if_true, h0, endline, hf]
  · intro hlen
    obtain ⟨ho1, ho2, ho3⟩ := pause_outcome sf (counted p) cr r c1 t hkw hlen
    have hfail : (scan_d t = scan_t.nomatch ∨
          ∃ n left, scan_d t = scan_t.conv n left ∧ (left ≠ [] ∨ n ≤ 0 ∨ 86400 ≤ n)) →
        ∃ res, readconfig sf g env = some res ∧ res.ret = 1 := by
      intro hbad
      obtain ⟨res, h1, h2⟩ := ho2 hbad
      exact ⟨res, reaches_stop sf g env pre line post p h _ (hrl.trans h1), h2⟩
    have hiff : (∃ p1, readline sf p line = line_t.next p1) ↔
        ∃ n, scan_d t = scan_t.conv n [] ∧ 1 ≤ n ∧ n ≤ 86399 := by
      constructor
      · rintro ⟨p1, hp1⟩
        rw [hrl] at hp1
        match hs : scan_d t with
        | scan_t.eof => rw [ho3 (Or.inl hs)] at hp1; cases hp1
        | scan_t.overflow => rw [ho3 (Or.inr hs)] at hp1; cases hp1
        | scan_t.nomatch =>
          obtain ⟨res, h1, _⟩ := ho2 (Or.inl hs)
          rw [h1] at hp1; cases hp1
        | scan_t.conv n left =>
          by_cases hok : left = [] ∧ 1 ≤ n ∧ n ≤ 86399
          · exact ⟨n, by rw [hok.1], hok.2.1, hok.2.2⟩
          · have hbad : left ≠ [] ∨ n ≤ 0 ∨ 86400 ≤ n := by
              by_cases hl : left = []
              · right
                have : ¬ (1 ≤ n ∧ n ≤ 86399) := fun hh => hok ⟨hl, hh⟩
                omega
              · exact Or.inl hl
            obtain ⟨res, h1, _⟩ := ho2 (Or.inr ⟨n, left, hs, hbad⟩)
            rw [h1] at hp1; cases hp1
      · rintro ⟨n, hs, h1, h2⟩
        exact ⟨_, hrl.trans (ho1 n hs h1 h2)⟩
    refine ⟨fun _ _ => hiff, ?_, ?_, ?_, hfail, ?_⟩
    · intro n hlo hhi ht
      have hrange : INT_MIN ≤ n ∧ n ≤ INT_MAX := ⟨hlo, hhi⟩
      rw [hiff, ht, scan_d_itoa]
      constructor
      · rintro ⟨m, hm, h1, h2⟩
        rw [if_pos hrange] at hm
        cases hm
        exact ⟨h1, h2⟩
      · rintro ⟨h1, h2⟩
        exact ⟨n, by rw [if_pos hrange], h1, h2⟩
    · intro hs
      exact reaches_stop sf g env pre line post p h _ (hrl.trans (ho3 hs))
    · intro n hs h1 h2
      obtain ⟨node, hn1, hn2, hn3, hn4, hn5, hn6⟩ :=
        lastnode_facts r (fun nd => { nd with pausetime := n }) hpk hlen
      refine ⟨_, _, node, hrl.trans (ho1 n hs h1 h2), hcur,
        store_route_getElem? _ cr _ r hr, hn5, hpk.1, hn4, hn2, hn3, hn6⟩
    · intro ht
      apply hfail
      rcases ht with ht | ht | ht
      · exact Or.inr ⟨0, [], by rw [ht]; rfl, Or.inr (Or.inl (by decide))⟩
      · exact Or.inr ⟨86400, [], by rw [ht]; rfl, Or.inr (Or.inr (by decide))⟩
      · exact Or.inl (by rw [ht]; rfl)

theorem pause_line_witness :
    ∃ p1, readline scan_f (after_lines good_file) "pause 30\n".toList = line_t.next p1 :=
  (((pause_line scan_f start (found_file 1 (good_file ++ ["pause 30\n"]))
      (good_file.map String.toList) "pause 30\n".toList [] (after_lines good_file) 0
      (route_after good_file 0) "pause".toList "30".toList
      ⟨rfl, rfl, ⟨1, rfl, by decide⟩, by rfl, by rfl⟩ (by rfl) (by rfl) (by rfl) (by rfl)).2
    (by decide)).1 (by decide) (by decide)).2 ⟨30, by rfl, by decide, by decide⟩

/-! ## The `at` command -/

theorem set_take_succ (l : List Int) (i : Nat) (v : Int) (h : i < l.length) :
    (l.set i v).take (i + 1) = l.take i ++ [v] := by
  rw [List.set_eq_take_cons_drop v h]
  have hl : (l.take i).length = i := by simp [List.length_take]; omega
  rw [List.take_append_eq_append_take, hl]
  simp [List.take_of_length_le, hl]

theorem set_drop_succ (l : List Int) (i k : Nat) (v : Int) (h : i < l.length) :
    (l.set i v).drop (i + 1 + k) = l.drop (i + 1 + k) := by
  rw [List.set_eq_take_cons_drop v h]
  have hl : (l.take i).length = i := by simp [List.length_take]; omega
  rw [List.drop_append_eq_append_drop, hl]
  have h1 : i + 1 + k - i = k + 1 := by omega
  rw [List.drop_eq_nil_of_le (by omega), h1]
  simp [List.drop_drop]

theorem writes_eq (vals : List Int) : ∀ (attime : List Int) (i : Nat),
    i + vals.length ≤ attime.length →
    writes attime i vals = attime.take i ++ vals ++ attime.drop (i + vals.length) := by
  induction vals with
  | nil => intro attime i _; simp [writes]
  | cons v vals ih =>
    intro attime i h
    simp only [List.length_cons] at h
    have hi : i < attime.length := by omega
    simp only [writes]
    rw [ih (attime.set i v) (i + 1) (by simp; omega)]
    rw [set_take_succ attime i v hi, set_drop_succ attime i vals.length v hi]
    simp [List.length_cons, Nat.add_assoc, Nat.add_comm 1]

theorem scan_hhmm_range (t : List Char) (hm : Int × Int) (h : scan_hhmm t = full_t.val hm) :
    0 ≤ hm.1 ∧ hm.1 ≤ 23 ∧ 0 ≤ hm.2 ∧ hm.2 ≤ 59 := by
  unfold scan_hhmm at h
  repeat' split at h
  all_goals first
    | contradiction
    | (cases h
       rename_i hr
       simp only [not_or, not_lt] at hr
       exact ⟨hr.1, hr.2.1, hr.2.2.1, hr.2.2.2⟩)

/-- The first loop of the `at` command over time tokens that are all well formed and in
range: each is stored in turn, and the loop goes on with what follows. -/
theorem at_times_valid (lineno : Nat) (ts : List (List Char)) :
    ∀ (hms : List (Int × Int)) (i : Nat) (attime : List Int) (tail : List (List Char)),
      List.Forall₂ (fun t hm => scan_hhmm t = full_t.val hm) ts hms →
      (∀ t ∈ ts, strcaseeq t "on".toList = false) → i + ts.length ≤ MAX_ATTIMES →
      at_times lineno (ts ++ tail) i attime =
        at_times lineno tail (i + ts.length) (writes attime i (hms.map minutes)) := by
  induction ts with
  | nil =>
    intro hms i attime tail hv _ _
    cases hv
    simp [writes]
  | cons t ts ih =>
    intro hms i attime tail hv hon hi
    cases hv with
    | cons h1 hrest =>
      rename_i hm hms1
      have hon1 : strcaseeq t "on".toList = false := hon t (List.mem_cons_self _ _)
      simp only [List.length_cons] at hi
      have hi1 : ¬ i ≥ MAX_ATTIMES := by omega
      have hstep : at_times lineno (t :: ts ++ tail) i attime =
          at_times lineno (ts ++ tail) (i + 1) (attime.set i (hm.1 * 60 + hm.2)) := by
        simp only [List.cons_append, at_times, hon1, hi1, h1, if_false]
        simp
      rw [hstep, ih hms1 (i + 1) _ tail hrest
        (fun t ht => hon t (List.mem_cons_of_mem _ ht)) (by omega)]
      simp only [List.map_cons, writes, minutes, List.length_cons]
      rw [Nat.add_assoc, Nat.add_comm 1]

/-- After the writes of an `at` command and its terminator the array holds exactly the
times written. -/
theorem schedule_written (attime vals : List Int) (hl : attime.length = MAX_ATTIMES)
    (hv : ∀ v ∈ vals, v ≠ INVALID_AT) (hn : vals.length ≤ MAX_ATTIMES) :
    schedule (if vals.length < MAX_ATTIMES
        then (writes attime 0 vals).set vals.length INVALID_AT
        else writes attime 0 vals) = vals := by
  have hw : writes attime 0 vals = vals ++ attime.drop vals.length := by
    rw [writes_eq vals attime 0 (by omega)]
    simp
  have hp : ∀ a ∈ vals, (fun x : Int => x != INVALID_AT) a = true := by
    intro a ha
    simpa using hv a ha
  rw [hw]
  split
  · rename_i hlt
    have hlen : vals.length < (vals ++ attime.drop vals.length).length := by
      simp only [List.length_append, List.length_drop]
      omega
    rw [List.set_eq_take_cons_drop INVALID_AT hlen, List.take_left]
    unfold schedule
    rw [List.take_append_eq_append_take, List.take_of_length_le hn,
      List.takeWhile_append_of_pos hp]
    have hpos : MAX_ATTIMES - vals.length = (MAX_ATTIMES - vals.length - 1) + 1 := by omega
    rw [hpos, List.take_succ_cons, List.takeWhile_cons_of_neg (by simp)]
    simp
  · rename_i hge
    have hfull : attime.drop vals.length = [] := List.drop_eq_nil_of_le (by omega)
    rw [hfull, List.append_nil]
    unfold schedule
    rw [List.take_of_length_le hn, List.takeWhile_eq_self_iff.2 hp]

theorem minutes_valid (ts : List (List Char)) (hms : List (Int × Int))
    (hv : List.Forall₂ (fun t hm => scan_hhmm t = full_t.val hm) ts hms) :
    (∀ v ∈ hms.map minutes, v ≠ INVALID_AT) ∧ hms.length = ts.length := by
  induction hv with
  | nil => simp
  | cons h1 _ ih =>
    have hr := scan_hhmm_range _ _ h1
    refine ⟨?_, by simp [ih.2]⟩
    intro v hv1
    simp only [List.map_cons, List.mem_cons] at hv1
    rcases hv1 with h2 | h2
    · rw [h2]
      unfold minutes INVALID_AT
      omega
    · exact ih.1 v h2

theorem scan_d_two (k : Nat) (rest : List Char) (hk : k < 100)
    (hrest : ∀ c r, rest = c :: r → isdigit c = false) :
    scan_d (two k ++ rest) = scan_t.conv (k : Int) rest := by
  have hmax : (k : Int) ≤ INT_MAX := by unfold INT_MAX; omega
  unfold two
  split
  · have hall := toDigitsCore_digits (k + 1) k [] (by simp)
    have hval := toDigitsCore_value (k + 1) k [] (Nat.lt_succ_self k)
    have hs := scan_digits_all (Nat.toDigits 10 k) 0 1 rest hall hrest
    have hv : digits_value (Nat.toDigits 10 k) 0 = k := by
      show digits_value (Nat.toDigitsCore 10 (k + 1) k []) 0 = k
      rw [hval]; rfl
    rw [hv] at hs
    have h0 : isdigit '0' = true := by decide
    have hsp : isspace '0' = false := by decide
    have hm : ('0' == '-') = false := by decide
    have hpl : ('0' == '+') = false := by decide
    have hmin : INT_MIN ≤ (k : Int) := by unfold INT_MIN; omega
    have hstep : scan_digits ('0' :: (Nat.toDigits 10 k ++ rest)) 0 0 =
        (k, 1 + (Nat.toDigits 10 k).length, rest) := by
      simp only [scan_digits, h0, if_true]
      exact hs
    show scan_d ('0' :: (Nat.toDigits 10 k ++ rest)) = _
    have e1 : scan_d ('0' :: (Nat.toDigits 10 k ++ rest)) =
        scan_d_digits false ('0' :: (Nat.toDigits 10 k ++ rest)) := by
      rw [scan_d]
      simp only [hsp, hm, hpl, Bool.false_eq_true, if_false]
    have e2 : scan_d_digits false ('0' :: (Nat.toDigits 10 k ++ rest)) =
        scan_t.conv (k : Int) rest := by
      unfold scan_d_digits
      rw [hstep]
      simp [hmin, hmax]
    rw [e1, e2]
  · rw [scan_d_toDigits k rest hrest]
    simp [hmax]

/-- A token of the form `HH:MM` is accepted as a time of day exactly when `HH ≤ 23` and
`MM ≤ 59`. -/
theorem scan_hhmm_two (hh mm : Nat) (h1 : hh < 100) (h2 : mm < 100) :
    scan_hhmm (two hh ++ ':' :: two mm) =
      (if hh ≤ 23 ∧ mm ≤ 59 then full_t.val ((hh : Int), (mm : Int)) else full_t.bad) := by
  have hd := scan_d_two hh (':' :: two mm) h1
    (by intro c r h; cases h; decide)
  have hm := scan_d_two mm [] h2 (by intro c r h; cases h)
  simp only [List.append_nil] at hm
  unfold scan_hhmm
  simp only [hd, beq_self_eq_true, if_true, hm]
  by_cases hr : hh ≤ 23 ∧ mm ≤ 59
  · have hn : ¬ ((hh : Int) < 0 ∨ (hh : Int) > 23 ∨ (mm : Int) < 0 ∨ (mm : Int) > 59) := by omega
    simp [hr, hn]
  · have hn : ((hh : Int) < 0 ∨ (hh : Int) > 23 ∨ (mm : Int) < 0 ∨ (mm : Int) > 59) := by omega
    simp [hr, hn]

theorem keyword_differs (c1 a b : List Char) (h : strcaseeq c1 a = true)
    (hab : (a.map tolower == b.map tolower) = false) : strcaseeq c1 b = false := by
  simp only [strcaseeq, beq_iff_eq] at h
  simp only [strcaseeq, h]
  exact hab

/-- The array after the writes of an `at` command and its terminator. -/
theorem final_written (attime vals : List Int) (hl : attime.length = MAX_ATTIMES)
    (hn : vals.length ≤ MAX_ATTIMES) :
    (if vals.length < MAX_ATTIMES then (writes attime 0 vals).set vals.length INVALID_AT
      else writes attime 0 vals) =
      vals ++ (if vals.length < MAX_ATTIMES then INVALID_AT :: attime.drop (vals.length + 1)
        else []) := by
  have hw : writes attime 0 vals = vals ++ attime.drop vals.length := by
    rw [writes_eq vals attime 0 (by omega)]
    simp
  rw [hw]
  split
  · have hlen : vals.length < (vals ++ attime.drop vals.length).length := by
      simp only [List.length_append, List.length_drop]
      omega
    rw [List.set_eq_take_cons_drop INVALID_AT hlen, List.take_left]
    congr 2
    rw [List.drop_append_eq_append_drop, List.drop_eq_nil_of_le (by omega)]
    simp [List.drop_drop, Nat.add_comm]
  · rw [List.drop_eq_nil_of_le (by omega)]

/-- The branch for an `at` command in a route block with a waypoint. -/
theorem at_branch (sf : List Char → scan_t ℚ) (p : parser_t) (cr : Nat) (r : route_t)
    (c1 : List Char) (rest : List (List Char)) (node : path_t)
    (hkw : strcaseeq c1 "at".toList = true) (hlen : r.pathlen ≠ 0)
    (hnode : r.path[r.pathlen - 1]? = some node) :
    route_line sf p cr r c1 rest =
      (match at_times p.lineno rest 0 node.attime with
        | attimes_t.undef => branch_t.undef
        | attimes_t.fail format ap => branch_t.fail format ap
        | attimes_t.done attime i rest1 =>
          match at_days rest1 node.atdays with
          | Except.error c =>
            branch_t.fail "Expecting a day name, found \"%s\" at line %d".toList
              [arg_t.str c, arg_t.int p.lineno]
          | Except.ok atdays =>
            branch_t.ok
              (stored p cr (fun r => lastnode r (fun n =>
                { n with attime := if i < MAX_ATTIMES then attime.set i INVALID_AT else attime,
                         atdays := atdays })))
              []) := by
  have hnp : strcaseeq c1 "pause".toList = false := keyword_differs c1 _ _ hkw (by decide)
  unfold route_line
  simp only [hnp, hkw, if_true, hlen, if_false, hnode, Bool.false_eq_true]
  rfl

/-- More than `MAX_ATTIMES` well-formed times make the first loop fail. -/
theorem at_times_exceeded (lineno : Nat) (ts : List (List Char)) (hms : List (Int × Int))
    (attime : List Int) (tail : List (List Char))
    (hv : List.Forall₂ (fun t hm => scan_hhmm t = full_t.val hm) ts hms)
    (hon : ∀ t ∈ ts, strcaseeq t "on".toList = false) (hn : MAX_ATTIMES < ts.length) :
    at_times lineno (ts ++ tail) 0 attime =
      attimes_t.fail "Exceeded %d times-of-day at line %d".toList
        [arg_t.int MAX_ATTIMES, arg_t.int lineno] := by
  have hsplit : ts = ts.take MAX_ATTIMES ++ ts.drop MAX_ATTIMES :=
    (List.take_append_drop _ _).symm
  have hlt : (ts.take MAX_ATTIMES).length = MAX_ATTIMES := by
    rw [List.length_take]; omega
  cases hd : ts.drop MAX_ATTIMES with
  | nil =>
    have := congrArg List.length hd
    rw [List.length_drop] at this
    simp only [List.length_nil] at this
    omega
  | cons t more =>
    have htm : t ∈ ts := List.mem_of_mem_drop (by rw [hd]; exact List.mem_cons_self _ _)
    have hont := hon t htm
    rw [hsplit, hd, List.append_assoc,
      at_times_valid lineno (ts.take MAX_ATTIMES) (hms.take MAX_ATTIMES) 0 attime _
        (List.forall₂_take _ hv) (fun t ht => hon t (List.mem_of_mem_take ht))
        (by rw [hlt]; simp), hlt]
    simp only [List.cons_append, at_times, hont, Nat.zero_add, ge_iff_le, Nat.le_refl, if_true,
      if_false, Bool.false_eq_true]

/-- A token that is neither `on` nor a time of day makes the first loop fail. -/
theorem at_times_bad (lineno : Nat) (ts : List (List Char)) (hms : List (Int × Int))
    (attime : List Int) (b : List Char) (more : List (List Char))
    (hv : List.Forall₂ (fun t hm => scan_hhmm t = full_t.val hm) ts hms)
    (hon : ∀ t ∈ ts, strcaseeq t "on".toList = false)
    (hb : strcaseeq b "on".toList = false) (hbad : scan_hhmm b = full_t.bad) :
    ∃ format ap, at_times lineno (ts ++ b :: more) 0 attime = attimes_t.fail format ap ∧
      (vsprintf format ap).isSome = true := by
  by_cases hn : MAX_ATTIMES < ts.length
  · exact ⟨_, _, at_times_exceeded lineno ts hms attime _ hv hon hn, rfl⟩
  · rw [at_times_valid lineno ts hms 0 attime _ hv hon (by omega)]
    by_cases h24 : 0 + ts.length ≥ MAX_ATTIMES
    · refine ⟨"Exceeded %d times-of-day at line %d".toList,
        [arg_t.int MAX_ATTIMES, arg_t.int lineno], ?_, rfl⟩
      simp only [at_times, hb, h24, if_true, if_false, Bool.false_eq_true]
    · refine ⟨"Expecting a time-of-day \"HH:MM\" or \"on\", found \"%s\" at line %d".toList,
        [arg_t.str b, arg_t.int lineno], ?_, rfl⟩
      simp only [at_times, hb, h24, hbad, if_false, Bool.false_eq_true]

/-- An `at` command whose times are all well formed, at most `MAX_ATTIMES`, and whose day
names, if any, are accepted: the node gets the times and the day mask. -/
theorem at_accept (sf : List Char → scan_t ℚ) (p : parser_t) (cr : Nat) (r : route_t)
    (c1 : List Char) (ts tail : List (List Char)) (hms : List (Int × Int)) (node : path_t)
    (d : Nat) (hkw : strcaseeq c1 "at".toList = true) (hlen : r.pathlen ≠ 0)
    (hnode : r.path[r.pathlen - 1]? = some node) (hatt : node.attime.length = MAX_ATTIMES)
    (hv : List.Forall₂ (fun t hm => scan_hhmm t = full_t.val hm) ts hms)
    (hts : ∀ t ∈ ts, strcaseeq t "on".toList = false) (hn : ts.length ≤ MAX_ATTIMES)
    (htail : ∀ t ∈ tail.head?, strcaseeq t "on".toList = true)
    (hd : at_days (tail.drop 1) node.atdays = Except.ok d) :
    endline p (route_line sf p cr r c1 (ts ++ tail)) =
      line_t.next (stored p cr (fun r => lastnode r (fun n =>
        { n with attime := timed node.attime (hms.map minutes), atdays := d }))) := by
  have hlen2 : (hms.map minutes).length = ts.length := by
    rw [List.length_map]; exact hv.length_eq.symm
  have hloop : at_times p.lineno (ts ++ tail) 0 node.attime =
      attimes_t.done (writes node.attime 0 (hms.map minutes)) ts.length (tail.drop 1) := by
    rw [at_times_valid p.lineno ts hms 0 node.attime tail hv hts (by omega), Nat.zero_add]
    cases tail with
    | nil => simp [at_times]
    | cons t days =>
      have ht : strcaseeq t "on".toList = true := htail t (by simp)
      simp only [at_times, ht, if_true, List.drop_succ_cons, List.drop_zero]
  have hfin := final_written node.attime (hms.map minutes) hatt (by omega)
  rw [hlen2] at hfin
  rw [at_branch sf p cr r c1 _ node hkw hlen hnode, hloop]
  simp only [hd, endline, hfin, timed, hlen2]

theorem schedule_timed (attime vals : List Int) (hl : attime.length = MAX_ATTIMES)
    (hv : ∀ v ∈ vals, v ≠ INVALID_AT) (hn : vals.length ≤ MAX_ATTIMES) :
    schedule (timed attime vals) = vals := by
  unfold timed
  rw [← final_written attime vals hl hn]
  exact schedule_written attime vals hl hv hn

/-- A branch that fails with a message `vsprintf` can format makes the line return 1. -/
theorem endline_fail (p : parser_t) (format : List Char) (ap : List arg_t)
    (h : (vsprintf format ap).isSome = true) :
    ∃ res, endline p (branch_t.fail format ap) = line_t.stop (some res) ∧ res.ret = 1 ∧
      res.g = clearconfig p.airport := by
  obtain ⟨res, _, hf, h1, h2, _⟩ := failconfig_defined p.airport format ap h
  exact ⟨res, by simp only [endline, hf], h1, h2⟩

/-- A line `at t1 .. tn tail` (keyword in any letter case) inside a route block,
whose tokens `t1 .. tn` are not `on` and are each read by `%d:%d` as a whole with hour
`0..23` and minute `0..59`. With no waypoint yet the load fails (returns 1). With a
waypoint: if `n > 24` the load fails; if the next token is neither `on` nor such a time
the load fails; if `n ≤ 24` and what follows is nothing or `on` with accepted day names,
the line is accepted, and the last node of the path, the most recently added waypoint,
gets the `attime` array `60*HH1+MM1, .., 60*HHn+MMn` followed, when `n < 24`, by
`INVALID_AT`, so that its schedule is exactly that list in the order given; the path
length and the other nodes are unchanged. A token `HH:MM` of two decimal numbers of two
digits each is such a time exactly when `HH ≤ 23` and `MM ≤ 59`. -/
theorem at_line (sf : List Char → scan_t ℚ) (g : globals_t) (env : env_t)
    (pre : List (List Char)) (line : List Char) (post : List (List Char)) (p : parser_t)
    (cr : Nat) (r : route_t) (c1 : List Char) (ts tail : List (List Char))
    (hms : List (Int × Int))
    (h : reaches sf g env pre line post p) (hcur : p.currentroute = some cr)
    (hr : p.airport.routes[cr]? = some r) (htok : tokens p.lineno line = c1 :: (ts ++ tail))
    (hkw : strcaseeq c1 "at".toList = true)
    (hts : ∀ t ∈ ts, strcaseeq t "on".toList = false)
    (hv : List.Forall₂ (fun t hm => scan_hhmm t = full_t.val hm) ts hms) :
    (r.pathlen = 0 → ∃ res, readconfig sf g env = some res ∧ res.ret = 1) ∧
    (r.pathlen ≠ 0 →
      (MAX_ATTIMES < ts.length → ∃ res, readconfig sf g env = some res ∧ res.ret = 1) ∧
      (∀ b more, tail = b :: more → strcaseeq b "on".toList = false →
        scan_hhmm b = full_t.bad → ∃ res, readconfig sf g env = some res ∧ res.ret = 1) ∧
      (ts.length ≤ MAX_ATTIMES → (∀ t ∈ tail.head?, strcaseeq t "on".toList = true) →
        ∃ node, r.path.getLast? = some node ∧
          ∀ d, at_days (tail.drop 1) node.atdays = Except.ok d →
            ∃ p1 r1 attime, readline sf p line = line_t.next p1 ∧
              p1.currentroute = some cr ∧ p1.airport.routes[cr]? = some r1 ∧
              r1.pathlen = r.pathlen ∧ r1.path.length = r.path.length ∧
              r1.path[r.pathlen - 1]? = some { node with attime := attime, atdays := d } ∧
              attime = hms.map minutes ++
                (if ts.length < MAX_ATTIMES then INVALID_AT :: node.attime.drop (ts.length + 1)
                  else []) ∧
              attime.length = MAX_ATTIMES ∧
              schedule attime = hms.map minutes ∧
              hms.map minutes = hms.map (fun hm => 60 * hm.1 + hm.2) ∧
              ∀ j, j ≠ r.pathlen - 1 → r1.path[j]? = r.path[j]?)) ∧
    (∀ hh mm : Nat, hh < 100 → mm < 100 →
      scan_hhmm (two hh ++ ':' :: two mm) =
        if hh ≤ 23 ∧ mm ≤ 59 then full_t.val ((hh : Int), (mm : Int)) else full_t.bad) := by
  have hw := reaches_wf sf g env pre line post p h
  have hpk : pathok r := (reaches_wfblock sf g env pre line post p h).path cr r hcur hr
  have hc : c1.head? ≠ some '#' := keyword_no_comment c1 _ 'a' hkw rfl (by decide)
  have hrl := readline_route sf p line c1 (ts ++ tail) cr r hw hcur hr htok hc
  have hnp : strcaseeq c1 "pause".toList = false := keyword_differs c1 _ _ hkw (by decide)
  refine ⟨?_, ?_, scan_hhmm_two⟩
  · intro h0
    obtain ⟨res, hf, h1, _⟩ := endline_fail (counted p)
      "Route can\x27t start with an \"at\", at line %d".toList [arg_t.int (counted p).lineno] rfl
    refine ⟨res, reaches_stop sf g env pre line post p h _ ?_, h1⟩
    rw [hrl, ← hf]
    unfold route_line
    simp only [hnp, hkw, if_true, h0, Bool.false_eq_true, if_false]
  · intro hlen
    obtain ⟨node, hn1, hn2, -⟩ := lastnode_facts r id hpk hlen
    have hatt : node.attime.length = MAX_ATTIMES :=
      hpk.2 node (List.getElem?_mem hn1)
    have hbr := at_branch sf (counted p) cr r c1 (ts ++ tail) node hkw hlen hn1
    refine ⟨?_, ?_, ?_⟩
    · intro hn
      obtain ⟨res, hf, h1, _⟩ := endline_fail (counted p)
        "Exceeded %d times-of-day at line %d".toList
        [arg_t.int MAX_ATTIMES, arg_t.int (counted p).lineno] rfl
      refine ⟨res, reaches_stop sf g env pre line post p h _ ?_, h1⟩
      rw [hrl, hbr, at_times_exceeded _ ts hms _ tail hv hts hn]
      exact hf
    · intro b more htail hb hbad
      obtain ⟨format, ap, hat, hsome⟩ :=
        at_times_bad (counted p).lineno ts hms node.attime b more hv hts hb hbad
      obtain ⟨res, hf, h1, _⟩ := endline_fail (counted p) format ap hsome
      refine ⟨res, reaches_stop sf g env pre line post p h _ ?_, h1⟩
      rw [hrl, hbr, htail, hat]
      exact hf
    · intro hn htail
      refine ⟨node, hn2, ?_⟩
      intro d hd
      have hacc := at_accept sf (counted p) cr r c1 ts tail hms node d hkw hlen hn1 hatt hv hts
        hn htail hd
      obtain ⟨node1, hm1, _, hm3, hm4, hm5, hm6⟩ :=
        lastnode_facts r (fun n : path_t =>
          { n with attime := timed node.attime (hms.map minutes), atdays := d }) hpk hlen
      have hnode1 : node1 = node := by
        rw [hn1] at hm1
        exact (Option.some.inj hm1).symm
      subst hnode1
      have hmv := minutes_valid ts hms hv
      have hlen2 : (hms.map minutes).length = ts.length := by
        rw [List.length_map]; exact hmv.2
      refine ⟨_, _, timed node1.attime (hms.map minutes), hrl.trans hacc, hcur,
        store_route_getElem? _ cr _ r hr, hm5, hm4, hm3, ?_, ?_, ?_, ?_, hm6⟩
      · simp only [timed, hlen2]
      · simp only [timed, hlen2]
        by_cases hlt : ts.length < MAX_ATTIMES
        · simp only [hlt, if_true, List.length_append, List.length_cons, List.length_drop,
            hlen2, hatt]
          omega
        · simp only [hlt, if_false, List.length_append, List.length_nil, hlen2]
          omega
      · exact schedule_timed node1.attime _ hatt hmv.1 (by omega)
      · apply List.map_congr_left
        intro hm _
        unfold minutes
        ring

theorem at_line_witness :
    ∃ p1 r1 node1,
      readline scan_f (after_lines good_file) "at 08:00 10:00\n".toList = line_t.next p1 ∧
      p1.airport.routes[0]? = some r1 ∧ r1.path[1]? = some node1 ∧
      schedule node1.attime = [480, 600] := by
  obtain ⟨node, _, hacc⟩ :=
    ((at_line scan_f start (found_file 1 (good_file ++ ["at 08:00 10:00\n"]))
      (good_file.map String.toList) "at 08:00 10:00\n".toList [] (after_lines good_file) 0
      (route_after good_file 0) "at".toList ["08:00".toList, "10:00".toList] []
      [(8, 0), (10, 0)]
      ⟨rfl, rfl, ⟨1, rfl, by decide⟩, by rfl, by rfl⟩ (by rfl) (by rfl) (by rfl) (by rfl)
      (by decide)
      (List.Forall₂.cons (by rfl) (List.Forall₂.cons (by rfl) List.Forall₂.nil))).2.1
        (by decide)).2.2 (by decide) (by simp)
  obtain ⟨p1, r1, attime, h1, _, h3, _, _, h6, _, _, h9, _⟩ := hacc node.atdays rfl
  exact ⟨p1, r1, _, h1, h3, h6, h9⟩

/-! ## The day mask -/

/-- Without a token `on` the first loop of the `at` command leaves nothing for the second. -/
theorem at_times_no_on (lineno : Nat) (ts : List (List Char)) :
    ∀ (i : Nat) (attime a : List Int) (j : Nat) (rest1 : List (List Char)),
      (∀ t ∈ ts, strcaseeq t "on".toList = false) →
      at_times lineno ts i attime = attimes_t.done a j rest1 → rest1 = [] := by
  induction ts with
  | nil =>
    intro i attime a j rest1 _ h
    simp only [at_times] at h
    cases h
    rfl
  | cons t ts ih =>
    intro i attime a j rest1 hon h
    have ht := hon t (List.mem_cons_self _ _)
    simp only [at_times, ht, Bool.false_eq_true, if_false] at h
    split at h
    · cases h
    · split at h
      · cases h
      · cases h
      · exact ih _ _ a j rest1 (fun t1 h1 => hon t1 (List.mem_cons_of_mem _ h1)) h

/-- C13 at a failing input: the example of the spec with the line `at 08:00 10:00` after the
second waypoint loads successfully (return 2); the waypoint has the schedule 08:00 and 10:00
and the day mask 0, while `DAY_ALL` is 127. -/
theorem at_without_on_mask_zero :
    (readconfig scan_f start (found_file 1 (good_file ++ ["at 08:00 10:00\n"]))).map
      (fun r => (r.ret, r.g.airport.routes.map
        (fun c => c.path.map (fun n => (schedule n.attime, n.atdays))))) =
      some (2, [[([], 0), ([480, 600], 0)]]) ∧
    DAY_ALL = 127 := by
  refine ⟨by rfl, by rfl⟩

/-- C13, amended: inside a route block with a waypoint, an accepted `at` line without a
token `on` leaves the day mask of the last node of the path as it was. A node is created
by a waypoint line with the day mask 0, and is then the last node; so for a waypoint that
had no earlier `at` line the mask is 0 after the line, which is not `DAY_ALL`. -/
theorem at_without_on (sf : List Char → scan_t ℚ) (g : globals_t) (env : env_t)
    (pre : List (List Char)) (line : List Char) (post : List (List Char)) (p p1 : parser_t)
    (cr : Nat) (r : route_t) (c1 : List Char) (ts : List (List Char))
    (h : reaches sf g env pre line post p) (hcur : p.currentroute = some cr)
    (hr : p.airport.routes[cr]? = some r) (htok : tokens p.lineno line = c1 :: ts)
    (hkw : strcaseeq c1 "at".toList = true)
    (hts : ∀ t ∈ ts, strcaseeq t "on".toList = false)
    (hacc : readline sf p line = line_t.next p1) :
    (∃ r1 node node1, p1.airport.routes[cr]? = some r1 ∧ r1.pathlen = r.pathlen ∧
      r.path[r.pathlen - 1]? = some node ∧ r.path.getLast? = some node ∧
      r1.path[r.pathlen - 1]? = some node1 ∧
      node1.atdays = node.atdays ∧ (node.atdays = 0 → node1.atdays ≠ DAY_ALL)) ∧
    (∀ lat lon, (newnode lat lon).atdays = 0 ∧
      (addnode r (newnode lat lon)).path.getLast? = some (newnode lat lon)) := by
  have hw := reaches_wf sf g env pre line post p h
  have hpk : pathok r := (reaches_wfblock sf g env pre line post p h).path cr r hcur hr
  have hc : c1.head? ≠ some '#' := keyword_no_comment c1 _ 'a' hkw rfl (by decide)
  have hrl := readline_route sf p line c1 ts cr r hw hcur hr htok hc
  have hnp : strcaseeq c1 "pause".toList = false := keyword_differs c1 _ _ hkw (by decide)
  constructor
  · by_cases hlen : r.pathlen = 0
    · exfalso
      rw [hrl] at hacc
      unfold route_line at hacc
      simp only [hnp, hkw, if_true, hlen, Bool.false_eq_true, if_false, endline] at hacc
      cases hacc
    · obtain ⟨node, hn1, hn2, -⟩ := lastnode_facts r id hpk hlen
      rw [hrl, at_branch sf (counted p) cr r c1 ts node hkw hlen hn1] at hacc
      cases hat : at_times (counted p).lineno ts 0 node.attime with
      | undef => rw [hat] at hacc; cases hacc
      | fail format ap => rw [hat] at hacc; cases hacc
      | done a j rest1 =>
        have hnil := at_times_no_on _ ts 0 node.attime a j rest1 hts hat
        subst hnil
        rw [hat] at hacc
        simp only [at_days, endline] at hacc
        injection hacc with hacc
        subst hacc
        obtain ⟨node1, hm1, _, hm3, _, hm5, _⟩ :=
          lastnode_facts r (fun n : path_t =>
            { n with attime := if j < MAX_ATTIMES then a.set j INVALID_AT else a,
                     atdays := node.atdays }) hpk hlen
        have hnode1 : node1 = node := by
          rw [hn1] at hm1
          exact (Option.some.inj hm1).symm
        subst hnode1
        refine ⟨_, node1, _, store_route_getElem? _ cr _ r hr, hm5, hn1, hn2, hm3, rfl, ?_⟩
        intro h0
        show node1.atdays ≠ DAY_ALL
        rw [h0]
        decide
  · intro lat lon
    refine ⟨rfl, ?_⟩
    simp [addnode]

theorem at_without_on_witness :
    (∃ r1 node node1,
      (after_lines (good_file ++ ["at 08:00 10:00\n"])).airport.routes[0]? = some r1 ∧
      r1.pathlen = (route_after good_file 0).pathlen ∧
      (route_after good_file 0).path[(route_after good_file 0).pathlen - 1]? = some node ∧
      (route_after good_file 0).path.getLast? = some node ∧
      r1.path[(route_after good_file 0).pathlen - 1]? = some node1 ∧
      node1.atdays = node.atdays ∧ (node.atdays = 0 → node1.atdays ≠ DAY_ALL)) :=
  (at_without_on scan_f start (found_file 1 (good_file ++ ["at 08:00 10:00\n"]))
    (good_file.map String.toList) "at 08:00 10:00\n".toList [] (after_lines good_file)
    (after_lines (good_file ++ ["at 08:00 10:00\n"])) 0
    (route_after good_file 0) "at".toList ["08:00".toList, "10:00".toList]
    ⟨rfl, rfl, ⟨1, rfl, by decide⟩, by rfl, by rfl⟩ (by rfl) (by rfl) (by rfl) (by rfl)
    (by decide) (by rfl)).1

/-- The search of the `for` loop over `daynames` finds the bit of the spec. -/
theorem find_day (c1 : List Char) :
    ((daynames.zip dayvals).find? (fun d => strncaseeq c1 d.1)).map (fun d => d.2) =
      day_bit c1 := by
  unfold day_bit weekdays daynames dayvals strncaseeq
  simp only [List.zip_cons_cons, List.zip_nil_right, List.find?_cons]
  repeat' split
  all_goals rfl

/-- The second loop of the `at` command computes the day mask of the spec, and fails at
the first token that has no bit. -/
theorem at_days_mask (toks : List (List Char)) :
    ∀ mask, (∀ m, day_mask mask toks = some m → at_days toks mask = Except.ok m) ∧
      (day_mask mask toks = none →
        ∃ c, at_days toks mask = Except.error c ∧ c ∈ toks ∧ day_bit c = none) := by
  induction toks with
  | nil =>
    intro mask
    refine ⟨?_, ?_⟩
    · intro m h
      simp only [day_mask] at h
      cases h
      rfl
    · intro h
      simp only [day_mask] at h
      cases h
  | cons c1 toks ih =>
    intro mask
    have hf := find_day c1
    cases hd : (daynames.zip dayvals).find? (fun d => strncaseeq c1 d.1) with
    | none =>
      rw [hd] at hf
      simp only [Option.map_none'] at hf
      refine ⟨?_, ?_⟩
      · intro m h
        simp only [day_mask, ← hf] at h
        cases h
      · intro _
        exact ⟨c1, by simp only [at_days, hd], List.mem_cons_self _ _, hf.symm⟩
    | some d =>
      rw [hd] at hf
      simp only [Option.map_some'] at hf
      refine ⟨?_, ?_⟩
      · intro m h
        simp only [day_mask, ← hf] at h
        simp only [at_days, hd]
        exact (ih _).1 m h
      · intro h
        simp only [day_mask, ← hf] at h
        obtain ⟨c, h1, h2, h3⟩ := (ih _).2 h
        exact ⟨c, by simp only [at_days, hd, h1], List.mem_cons_of_mem _ h2, h3⟩

/-- The first loop of the `at` command over well-formed times followed by nothing or by
`on`: the times are written and the tokens after `on` are left for the second loop. -/
theorem at_times_on (lineno : Nat) (ts tail : List (List Char)) (hms : List (Int × Int))
    (attime : List Int)
    (hv : List.Forall₂ (fun t hm => scan_hhmm t = full_t.val hm) ts hms)
    (hts : ∀ t ∈ ts, strcaseeq t "on".toList = false) (hn : ts.length ≤ MAX_ATTIMES)
    (htail : ∀ t ∈ tail.head?, strcaseeq t "on".toList = true) :
    at_times lineno (ts ++ tail) 0 attime =
      attimes_t.done (writes attime 0 (hms.map minutes)) ts.length (tail.drop 1) := by
  rw [at_times_valid lineno ts hms 0 attime tail hv hts (by omega), Nat.zero_add]
  cases tail with
  | nil => simp [at_times]
  | cons t days =>
    have ht : strcaseeq t "on".toList = true := htail t (by simp)
    simp only [at_times, ht, if_true, List.drop_succ_cons, List.drop_zero]

/-- The day mask of the spec is the old mask with the bit of each token. -/
theorem day_mask_foldl (days : List (List Char)) :
    ∀ mask m, day_mask mask days = some m →
      m = days.foldl (fun mask d => mask ||| (day_bit d).getD 0) mask := by
  induction days with
  | nil =>
    intro mask m hm
    simp only [day_mask] at hm
    cases hm
    rfl
  | cons d days ih =>
    intro mask m hm
    simp only [day_mask] at hm
    cases hb : day_bit d with
    | none => rw [hb] at hm; cases hm
    | some b =>
      rw [hb] at hm
      simp only [List.foldl_cons, hb, Option.getD_some]
      exact ih _ m hm

/-- C14: inside a route block with a waypoint, for a line `at t1 .. tn on d1 .. dk` with at
most 24 well-formed times. If every token `d` after `on` is a prefix, letter case aside,
of a day name, the line is accepted and the day mask of the last node of the path becomes
its old mask with, for each token, the bit of the first of monday, tuesday, .., sunday that
the token is a prefix of; the bit of a day is 2 to the power of its `tm_wday` number
(sunday 1, monday 2, tuesday 4, .., saturday 64), and every full day name gets its own bit.
If a token is a prefix of no day name the load fails (returns 1). -/
theorem at_on_days (sf : List Char → scan_t ℚ) (g : globals_t) (env : env_t)
    (pre : List (List Char)) (line : List Char) (post : List (List Char)) (p : parser_t)
    (cr : Nat) (r : route_t) (c1 kon : List Char) (ts days : List (List Char))
    (hms : List (Int × Int))
    (h : reaches sf g env pre line post p) (hcur : p.currentroute = some cr)
    (hr : p.airport.routes[cr]? = some r) (hlen : r.pathlen ≠ 0)
    (htok : tokens p.lineno line = c1 :: (ts ++ kon :: days))
    (hkw : strcaseeq c1 "at".toList = true) (hon : strcaseeq kon "on".toList = true)
    (hts : ∀ t ∈ ts, strcaseeq t "on".toList = false)
    (hv : List.Forall₂ (fun t hm => scan_hhmm t = full_t.val hm) ts hms)
    (hn : ts.length ≤ MAX_ATTIMES) :
    (∃ node, r.path.getLast? = some node ∧
      (∀ m, day_mask node.atdays days = some m →
        ∃ p1 r1 node1, readline sf p line = line_t.next p1 ∧
          p1.airport.routes[cr]? = some r1 ∧ r1.path[r.pathlen - 1]? = some node1 ∧
          node1.atdays = m ∧
          m = days.foldl (fun mask d => mask ||| (day_bit d).getD 0) node.atdays ∧
          schedule node1.attime = hms.map minutes) ∧
      (day_mask node.atdays days = none →
        (∃ d ∈ days, day_bit d = none) ∧
        ∃ res, readconfig sf g env = some res ∧ res.ret = 1)) ∧
    weekdays.map (fun d => day_bit d.1) =
      [some DAY_MON, some DAY_TUE, some DAY_WED, some DAY_THU, some DAY_FRI, some DAY_SAT,
       some DAY_SUN] ∧
    [DAY_SUN, DAY_MON, DAY_TUE, DAY_WED, DAY_THU, DAY_FRI, DAY_SAT] = [1, 2, 4, 8, 16, 32, 64] := by
  have hw := reaches_wf sf g env pre line post p h
  have hpk : pathok r := (reaches_wfblock sf g env pre line post p h).path cr r hcur hr
  have hc : c1.head? ≠ some '#' := keyword_no_comment c1 _ 'a' hkw rfl (by decide)
  have hrl := readline_route sf p line c1 (ts ++ kon :: days) cr r hw hcur hr htok hc
  obtain ⟨node, hn1, hn2, -⟩ := lastnode_facts r id hpk hlen
  have hatt : node.attime.length = MAX_ATTIMES := hpk.2 node (List.getElem?_mem hn1)
  have htail : ∀ t ∈ (kon :: days).head?, strcaseeq t "on".toList = true := by
    intro t ht
    simp only [List.head?_cons, Option.mem_def, Option.some.injEq] at ht
    rw [← ht]
    exact hon
  refine ⟨⟨node, hn2, ?_, ?_⟩, by rfl, by rfl⟩
  · intro m hm
    have hd : at_days ((kon :: days).drop 1) node.atdays = Except.ok m :=
      (at_days_mask days node.atdays).1 m hm
    have hacc := at_accept sf (counted p) cr r c1 ts (kon :: days) hms node m hkw hlen hn1 hatt
      hv hts hn htail hd
    obtain ⟨node1, hm1, _, hm3, _, _, _⟩ :=
      lastnode_facts r (fun n : path_t =>
        { n with attime := timed node.attime (hms.map minutes), atdays := m }) hpk hlen
    have hmv := minutes_valid ts hms hv
    refine ⟨_, _, _, hrl.trans hacc, store_route_getElem? _ cr _ r hr, hm3, rfl, ?_,
      schedule_timed node.attime _ hatt hmv.1 (by rw [List.length_map]; omega)⟩
    exact day_mask_foldl days node.atdays m hm
  · intro hnone
    obtain ⟨c, hc1, hc2, hc3⟩ := (at_days_mask days node.atdays).2 hnone
    refine ⟨⟨c, hc2, hc3⟩, ?_⟩
    obtain ⟨res, hf, h1, _⟩ := endline_fail (counted p)
      "Expecting a day name, found \"%s\" at line %d".toList
      [arg_t.str c, arg_t.int (counted p).lineno] rfl
    refine ⟨res, reaches_stop sf g env pre line post p h _ ?_, h1⟩
    rw [hrl, at_branch sf (counted p) cr r c1 _ node hkw hlen hn1,
      at_times_on _ ts (kon :: days) hms node.attime hv hts hn htail]
    simp only [List.drop_succ_cons, List.drop_zero, hc1]
    exact hf

theorem at_on_days_witness :
    ∃ p1 r1 node1,
      readline scan_f (after_lines good_file)
        "at 08:00 10:00 on monday wednesday\n".toList = line_t.next p1 ∧
      p1.airport.routes[0]? = some r1 ∧ r1.path[1]? = some node1 ∧
      node1.atdays = 10 ∧ schedule node1.attime = [480, 600] := by
  obtain ⟨node, hnode, hacc, _⟩ :=
    (at_on_days scan_f start
      (found_file 1 (good_file ++ ["at 08:00 10:00 on monday wednesday\n"]))
      (good_file.map String.toList) "at 08:00 10:00 on monday wednesday\n".toList []
      (after_lines good_file) 0 (route_after good_file 0) "at".toList "on".toList
      ["08:00".toList, "10:00".toList] ["monday".toList, "wednesday".toList]
      [(8, 0), (10, 0)]
      ⟨rfl, rfl, ⟨1, rfl, by decide⟩, by rfl, by rfl⟩ (by rfl) (by rfl) (by decide) (by rfl)
      (by rfl) (by rfl) (by decide)
      (List.Forall₂.cons (by rfl) (List.Forall₂.cons (by rfl) List.Forall₂.nil))
      (by decide)).1
  have h0 : (route_after good_file 0).path.getLast?.map (fun n => n.atdays) = some 0 := by rfl
  rw [hnode] at h0
  simp only [Option.map_some', Option.some.injEq] at h0
  obtain ⟨p1, r1, node1, h1, h2, h3, h4, _, h6⟩ := hacc 10 (by rw [h0]; rfl)
  exact ⟨p1, r1, node1, h1, h2, h3, h4, h6⟩

/-! ## The `reverse` command -/

/-- Outside any block, blank lines and comment lines after the first line only count. -/
theorem skip_lines (sf : List Char → scan_t ℚ) (mid : List (List Char)) :
    ∀ p : parser_t, p.lineno ≠ 0 → p.currentroute = none → p.currenttrain = none →
      (∀ l ∈ mid, skipped l = true) →
      readlines sf p mid = line_t.next { p with lineno := p.lineno + mid.length } := by
  induction mid with
  | nil => intro p _ _ _ _; rfl
  | cons l mid ih =>
    intro p h0 hcr hct hs
    have hl := hs l (List.mem_cons_self _ _)
    have htok : tokens p.lineno l = strtok l := by simp [tokens, h0]
    have hstep : readline sf p l = line_t.next (counted p) := by
      unfold skipped at hl
      cases hk : strtok l with
      | nil =>
        rw [readline_blank sf p l (htok.trans hk)]
        obtain ⟨a, ln, lr, cr, lt, ct⟩ := p
        simp only at hcr hct
        subst hcr hct
        rfl
      | cons c1 rest =>
        rw [hk] at hl
        exact readline_comment sf p l c1 rest (htok.trans hk) (by simpa using hl)
    simp only [readlines, hstep]
    rw [ih (counted p) (by simp [counted]) hcr hct
      (fun l1 h1 => hs l1 (List.mem_cons_of_mem _ h1))]
    simp only [counted, List.length_cons]
    congr 2
    omega

/-- Outside any block a line that is no comment is a `route` line, a `train` line or a
failure. -/
theorem readline_toplevel (sf : List Char → scan_t ℚ) (p : parser_t) (line c1 : List Char)
    (rest : List (List Char)) (hst : p.airport.state ≠ state_t.noconfig)
    (hcr : p.currentroute = none) (hct : p.currenttrain = none)
    (htok : tokens p.lineno line = c1 :: rest) (hc : c1.head? ≠ some '#') :
    readline sf p line = endline (counted p) (toplevel sf (counted p) c1 rest) := by
  rw [readline_eq sf p line c1 rest htok hc]
  have h1 : (counted p).airport.state ≠ state_t.noconfig := hst
  have h2 : (counted p).currentroute = none := hcr
  have h3 : (counted p).currenttrain = none := hct
  simp only [branch_of, h1, if_false, h2, h3, toplevel]

/-- C15: inside a route block, for a line `reverse` (keyword in any letter case). With no
waypoint yet the load fails (returns 1). With a waypoint the line is accepted: it sets the
reverse flag of the last node of the path, the most recently added waypoint, changes
neither the path length nor any other node, and leaves no block open; then, after any
number of blank lines and comment lines, a line that is neither is handled as a line
outside any block: a `route` line, a `train` line, or else a failure. -/
theorem reverse_line (sf : List Char → scan_t ℚ) (g : globals_t) (env : env_t)
    (pre : List (List Char)) (line : List Char) (post : List (List Char)) (p : parser_t)
    (cr : Nat) (r : route_t) (c1 : List Char)
    (h : reaches sf g env pre line post p) (hcur : p.currentroute = some cr)
    (hr : p.airport.routes[cr]? = some r) (htok : tokens p.lineno line = [c1])
    (hkw : strcaseeq c1 "reverse".toList = true) :
    (r.pathlen = 0 → ∃ res, readconfig sf g env = some res ∧ res.ret = 1) ∧
    (r.pathlen ≠ 0 →
      ∃ p1 r1 node, readline sf p line = line_t.next p1 ∧
        p1.currentroute = none ∧ p1.currenttrain = none ∧
        p1.airport.routes[cr]? = some r1 ∧ r1.pathlen = r.pathlen ∧
        r1.path.length = r.path.length ∧ r.path.getLast? = some node ∧
        r1.path[r.pathlen - 1]? = some { node with reverse := true } ∧
        (∀ j, j ≠ r.pathlen - 1 → r1.path[j]? = r.path[j]?) ∧
        ∀ (mid : List (List Char)) (next c2 : List Char) (rest : List (List Char)),
          (∀ l ∈ mid, skipped l = true) → strtok next = c2 :: rest → c2.head? ≠ some '#' →
          ∃ p2, readlines sf p1 mid = line_t.next p2 ∧ p2.airport = p1.airport ∧
            readline sf p2 next = endline (counted p2) (toplevel sf (counted p2) c2 rest)) := by
  have hw := reaches_wf sf g env pre line post p h
  have hwb := reaches_wfblock sf g env pre line post p h
  have hpk : pathok r := hwb.path cr r hcur hr
  have hc : c1.head? ≠ some '#' := keyword_no_comment c1 _ 'r' hkw rfl (by decide)
  have hrl := readline_route sf p line c1 [] cr r hw hcur hr htok hc
  have hnp : strcaseeq c1 "pause".toList = false := keyword_differs c1 _ _ hkw (by decide)
  have hna : strcaseeq c1 "at".toList = false := keyword_differs c1 _ _ hkw (by decide)
  constructor
  · intro h0
    obtain ⟨res, hf, h1, _⟩ := endline_fail (counted p)
      "Empty route at line %d".toList [arg_t.int (counted p).lineno] rfl
    refine ⟨res, reaches_stop sf g env pre line post p h _ ?_, h1⟩
    rw [hrl, ← hf]
    unfold route_line
    simp only [hnp, hna, hkw, if_true, h0, Bool.false_eq_true, if_false]
  · intro hlen
    obtain ⟨node, _, hn2, hn3, hn4, hn5, hn6⟩ :=
      lastnode_facts r (fun nd => { nd with reverse := true }) hpk hlen
    have hnext : readline sf p line = line_t.next
        { stored (counted p) cr (fun r => lastnode r (fun n => { n with reverse := true }))
          with currentroute := none } := by
      rw [hrl]
      unfold route_line
      simp only [hnp, hna, hkw, if_true, hlen, Bool.false_eq_true, if_false, endline, stored]
    refine ⟨_, _, node, hnext, rfl, hwb.excl cr hcur, store_route_getElem? _ cr _ r hr, hn5,
      hn4, hn2, hn3, hn6, ?_⟩
    intro mid next c2 rest hmid htk hc2
    refine ⟨_, skip_lines sf mid _ (by simp [stored, counted]) rfl (hwb.excl cr hcur) hmid,
      rfl, ?_⟩
    apply readline_toplevel
    · exact open_state p hw cr hcur
    · rfl
    · exact hwb.excl cr hcur
    · rw [← htk]
      simp [tokens, stored, counted]
    · exact hc2

theorem reverse_line_witness :
    ∃ p1, readline scan_f (after_lines good_file) "reverse\n".toList = line_t.next p1 ∧
      p1.currentroute = none ∧ p1.currenttrain = none := by
  obtain ⟨p1, _, _, h1, h2, h3, _⟩ :=
    (reverse_line scan_f start (found_file 1 (good_file ++ ["reverse\n"]))
      (good_file.map String.toList) "reverse\n".toList [] (after_lines good_file) 0
      (route_after good_file 0) "reverse".toList
      ⟨rfl, rfl, ⟨1, rfl, by decide⟩, by rfl, by rfl⟩ (by rfl) (by rfl) (by rfl) (by rfl)).2
      (by decide)
  exact ⟨p1, h1, h2, h3⟩

/-- C16 at a failing input: the train `tug` has the two entries `tractor` and `cart`, and a
route block for `tug` has two waypoints. Closed by `reverse`, the load succeeds (return 2)
with one route, for an object `tug`, that has the reverse flag on its last node; closed by
a blank line instead, the load succeeds with the two linked cars `tractor` and `cart`. -/
theorem reverse_skips_train_expansion :
    (readconfig scan_f start (found_file 1 (train_file ++ ["reverse\n"]))).map
      (fun r => (r.ret, r.g.airport.routes.map
        (fun c => (c.object.name, c.parent, c.path.map (fun n => n.reverse))))) =
      some (2, [("tug".toList, none, [false, true])]) ∧
    (readconfig scan_f start (found_file 1 (train_file ++ ["\n"]))).map
      (fun r => (r.ret, r.g.airport.routes.map
        (fun c => (c.object.name, c.parent, c.path.map (fun n => n.reverse))))) =
      some (2, [("tractor".toList, none, [false, false]),
        ("cart".toList, some 0, [false, false])]) ∧
    (train_after train_file).name = "tug".toList ∧
    trainlen (train_after train_file).objects = 2 := by
  refine ⟨by rfl, by rfl, by rfl, by rfl⟩

/-! ## Extraneous input -/

/-- A line goes on to the next only when its branch accepts it and leaves no token. -/
theorem endline_next (p p1 : parser_t) (b : branch_t) (h : endline p b = line_t.next p1) :
    b = branch_t.ok p1 [] := by
  unfold endline at h
  split at h
  · cases h
  · cases h
  · cases h; rfl
  · cases h

/-- Every route that `expandtrain` leaves from the current one on has the speed of the
current route. -/
theorem expandtrain_speed (airport : airport_t) (cr : Nat) (r : route_t)
    (hr : airport.routes[cr]? = some r) (hlast : cr + 1 = airport.routes.length) :
    ∀ c ∈ (expandtrain airport cr).1.routes.drop cr, c.speed = r.speed := by
  cases ht : airport.trains.find? (fun t => r.object.name == t.name) with
  | none =>
    rw [expandtrain_nomatch airport cr r hr ht]
    intro c hc
    dsimp only at hc
    obtain ⟨i, hi⟩ := List.getElem?_of_mem hc
    rw [List.getElem?_drop] at hi
    have hlt : cr + i < airport.routes.length := by
      by_contra hge
      rw [List.getElem?_eq_none (by omega)] at hi
      cases hi
    have h0 : i = 0 := by omega
    rw [h0, Nat.add_zero, hr] at hi
    cases hi
    rfl
  | some train =>
    rw [expandtrain_match airport cr r train hr hlast ht]
    have hlen : (airport.routes.take cr).length = cr := by
      rw [List.length_take]; omega
    intro c hc
    simp only [] at hc
    rw [List.drop_append_eq_append_drop, hlen, Nat.sub_self, List.drop_zero,
      List.drop_eq_nil_of_le (by omega), List.nil_append] at hc
    cases hcars : carriages train.objects with
    | nil =>
      rw [hcars] at hc
      simp only [cars, List.mem_singleton] at hc
      rw [hc]
    | cons o objs =>
      rw [hcars] at hc
      simp only [cars, List.mem_cons, List.mem_map] at hc
      rcases hc with hc | ⟨o1, _, hc⟩
      · rw [hc]; rfl
      · rw [← hc]; rfl

/-- A line inside a route block that leaves the block open keeps the speed and the object
of the route. -/
theorem readline_open (sf : List Char → scan_t ℚ) (p p1 : parser_t) (line : List Char)
    (cr : Nat) (r : route_t) (hw : wf p) (hcur : p.currentroute = some cr)
    (hr : p.airport.routes[cr]? = some r) (h : readline sf p line = line_t.next p1)
    (hopen : p1.currentroute = some cr) :
    ∃ r1, p1.airport.routes[cr]? = some r1 ∧ r1.speed = r.speed ∧ r1.object = r.object := by
  cases htok : tokens p.lineno line with
  | nil =>
    rw [readline_blank sf p line htok] at h
    have := (blank_line_next _ _ h).1
    rw [hopen] at this
    cases this
  | cons c1 rest =>
    by_cases hc : c1.head? = some '#'
    · rw [readline_comment sf p line c1 rest htok hc] at h
      cases h
      exact ⟨r, hr, rfl, rfl⟩
    · rw [readline_route sf p line c1 rest cr r hw hcur hr htok hc] at h
      obtain ⟨f, ha, _, _, _, _, hs, ho⟩ :=
        route_line_ok sf (counted p) p1 cr r c1 rest [] (endline_next _ _ _ h)
      refine ⟨f r, ?_, hs, ho⟩
      rw [ha]
      exact store_route_getElem? _ cr f r hr

/-- Lines inside a route block that all leave the block open keep the speed and the object
of the route. -/
theorem readlines_open (sf : List Char → scan_t ℚ) (cr : Nat) (body : List (List Char)) :
    ∀ (p p2 : parser_t) (r : route_t), wf p → p.currentroute = some cr →
      p.airport.routes[cr]? = some r → readlines sf p body = line_t.next p2 →
      (∀ k, k ≤ body.length →
        ∃ q, readlines sf p (body.take k) = line_t.next q ∧ q.currentroute = some cr) →
      wf p2 ∧ p2.currentroute = some cr ∧
      ∃ r2, p2.airport.routes[cr]? = some r2 ∧ r2.speed = r.speed ∧ r2.object = r.object := by
  induction body with
  | nil =>
    intro p p2 r hw hcur hr h _
    simp only [readlines] at h
    cases h
    exact ⟨hw, hcur, r, hr, rfl, rfl⟩
  | cons l body ih =>
    intro p p2 r hw hcur hr h hk
    cases hl : readline sf p l with
    | stop res => simp only [readlines, hl] at h; cases h
    | next q1 =>
      simp only [readlines, hl] at h
      obtain ⟨q, hq, hqc⟩ := hk 1 (by simp)
      simp only [List.take_succ_cons, List.take_zero, readlines, hl] at hq
      cases hq
      obtain ⟨r1, hr1, hs1, ho1⟩ := readline_open sf p q1 l cr r hw hcur hr hl hqc
      obtain ⟨hw2, hc2, r2, hr2, hs2, ho2⟩ :=
        ih q1 p2 r1 (readline_wf sf p q1 l hw hl) hqc hr1 h (by
          intro k hkl
          obtain ⟨q, hq, hqc⟩ := hk (k + 1) (by simp; omega)
          simp only [List.take_succ_cons, readlines, hl] at hq
          exact ⟨q, hq, hqc⟩)
      exact ⟨hw2, hc2, r2, hr2, hs2.trans hs1, ho2.trans ho1⟩

/-- C18: an accepted `route v objectName [heading]` line, with `v` the number `%f` reads
from its second token, opens a route block whose route has the speed `v * 1000 / 3600`.
The lines of the block keep that speed, and when the block is closed every route that
`expandtrain` leaves for it, the route itself or the cars made from it, has that speed.
For `v = 20` the speed is within 0.0005 of 5.556. (Speeds are exact rationals here, where
C has `float`.) -/
theorem route_speed (sf : List Char → scan_t ℚ) (g : globals_t) (env : env_t)
    (pre : List (List Char)) (line : List Char) (post : List (List Char)) (p p1 : parser_t)
    (c1 : List Char) (rest : List (List Char))
    (h : reaches sf g env pre line post p) (hst : p.airport.state ≠ state_t.noconfig)
    (hcr : p.currentroute = none) (hct : p.currenttrain = none)
    (htok : tokens p.lineno line = c1 :: rest) (hkw : strcaseeq c1 "route".toList = true)
    (hacc : readline sf p line = line_t.next p1) :
    ∃ (t : List Char) (v : ℚ) (cr : Nat) (r : route_t),
      rest[0]? = some t ∧ fullscan (sf t) = full_t.val v ∧
      p1.currentroute = some cr ∧ p1.airport.routes[cr]? = some r ∧
      r.speed = v * 1000 / 3600 ∧ (v = 20 → |r.speed - 5.556| < 0.0005) ∧
      ∀ (body : List (List Char)) (p2 : parser_t),
        readlines sf p1 body = line_t.next p2 →
        (∀ k, k ≤ body.length →
          ∃ q, readlines sf p1 (body.take k) = line_t.next q ∧ q.currentroute = some cr) →
        (∃ r2, p2.airport.routes[cr]? = some r2 ∧ r2.speed = v * 1000 / 3600) ∧
        ∀ c ∈ (expandtrain p2.airport cr).1.routes.drop cr, c.speed = v * 1000 / 3600 := by
  have hw := reaches_wf sf g env pre line post p h
  have hc : c1.head? ≠ some '#' := keyword_no_comment c1 _ 'r' hkw rfl (by decide)
  have hw1 : wf p1 := readline_wf sf p p1 line hw hacc
  rw [readline_toplevel sf p line c1 rest hst hcr hct htok hc] at hacc
  have hb := endline_next _ _ _ hacc
  unfold toplevel at hb
  simp only [hkw, if_true] at hb
  have hwc : wf (counted p) := wf_same p (counted p) hw rfl rfl (Or.inl rfl)
  obtain ⟨h1, _, _, _, r, t, c2, v, h2, h3, h4, _, h5, _⟩ :=
    new_route_ok sf (counted p) p1 rest [] hwc hb
  have hr1 : p1.airport.routes[(counted p).airport.routes.length]? = some r := by
    rw [h2]
    simp
  have hsp : r.speed = v * 1000 / 3600 := by
    rw [h5]
    ring
  refine ⟨t, v, _, r, h3, h4, h1, hr1, hsp, ?_, ?_⟩
  · intro hv
    rw [hsp, hv]
    norm_num [abs_lt]
  · intro body p2 hbody hk
    obtain ⟨hw2, hc2, r2, hr2, hs2, _⟩ :=
      readlines_open sf _ body p1 p2 r hw1 h1 hr1 hbody hk
    refine ⟨⟨r2, hr2, hs2.trans hsp⟩, ?_⟩
    intro c hcm
    rw [expandtrain_speed p2.airport _ r2 hr2 (hw2.cur _ hc2).1 c hcm, hs2, hsp]

theorem route_speed_witness :
    ∃ r, (after_lines open_file).airport.routes[0]? = some r ∧ r.speed = 20 * 1000 / 3600 := by
  obtain ⟨t, v, cr, r, h1, h2, h3, h4, h5, _⟩ :=
    route_speed scan_f start (found_file 1 open_file) ["KSEA 47.45 -122.31\n".toList]
      "route 20 baggage_cart\n".toList [] (after_lines ["KSEA 47.45 -122.31\n"])
      (after_lines open_file) "route".toList ["20".toList, "baggage_cart".toList]
      ⟨rfl, rfl, ⟨1, rfl, by decide⟩, by rfl, by rfl⟩ (by decide) (by rfl) (by rfl) (by rfl)
      (by rfl) (by rfl)
  cases h1
  have hv : fullscan (scan_f "20".toList) = full_t.val 20 := by with_unfolding_all rfl
  have hv2 : full_t.val (20 : ℚ) = full_t.val v := hv.symm.trans h2
  cases hv2
  have hc : (after_lines open_file).currentroute = some 0 := by rfl
  rw [hc] at h3
  cases h3
  exact ⟨r, h4, h5⟩

/-! ## Comment lines and the byte order mark -/

theorem header_rel (sf : List Char → scan_t ℚ) (p : parser_t) (n : Nat) (c1 : List Char)
    (rest : List (List Char)) (b : branch_t) (h : header_line sf p c1 rest = b) :
    brel p.lineno n b (header_line sf (relined n p) c1 rest) := by
  unfold header_line at h ⊢
  simp only [relined] at h ⊢
  repeat' split at h
  all_goals first
    | contradiction
    | (subst h
       try simp only [*, if_true, if_false]
       first
         | exact ⟨rfl, rfl⟩
         | exact ⟨rfl, rfl, rfl⟩
         | trivial)

theorem object_rel (sf : List Char → scan_t ℚ) (p : parser_t) (n ct : Nat) (train : train_t)
    (c1 : List Char) (rest : List (List Char)) (b : branch_t)
    (h : train_line sf p ct train c1 rest = b) :
    brel p.lineno n b (train_line sf (relined n p) ct train c1 rest) := by
  unfold train_line at h ⊢
  simp only [relined] at h ⊢
  repeat' split at h
  all_goals first
    | contradiction
    | (subst h
       try simp only [*, if_true, if_false]
       first
         | exact ⟨rfl, rfl⟩
         | exact ⟨rfl, rfl, rfl⟩
         | trivial)

theorem route_rel (sf : List Char → scan_t ℚ) (p : parser_t) (n : Nat)
    (rest : List (List Char)) (b : branch_t) (h : new_route sf p rest = b) :
    brel p.lineno n b (new_route sf (relined n p) rest) := by
  unfold new_route at h ⊢
  simp only [relined] at h ⊢
  repeat' split at h
  all_goals first
    | contradiction
    | (subst h
       try simp only [*, if_true, if_false]
       first
         | exact ⟨rfl, rfl⟩
         | exact ⟨rfl, rfl, rfl⟩
         | trivial)

theorem train_rel (p : parser_t) (n : Nat) (rest : List (List Char)) (b : branch_t)
    (h : new_train p rest = b) : brel p.lineno n b (new_train (relined n p) rest) := by
  unfold new_train at h ⊢
  simp only [relined] at h ⊢
  repeat' split at h
  all_goals first
    | contradiction
    | (subst h
       try simp only [*, if_true, if_false]
       first
         | exact ⟨rfl, rfl⟩
         | exact ⟨rfl, rfl, rfl⟩
         | trivial)

/-- The first loop of the `at` command does the same whatever the line count, but for the
number in the message of a failure. -/
theorem at_times_rel (m n : Nat) (toks : List (List Char)) :
    ∀ (i : Nat) (attime : List Int),
      (∃ a j r, at_times m toks i attime = attimes_t.done a j r ∧
        at_times n toks i attime = attimes_t.done a j r) ∨
      (∃ f ap1 ap2, at_times m toks i attime = attimes_t.fail f ap1 ∧
        at_times n toks i attime = attimes_t.fail f ap2 ∧
        (vsprintf f ap1).isSome = (vsprintf f ap2).isSome) ∨
      (at_times m toks i attime = attimes_t.undef ∧
        at_times n toks i attime = attimes_t.undef) := by
  induction toks with
  | nil =>
    intro i attime
    exact Or.inl ⟨attime, i, [], rfl, rfl⟩
  | cons c1 toks ih =>
    intro i attime
    simp only [at_times]
    split
    · exact Or.inl ⟨_, _, _, rfl, rfl⟩
    · split
      · exact Or.inr (Or.inl ⟨_, _, _, rfl, rfl, rfl⟩)
      · split
        · exact Or.inr (Or.inr ⟨rfl, rfl⟩)
        · exact Or.inr (Or.inl ⟨_, _, _, rfl, rfl, rfl⟩)
        · exact ih _ _

theorem route_line_rel (sf : List Char → scan_t ℚ) (p : parser_t) (n cr : Nat) (r : route_t)
    (c1 : List Char) (rest : List (List Char)) (b : branch_t)
    (h : route_line sf p cr r c1 rest = b) :
    brel p.lineno n b (route_line sf (relined n p) cr r c1 rest) := by
  unfold route_line at h ⊢
  cases hp : strcaseeq c1 "pause".toList with
  | true =>
    simp only [hp, if_true, relined] at h ⊢
    repeat' split at h
    all_goals first
      | contradiction
      | (subst h
         try simp only [*, if_true, if_false]
         first
           | exact ⟨rfl, rfl⟩
           | exact ⟨rfl, rfl, rfl⟩
           | trivial)
  | false =>
    cases ha : strcaseeq c1 "at".toList with
    | true =>
      simp only [hp, ha, if_true, Bool.false_eq_true, if_false, relined] at h ⊢
      by_cases h0 : r.pathlen = 0
      · simp only [h0, if_true] at h ⊢
        subst h
        exact ⟨rfl, rfl⟩
      · simp only [h0, if_false] at h ⊢
        cases hn : r.path[r.pathlen - 1]? with
        | none =>
          simp only [hn] at h ⊢
          subst h
          trivial
        | some node =>
          simp only [hn] at h ⊢
          rcases at_times_rel p.lineno n rest 0 node.attime with
            ⟨a, j, r1, h1, h2⟩ | ⟨f, ap1, ap2, h1, h2, h3⟩ | ⟨h1, h2⟩
          · simp only [h1, h2] at h ⊢
            cases hd : at_days r1 node.atdays with
            | error c =>
              simp only [hd] at h ⊢
              subst h
              exact ⟨rfl, rfl⟩
            | ok d =>
              simp only [hd] at h ⊢
              subst h
              exact ⟨rfl, rfl, rfl⟩
          · simp only [h1, h2] at h ⊢
            subst h
            exact ⟨rfl, h3⟩
          · simp only [h1, h2] at h ⊢
            subst h
            trivial
    | false =>
      simp only [hp, ha, Bool.false_eq_true, if_false, relined] at h ⊢
      repeat' split at h
      all_goals first
        | contradiction
        | (subst h
           try simp only [*, if_true, if_false]
           first
             | exact ⟨rfl, rfl⟩
             | exact ⟨rfl, rfl, rfl⟩
             | trivial)

theorem branch_of_rel (sf : List Char → scan_t ℚ) (p : parser_t) (n : Nat) (c1 : List Char)
    (rest : List (List Char)) :
    brel p.lineno n (branch_of sf p c1 rest) (branch_of sf (relined n p) c1 rest) := by
  unfold branch_of
  have e1 : (relined n p).airport = p.airport := rfl
  have e2 : (relined n p).currentroute = p.currentroute := rfl
  have e3 : (relined n p).currenttrain = p.currenttrain := rfl
  rw [e1, e2, e3]
  by_cases hst : p.airport.state = state_t.noconfig
  · simp only [hst, if_true]
    exact header_rel sf p n c1 rest _ rfl
  · simp only [hst, if_false]
    cases hcr : p.currentroute with
    | some cr =>
      cases hr : p.airport.routes[cr]? with
      | none =>
        simp only [hr]
        trivial
      | some r =>
        simp only [hr]
        exact route_line_rel sf p n cr r c1 rest _ rfl
    | none =>
      cases hct : p.currenttrain with
      | some ct =>
        cases ht : p.airport.trains[ct]? with
        | none =>
          simp only [ht]
          trivial
        | some train =>
          simp only [ht]
          exact object_rel sf p n ct train c1 rest _ rfl
      | none =>
        simp only []
        split
        · exact route_rel sf p n rest _ rfl
        · split
          · exact train_rel p n rest _ rfl
          · exact ⟨rfl, rfl⟩

theorem endline_rel (p : parser_t) (n : Nat) (a b : branch_t) (h : brel p.lineno n a b) :
    sameline (endline p a) (endline (relined n p) b) ∧
    (∀ p1, endline p a = line_t.next p1 → p1.lineno = p.lineno) := by
  cases a with
  | undef =>
    cases b with
    | undef => exact ⟨trivial, fun p1 h1 => by simp only [endline] at h1; cases h1⟩
    | ok _ _ => exact absurd h id
    | fail _ _ => exact absurd h id
  | fail f1 ap1 =>
    cases b with
    | undef => exact absurd h id
    | ok _ _ => exact absurd h id
    | fail f2 ap2 =>
      obtain ⟨hf, hs⟩ := h
      subst hf
      refine ⟨?_, fun p1 h1 => by simp only [endline] at h1; cases h1⟩
      simp only [endline, failconfig]
      cases h1 : vsprintf f1 ap1 with
      | none =>
        rw [h1] at hs
        cases h2 : vsprintf f1 ap2 with
        | none => trivial
        | some _ => rw [h2] at hs; cases hs
      | some m1 =>
        rw [h1] at hs
        cases h2 : vsprintf f1 ap2 with
        | none => rw [h2] at hs; cases hs
        | some _ => exact ⟨rfl, rfl⟩
  | ok p1 r1 =>
    cases b with
    | undef => exact absurd h id
    | fail _ _ => exact absurd h id
    | ok q1 r2 =>
      obtain ⟨hl, hq, hr⟩ := h
      subst hq hr
      cases r1 with
      | nil =>
        refine ⟨rfl, ?_⟩
        intro p2 h2
        simp only [endline] at h2
        cases h2
        exact hl
      | cons c more =>
        refine ⟨?_, fun p2 h2 => by simp only [endline] at h2; cases h2⟩
        obtain ⟨res1, _, hf1, hr1, hg1, _⟩ := failconfig_defined p1.airport
          "Extraneous input \"%s\" at line %d".toList [arg_t.str c, arg_t.int p1.lineno] rfl
        obtain ⟨res2, _, hf2, hr2, hg2, _⟩ := failconfig_defined (relined n p1).airport
          "Extraneous input \"%s\" at line %d".toList
          [arg_t.str c, arg_t.int (relined n p1).lineno] rfl
        simp only [endline, hf1, hf2]
        exact ⟨hr1.trans hr2.symm, hg1.trans hg2.symm⟩

theorem blank_line_rel (p : parser_t) (n : Nat) :
    sameline (blank_line p) (blank_line (relined n p)) := by
  unfold blank_line
  simp only [relined]
  cases hcr : p.currentroute with
  | none =>
    simp only []
    split
    · simp [sameline, failconfig, vsprintf]
    · simp [sameline, relined]
  | some cr =>
    simp only []
    by_cases hz : (p.airport.routes[cr]?.map (fun r => r.pathlen)) = some 0
    · simp only [hz, if_true]
      simp [sameline, failconfig, vsprintf]
    · simp only [hz, if_false]
      split
      · simp [sameline, failconfig, vsprintf]
      · simp [sameline, relined]

/-- Every line that does not end the call adds one to the line count. -/
theorem readline_lineno (sf : List Char → scan_t ℚ) (p p1 : parser_t) (l : List Char)
    (h : readline sf p l = line_t.next p1) : p1.lineno = p.lineno + 1 := by
  cases hk : tokens p.lineno l with
  | nil =>
    rw [readline_blank sf p l hk] at h
    exact (blank_line_next _ _ h).2.2
  | cons c1 rest =>
    by_cases hc : c1.head? = some '#'
    · rw [readline_comment sf p l c1 rest hk hc] at h
      cases h
      rfl
    · rw [readline_eq sf p l c1 rest hk hc] at h
      exact (endline_rel (counted p) 0 _ _ (branch_of_rel sf (counted p) 0 c1 rest)).2 p1 h

/-- A line ends the same way whatever the line count, as long as it has the same tokens. -/
theorem readline_rel (sf : List Char → scan_t ℚ) (p : parser_t) (n : Nat) (l : List Char)
    (htok : tokens p.lineno l = tokens n l) :
    sameline (readline sf p l) (readline sf (relined n p) l) := by
  have htok2 : tokens (relined n p).lineno l = tokens p.lineno l := htok.symm
  cases hk : tokens p.lineno l with
  | nil =>
    rw [readline_blank sf p l hk, readline_blank sf (relined n p) l (htok2.trans hk)]
    exact blank_line_rel (counted p) (n + 1)
  | cons c1 rest =>
    by_cases hc : c1.head? = some '#'
    · rw [readline_comment sf p l c1 rest hk hc,
        readline_comment sf (relined n p) l c1 rest (htok2.trans hk) hc]
      rfl
    · rw [readline_eq sf p l c1 rest hk hc,
        readline_eq sf (relined n p) l c1 rest (htok2.trans hk) hc]
      exact (endline_rel (counted p) (n + 1) _ _
        (branch_of_rel sf (counted p) (n + 1) c1 rest)).1

theorem sameline_refl (a : line_t) : sameline a a := by
  cases a with
  | next p => rfl
  | stop r =>
    cases r with
    | none => trivial
    | some r => exact ⟨rfl, rfl⟩

/-- One more line in front: if it has the same tokens for both line counts, and the lines
after it end the same way whatever the line count, so do all. -/
theorem readlines_step (sf : List Char → scan_t ℚ) (l : List Char) (ls : List (List Char))
    (p : parser_t) (n : Nat) (htok : tokens p.lineno l = tokens n l)
    (ih : ∀ (p1 : parser_t) (n1 : Nat), 0 < p1.lineno → 0 < n1 →
      sameline (readlines sf p1 ls) (readlines sf (relined n1 p1) ls)) :
    sameline (readlines sf p (l :: ls)) (readlines sf (relined n p) (l :: ls)) := by
  have hrel := readline_rel sf p n l htok
  simp only [readlines]
  cases h1 : readline sf p l with
  | next p1 =>
    cases h2 : readline sf (relined n p) l with
    | next q1 =>
      rw [h1, h2] at hrel
      have hq : q1 = relined q1.lineno p1 := hrel
      have hl1 := readline_lineno sf p p1 l h1
      have hl2 := readline_lineno sf _ q1 l h2
      simp only []
      rw [hq]
      exact ih p1 q1.lineno (by omega) (by omega)
    | stop s =>
      rw [h1, h2] at hrel
      exact absurd hrel id
  | stop r =>
    cases h2 : readline sf (relined n p) l with
    | next q1 =>
      rw [h1, h2] at hrel
      cases r with
      | none => exact absurd hrel id
      | some r => exact absurd hrel id
    | stop s =>
      rw [h1, h2] at hrel
      exact hrel

/-- After the first line the lines of a file end the same way whatever the line count. -/
theorem readlines_rel (sf : List Char → scan_t ℚ) (ls : List (List Char)) :
    ∀ (p : parser_t) (n : Nat), 0 < p.lineno → 0 < n →
      sameline (readlines sf p ls) (readlines sf (relined n p) ls) := by
  induction ls with
  | nil => intro p n _ _; rfl
  | cons l ls ih =>
    intro p n hp hn
    have htok : tokens p.lineno l = tokens n l := by
      simp only [tokens]
      rw [if_neg (by omega), if_neg (by omega)]
    exact readlines_step sf l ls p n htok ih

theorem readlines_lineno (sf : List Char → scan_t ℚ) (ls : List (List Char)) :
    ∀ (p q : parser_t), readlines sf p ls = line_t.next q →
      q.lineno = p.lineno + ls.length := by
  induction ls with
  | nil => intro p q h; simp only [readlines] at h; cases h; rfl
  | cons l ls ih =>
    intro p q h
    simp only [readlines] at h
    cases h1 : readline sf p l with
    | next p1 =>
      rw [h1] at h
      have := ih p1 q h
      have := readline_lineno sf p p1 l h1
      simp only [List.length_cons]
      omega
    | stop r => rw [h1] at h; cases h

/-- A line is read through its tokens only. -/
theorem readline_tokens (sf : List Char → scan_t ℚ) (p : parser_t) (l1 l2 : List Char)
    (h : tokens p.lineno l1 = tokens p.lineno l2) : readline sf p l1 = readline sf p l2 := by
  unfold readline
  rw [h]

theorem readlines_stop_append (sf : List Char → scan_t ℚ) (pre : List (List Char)) :
    ∀ (p : parser_t) (r : Option result_t) (post : List (List Char)),
      readlines sf p pre = line_t.stop r → readlines sf p (pre ++ post) = line_t.stop r := by
  induction pre with
  | nil => intro p r post h; simp only [readlines] at h; cases h
  | cons l pre ih =>
    intro p r post h
    simp only [readlines, List.cons_append] at h ⊢
    cases hp1 : readline sf p l with
    | next p1 =>
      rw [hp1] at h
      exact ih p1 r post h
    | stop r1 =>
      rw [hp1] at h
      exact h

/-- Two files whose lines end the same way, the line count aside, give the same return
value and the same globals. -/
theorem readconfig_rel (sf : List Char → scan_t ℚ) (g : globals_t) (env : env_t)
    (lines1 lines2 : List (List Char))
    (h : sameline (readlines sf (parser0 g.airport) lines1)
      (readlines sf (parser0 g.airport) lines2)) :
    (readconfig sf g { env with file := some lines1 }).map (fun r => (r.ret, r.g)) =
      (readconfig sf g { env with file := some lines2 }).map (fun r => (r.ret, r.g)) := by
  unfold readconfig
  simp only []
  split
  · rfl
  · split
    · rfl
    · split
      · rfl
      · split
        · rfl
        · cases h1 : readlines sf (parser0 g.airport) lines1 with
          | next p1 =>
            cases h2 : readlines sf (parser0 g.airport) lines2 with
            | next q1 =>
              rw [h1, h2] at h
              have hq : q1 = relined q1.lineno p1 := h
              have he : at_eof q1 = at_eof p1 := by rw [hq]; rfl
              simp only [he]
            | stop s =>
              rw [h1, h2] at h
              exact absurd h id
          | stop r =>
            cases h2 : readlines sf (parser0 g.airport) lines2 with
            | next q1 =>
              rw [h1, h2] at h
              cases r with
              | none => exact absurd h id
              | some r => exact absurd h id
            | stop s =>
              rw [h1, h2] at h
              cases r with
              | none =>
                cases s with
                | none => rfl
                | some s => exact absurd h id
              | some r =>
                cases s with
                | none => exact absurd h id
                | some s =>
                  obtain ⟨e1, e2⟩ := h
                  simp only [Option.map_some', e1, e2]

/-- C19 at a failing input: the example of the spec with a byte order mark in front loads
(return 2). With a comment line inserted before its first line the load fails (return 1):
the byte order mark is then on line 2 and is read as part of the airport code. With a
second byte order mark in front the load fails too, while the file without the first of
the two is the one that loads. -/
theorem comment_before_bom_fails :
    (readconfig scan_f start (found_file 1 bom_file)).map (fun r => r.ret) = some 2 ∧
    (readconfig scan_f start (found_file 1 ("# note\n" :: bom_file))).map
      (fun r => (r.ret, r.g.airport.routes.length, r.log)) =
      some (1, 0, ["Expecting a 4 character airport ICAO code, found \"\xef\xbb\xbfKSEA\" at line 2".toList]) ∧
    (tokens 0 "# note\n".toList).map (fun c1 => c1.head?) = [some '#', some 'n'] ∧
    (readconfig scan_f start
      (found_file 1 ("\xef\xbb\xbf\xef\xbb\xbfKSEA 47.45 -122.31\n" :: bom_file.drop 1))).map
      (fun r => r.ret) = some 1 ∧
    BOM ++ "\xef\xbb\xbfKSEA 47.45 -122.31\n".toList =
      "\xef\xbb\xbf\xef\xbb\xbfKSEA 47.45 -122.31\n".toList := by
  refine ⟨by rfl, by rfl, by rfl, by rfl, by rfl⟩

/-- C19, amended: a line whose first token starts with `#`, inserted anywhere in a file
but before a first line that starts with the byte order mark, changes neither the return
value nor the globals, the loaded model among them; read from right to left, the same
holds for removing such a line. A byte order mark in front of a first line that does not
itself start with one changes nothing either, and a file of the byte order mark alone
loads like the empty file. -/
theorem comment_line_ignored (sf : List Char → scan_t ℚ) (g : globals_t) (env : env_t)
    (pre : List (List Char)) (c : List Char) (post : List (List Char)) (c1 : List Char)
    (rest : List (List Char))
    (hc : tokens pre.length c = c1 :: rest) (hh : c1.head? = some '#')
    (hbom : pre = [] → ∀ l ∈ post.head?, BOM.isPrefixOf l = false) :
    (readconfig sf g { env with file := some (pre ++ c :: post) }).map
        (fun r => (r.ret, r.g)) =
      (readconfig sf g { env with file := some (pre ++ post) }).map (fun r => (r.ret, r.g)) ∧
    (∀ (l : List Char) (ls : List (List Char)), BOM.isPrefixOf l = false →
      readconfig sf g { env with file := some ((BOM ++ l) :: ls) } =
        readconfig sf g { env with file := some (l :: ls) }) ∧
    (readconfig sf g { env with file := some [BOM] }).map (fun r => (r.ret, r.g)) =
      (readconfig sf g { env with file := some [] }).map (fun r => (r.ret, r.g)) := by
  refine ⟨?_, ?_, ?_⟩
  · apply readconfig_rel
    cases hpre : readlines sf (parser0 g.airport) pre with
    | stop r =>
      rw [readlines_stop_append sf pre _ r _ hpre, readlines_stop_append sf pre _ r _ hpre]
      exact sameline_refl _
    | next p =>
      have hln : p.lineno = pre.length := by
        rw [readlines_lineno sf pre _ p hpre]
        exact Nat.zero_add _
      rw [readlines_append sf pre _ p _ hpre, readlines_append sf pre _ p _ hpre]
      have hcom : readline sf p c = line_t.next (counted p) :=
        readline_comment sf p c c1 rest (by rw [hln]; exact hc) hh
      simp only [readlines, hcom]
      have hback : relined p.lineno (counted p) = p := rfl
      cases post with
      | nil =>
        simp only [readlines]
        exact hback.symm
      | cons l ls =>
        have htok : tokens (counted p).lineno l = tokens p.lineno l := by
          cases pre with
          | nil =>
            have hb := hbom rfl l (by simp)
            simp only [List.length_nil] at hln
            simp [tokens, counted, hln, hb]
          | cons l0 pre0 =>
            simp only [List.length_cons] at hln
            simp only [tokens, counted]
            rw [if_neg (by omega), if_neg (by omega)]
        have := readlines_step sf l ls (counted p) p.lineno htok (readlines_rel sf ls)
        rw [hback] at this
        exact this
  · intro l ls hb
    have htok : tokens (parser0 g.airport).lineno (BOM ++ l) =
        tokens (parser0 g.airport).lineno l := by
      have hpre : BOM.isPrefixOf (BOM ++ l) = true := by
        simp [BOM]
      have hdrop : (BOM ++ l).drop 3 = l := rfl
      simp only [tokens, parser0, hpre, hb, hdrop]
      simp
    have hfirst := readline_tokens sf (parser0 g.airport) _ _ htok
    unfold readconfig
    simp only [readlines, hfirst]
  · apply readconfig_rel
    rfl

theorem comment_line_ignored_witness :
    (readconfig scan_f start
      { found_file 1 good_file with
        file := some ((good_file.take 2).map String.toList ++
          "# note\n".toList :: (good_file.drop 2).map String.toList) }).map
        (fun r => (r.ret, r.g)) =
      (readconfig scan_f start
        { found_file 1 good_file with
          file := some ((good_file.take 2).map String.toList ++
            (good_file.drop 2).map String.toList) }).map (fun r => (r.ret, r.g)) :=
  (comment_line_ignored scan_f start (found_file 1 good_file)
    ((good_file.take 2).map String.toList) "# note\n".toList
    ((good_file.drop 2).map String.toList) "#".toList ["note".toList] (by rfl) (by rfl)
    (by intro h; cases h)).1

/-! ## The line number in the message of a failure -/

/-- C20 at failing inputs: a `route` line without a valid speed (line 2 of the first file)
and a train object line without a valid offset (line 3 of the second) make `failconfig`
format its message with arguments that do not fit the conversions of the format, which is
undefined; no message with the line number is defined for them. A malformed `pause` line
is reported with its line number, blank and comment lines counted: line 6 below. -/
theorem bad_route_message_undefined :
    readconfig scan_f start (found_file 1 ["KSEA 47.45 -122.31\n", "route abc\n"]) = none ∧
    readconfig scan_f start
      (found_file 1 ["KSEA 47.45 -122.31\n", "train tug\n", "tractor x\n"]) = none ∧
    vsprintf "Expecting a route \"speed object [heading]\", found \"%s\" at line %d".toList
      [arg_t.str "abc".toList, arg_t.str [], arg_t.int 2] = none ∧
    vsprintf "Expecting an object offset, found \"%s %s\" at line %d".toList
      [arg_t.str "x".toList, arg_t.int 3] = none ∧
    (readconfig scan_f start
      (found_file 1 ["# comment\n", "\n", "KSEA 47.45 -122.31\n", "route 20 cart\n",
        "47.45 -122.31\n", "pause abc\n"])).map (fun r => (r.ret, r.log)) =
      some (1, ["Expecting a pause time, found \"abc\" at line 6".toList]) := by
  refine ⟨by rfl, by rfl, by rfl, by rfl, by rfl⟩

/-! ## Train blocks -/

theorem strtok_from_nonempty (line : List Char) :
    ∀ acc : List Char, ∀ t ∈ strtok_from line acc, t ≠ [] := by
  induction line with
  | nil =>
    intro acc t ht
    simp only [strtok_from] at ht
    split at ht
    · cases ht
    · rename_i hacc
      simp only [List.mem_singleton] at ht
      rw [ht]
      intro h0
      apply hacc
      simpa using h0
  | cons c cs ih =>
    intro acc t ht
    simp only [strtok_from] at ht
    split at ht
    · split at ht
      · exact ih _ t ht
      · rename_i hacc
        simp only [List.mem_cons] at ht
        rcases ht with ht | ht
        · rw [ht]
          intro h0
          apply hacc
          simpa using h0
        · exact ih _ t ht
    · exact ih _ t ht

theorem strtok_nonempty (line : List Char) : ∀ t ∈ strtok line, t ≠ [] :=
  strtok_from_nonempty line []

theorem upd_upd {α : Type} (l : List α) (i : Nat) (f g : α → α) :
    upd (upd l i f) i g = upd l i (fun a => g (f a)) := by
  induction l generalizing i with
  | nil => rfl
  | cons a l ih =>
    cases i with
    | zero => rfl
    | succ i => simp only [upd, ih]

theorem upd_append {α : Type} (l : List α) (a : α) (r : List α) (f : α → α) :
    upd (l ++ a :: r) l.length f = l ++ f a :: r := by
  induction l with
  | nil => rfl
  | cons b l ih =>
    show b :: upd (l ++ a :: r) l.length f = b :: (l ++ f a :: r)
    rw [ih]

theorem upd_of_getElem? {α : Type} (l : List α) (i : Nat) (a : α) (f : α → α)
    (h : l[i]? = some a) : (upd l i f)[i]? = some (f a) := by
  rw [upd_getElem?]
  simp [h]

/-- The length of a train whose first entries have names and whose other entries are as
`memset` left them. -/
theorem trainlen_entries (es : List objdef_t) (k : Nat) (hne : ∀ e ∈ es, e.name ≠ [])
    (hlen : es.length ≤ MAX_TRAIN) :
    trainlen (es ++ List.replicate k noobject) = es.length := by
  unfold trainlen
  have h1 : ∀ e ∈ es, (fun o : objdef_t => !o.name.isEmpty) e = true := by
    intro e he
    have := hne e he
    cases hn : e.name with
    | nil => exact absurd hn this
    | cons a b => simp [hn]
  rw [List.take_append_eq_append_take, List.take_of_length_le hlen]
  rw [List.takeWhile_append_of_pos h1]
  have h2 : (List.take (MAX_TRAIN - es.length) (List.replicate k noobject)).takeWhile
      (fun o => !o.name.isEmpty) = [] := by
    rw [List.take_replicate]
    cases hm : min (MAX_TRAIN - es.length) k with
    | zero => rfl
    | succ m => rfl
  rw [h2, List.append_nil]

theorem header_line_trains (sf : List Char → scan_t ℚ) (p p1 : parser_t)
    (c1 : List Char) (rest rest1 : List (List Char))
    (h : header_line sf p c1 rest = branch_t.ok p1 rest1) :
    p1.airport.trains = p.airport.trains ∧ p1.lasttrain = p.lasttrain := by
  unfold header_line at h
  simp only [] at h
  repeat' split at h
  all_goals first
    | contradiction
    | (cases h; exact ⟨rfl, rfl⟩)

theorem route_line_trains (sf : List Char → scan_t ℚ) (p p1 : parser_t) (cr : Nat)
    (r : route_t) (c1 : List Char) (rest rest1 : List (List Char))
    (h : route_line sf p cr r c1 rest = branch_t.ok p1 rest1) :
    p1.airport.trains = p.airport.trains ∧ p1.lasttrain = p.lasttrain := by
  unfold route_line at h
  simp only [] at h
  repeat' split at h
  all_goals first
    | contradiction
    | (cases h; exact ⟨rfl, rfl⟩)

theorem new_route_trains (sf : List Char → scan_t ℚ) (p p1 : parser_t)
    (rest rest1 : List (List Char)) (h : new_route sf p rest = branch_t.ok p1 rest1) :
    p1.airport.trains = p.airport.trains ∧ p1.lasttrain = p.lasttrain := by
  unfold new_route at h
  simp only [] at h
  repeat' split at h
  all_goals first
    | contradiction
    | (cases h; exact ⟨rfl, rfl⟩)

theorem train_line_trains (sf : List Char → scan_t ℚ) (p p1 : parser_t) (ct : Nat)
    (train : train_t) (c1 : List Char) (rest rest1 : List (List Char))
    (h : train_line sf p ct train c1 rest = branch_t.ok p1 rest1) :
    p1.airport.trains.length = p.airport.trains.length ∧ p1.lasttrain = p.lasttrain := by
  unfold train_line at h
  simp only [] at h
  repeat' split at h
  all_goals first
    | contradiction
    | (cases h; exact ⟨by simp only [store_object, upd_length], rfl⟩)

/-- What an accepted `train` line stores: a new last train of that name with 16 entries as
`memset` left them, and the block open. -/
theorem new_train_ok (p p1 : parser_t) (rest rest1 : List (List Char))
    (hl : lasttrain_ok p) (h : new_train p rest = branch_t.ok p1 rest1) :
    ∃ nm, rest = nm :: rest1 ∧ nm.length < MAX_NAME - 1 ∧
      p1 = { p with
        airport := { p.airport with
          trains := p.airport.trains ++
            [{ name := nm, objects := List.replicate MAX_TRAIN noobject }] },
        currenttrain := some p.airport.trains.length,
        lasttrain := some p.airport.trains.length } := by
  unfold lasttrain_ok at hl
  unfold new_train at h
  simp only [] at h
  repeat' split at h
  all_goals first
    | contradiction
    | (cases h
       refine ⟨_, rfl, by omega, ?_⟩
       rw [link_last _ _ _ hl, hl]
       rfl)

theorem blank_line_trains (p p1 : parser_t) (hp : wf p)
    (h : blank_line p = line_t.next p1) :
    p1.airport.trains = p.airport.trains ∧ p1.lasttrain = p.lasttrain := by
  unfold blank_line at h
  cases hc : p.currentroute with
  | none =>
    simp only [hc] at h
    split at h
    · cases h
    · cases h
      exact ⟨rfl, rfl⟩
  | some cr =>
    obtain ⟨hlen, r, hr, _, _, _⟩ := hp.cur cr hc
    obtain ⟨_, _, _, f4, _, _⟩ := expandtrain_frame p.airport cr r hr hlen
    simp only [hc] at h
    split at h
    · cases h
    · rename_i q hq
      split at hq
      · cases hq
      · cases hq
        split at h
        · cases h
        · cases h
          exact ⟨f4, rfl⟩

theorem readline_lasttrain (sf : List Char → scan_t ℚ) (p p1 : parser_t) (line : List Char)
    (hw : wf p) (hl : lasttrain_ok p) (h : readline sf p line = line_t.next p1) :
    lasttrain_ok p1 := by
  have hwc : wf (counted p) := wf_same p (counted p) hw rfl rfl (Or.inl rfl)
  have hlc : lasttrain_ok (counted p) := hl
  have keep : ∀ q : parser_t, q.airport.trains.length = (counted p).airport.trains.length →
      q.lasttrain = (counted p).lasttrain → lasttrain_ok q := by
    intro q h1 h2
    unfold lasttrain_ok at hlc ⊢
    rw [h1, h2]
    exact hlc
  have same : ∀ q : parser_t,
      q.airport.trains = (counted p).airport.trains ∧ q.lasttrain = (counted p).lasttrain →
      lasttrain_ok q := fun q h1 => keep q (congrArg List.length h1.1) h1.2
  have fresh : ∀ (q : parser_t) (rest rest1 : List (List Char)),
      new_train (counted p) rest = branch_t.ok q rest1 → lasttrain_ok q := by
    intro q rest rest1 hb
    obtain ⟨nm, _, _, h3⟩ := new_train_ok _ _ _ _ hlc hb
    rw [h3]
    unfold lasttrain_ok after
    simp
  cases hk : tokens p.lineno line with
  | nil =>
    rw [readline_blank sf p line hk] at h
    exact same p1 (blank_line_trains _ _ hwc h)
  | cons c1 rest =>
    by_cases hc : c1.head? = some '#'
    · rw [readline_comment sf p line c1 rest hk hc] at h
      cases h
      exact hlc
    · rw [readline_eq sf p line c1 rest hk hc] at h
      have hb := endline_next _ _ _ h
      unfold branch_of at hb
      repeat' split at hb
      all_goals first
        | contradiction
        | exact same p1 (header_line_trains sf _ _ _ _ _ hb)
        | exact same p1 (route_line_trains sf _ _ _ _ _ _ _ hb)
        | exact keep p1 (train_line_trains sf _ _ _ _ _ _ _ hb).1
            (train_line_trains sf _ _ _ _ _ _ _ hb).2
        | exact same p1 (new_route_trains sf _ _ _ _ hb)
        | exact fresh p1 _ _ hb

theorem readlines_lasttrain (sf : List Char → scan_t ℚ) (lines : List (List Char)) :
    ∀ p p1 : parser_t, wf p → lasttrain_ok p → readlines sf p lines = line_t.next p1 →
      lasttrain_ok p1 := by
  induction lines with
  | nil => intro p p1 _ hl h; simp only [readlines] at h; cases h; exact hl
  | cons l lines ih =>
    intro p p1 hw hl h
    simp only [readlines] at h
    cases h1 : readline sf p l with
    | next q =>
      rw [h1] at h
      exact ih q p1 (readline_wf sf p q l hw h1) (readline_lasttrain sf p q l hw hl h1) h
    | stop r => rw [h1] at h; cases h

theorem reaches_lasttrain (sf : List Char → scan_t ℚ) (g : globals_t) (env : env_t)
    (pre : List (List Char)) (line : List Char) (post : List (List Char)) (p : parser_t)
    (h : reaches sf g env pre line post p) : lasttrain_ok p :=
  readlines_lasttrain sf pre _ p (wf_parser0 g.airport) rfl h.lines

/-- Inside a train block a line that is no comment goes to the branch for object lines. -/
theorem readline_object (sf : List Char → scan_t ℚ) (p : parser_t) (line c1 : List Char)
    (rest : List (List Char)) (ct : Nat) (train : train_t)
    (hst : p.airport.state ≠ state_t.noconfig) (hcr : p.currentroute = none)
    (hct : p.currenttrain = some ct) (ht : p.airport.trains[ct]? = some train)
    (htok : tokens p.lineno line = c1 :: rest) (hc : c1.head? ≠ some '#') :
    readline sf p line = endline (counted p) (train_line sf (counted p) ct train c1 rest) := by
  rw [readline_eq sf p line c1 rest htok hc]
  have h1 : (counted p).airport.state ≠ state_t.noconfig := hst
  have h2 : (counted p).currentroute = none := hcr
  have h3 : (counted p).currenttrain = some ct := hct
  have h4 : (counted p).airport.trains[ct]? = some train := ht
  simp only [branch_of, h1, if_false, h2, h3, h4]

/-- The objects of a train after a write to the entry after its `es.length` named ones. -/
theorem store_entry (a : airport_t) (ct : Nat) (train : train_t) (es : List objdef_t)
    (k : Nat) (f : objdef_t → objdef_t) (ht : a.trains[ct]? = some train)
    (hobj : train.objects = es ++ List.replicate (k + 1) noobject) :
    (store_object a ct es.length f).trains[ct]? =
      some { train with objects := es ++ f noobject :: List.replicate k noobject } := by
  show (upd a.trains ct _)[ct]? = _
  rw [upd_of_getElem? _ _ _ _ ht, hobj]
  show some { train with objects := upd (es ++ noobject :: List.replicate k noobject) _ f } = _
  rw [upd_append]

theorem store_object_twice (a : airport_t) (ct n : Nat) (f g : objdef_t → objdef_t) :
    store_object (store_object a ct n f) ct n g = store_object a ct n (fun o => g (f o)) := by
  show { a with trains := upd (upd a.trains ct _) ct _ } = { a with trains := upd a.trains ct _ }
  rw [upd_upd]
  congr 1
  congr 1
  funext t
  show { t with objects := upd (upd t.objects n f) n g } = _
  rw [upd_upd]

/-- An object line with a name and an offset, in a train with room: the branch stores the
name and the offset in the entry after the named ones. -/
theorem train_line_two (sf : List Char → scan_t ℚ) (p : parser_t) (ct : Nat) (train : train_t)
    (c1 t : List Char) (o : ℚ) (hn : trainlen train.objects < MAX_TRAIN)
    (hlen : c1.length < MAX_NAME - 1) (ho : fullscan (sf t) = full_t.val o) :
    train_line sf p ct train c1 [t] =
      branch_t.ok (entered p ct (trainlen train.objects)
        (fun e => { e with name := c1, offset := o })) [] := by
  unfold train_line entered
  have h1 : ¬ trainlen train.objects ≥ MAX_TRAIN := by omega
  have h2 : ¬ c1.length ≥ MAX_NAME - 1 := by omega
  simp only [h1, h2, if_false, ho, store_object_twice]

/-- An object line with a name, an offset and a heading, in a train with room. -/
theorem train_line_three (sf : List Char → scan_t ℚ) (p : parser_t) (ct : Nat)
    (train : train_t) (c1 t hd : List Char) (o v : ℚ)
    (hn : trainlen train.objects < MAX_TRAIN) (hlen : c1.length < MAX_NAME - 1)
    (ho : fullscan (sf t) = full_t.val o) (hv : fullscan (sf hd) = full_t.val v) :
    train_line sf p ct train c1 [t, hd] =
      branch_t.ok (entered p ct (trainlen train.objects)
        (fun e => { e with name := c1, offset := o, heading := v })) [] := by
  unfold train_line entered
  have h1 : ¬ trainlen train.objects ≥ MAX_TRAIN := by omega
  have h2 : ¬ c1.length ≥ MAX_NAME - 1 := by omega
  simp only [h1, h2, if_false, ho, hv, store_object_twice]

/-- A full train: any further line of the block fails. -/
theorem train_line_full (sf : List Char → scan_t ℚ) (p : parser_t) (ct : Nat)
    (train : train_t) (c1 : List Char) (rest : List (List Char))
    (hn : trainlen train.objects ≥ MAX_TRAIN) :
    train_line sf p ct train c1 rest =
      branch_t.fail "Exceeded %d objects in a train at line %d".toList
        [arg_t.int MAX_TRAIN, arg_t.int p.lineno] := by
  unfold train_line
  simp only [hn, if_true]

/-- What `object_entry` accepts: a name that is no comment and not too long, an offset and
at most a heading that `%f` reads as a whole. -/
theorem object_entry_some (sf : List Char → scan_t ℚ) (l : List Char) (e : objdef_t)
    (h : object_entry sf l = some e) :
    e.name.head? ≠ some '#' ∧ e.name.length < MAX_NAME - 1 ∧ e.name ≠ [] ∧ e.lag = 0 ∧
    ∃ t, fullscan (sf t) = full_t.val e.offset ∧
      ((strtok l = [e.name, t] ∧ e.heading = 0) ∨
        ∃ hd, strtok l = [e.name, t, hd] ∧ fullscan (sf hd) = full_t.val e.heading) := by
  have hne := strtok_nonempty l
  unfold object_entry at h
  split at h
  · rename_i name off htok
    split at h
    · cases h
    · rename_i hcond
      split at h
      · rename_i o ho
        cases h
        simp only [not_or, not_le] at hcond
        refine ⟨hcond.1, by have := hcond.2; show name.length < _; omega, hne name (by rw [htok]; simp), rfl,
          off, ho, Or.inl ⟨htok, rfl⟩⟩
      · cases h
  · rename_i name off hd htok
    split at h
    · cases h
    · rename_i hcond
      split at h
      · rename_i o v ho hv
        cases h
        simp only [not_or, not_le] at hcond
        refine ⟨hcond.1, by have := hcond.2; show name.length < _; omega, hne name (by rw [htok]; simp), rfl,
          off, ho, Or.inr ⟨hd, htok, hv⟩⟩
      · cases h
  · cases h

/-- One object line in a train block with room: the entry goes after the named ones. -/
theorem object_step (sf : List Char → scan_t ℚ) (p : parser_t) (ct : Nat) (nm : List Char)
    (es : List objdef_t) (l : List Char) (e : objdef_t) (hb : inblock p ct nm es)
    (hroom : es.length < MAX_TRAIN) (hl : object_entry sf l = some e) :
    ∃ p1, readline sf p l = line_t.next p1 ∧ inblock p1 ct nm (es ++ [e]) := by
  obtain ⟨h1, h2, h3, h4, t, ho, hform⟩ := object_entry_some sf l e hl
  have htokens : tokens p.lineno l = strtok l := by
    simp only [tokens]
    rw [if_neg (fun h => hb.lineno h.1)]
  have hk : MAX_TRAIN - es.length = (MAX_TRAIN - es.length - 1) + 1 := by omega
  have hobj : (train_of nm es).objects =
      es ++ List.replicate ((MAX_TRAIN - es.length - 1) + 1) noobject := by
    rw [← hk]
    rfl
  have hn : trainlen (train_of nm es).objects = es.length :=
    trainlen_entries es _ hb.named hb.room
  have hfinal : ∀ (f : objdef_t → objdef_t), f noobject = e →
      readline sf p l = line_t.next (entered (counted p) ct es.length f) →
      ∃ p1, readline sf p l = line_t.next p1 ∧ inblock p1 ct nm (es ++ [e]) := by
    intro f hf hr
    refine ⟨_, hr, ?_⟩
    constructor
    · exact readline_wf sf p _ l hb.wfp hr
    · exact hb.state
    · exact hb.route
    · exact hb.train
    · simp [entered, counted]
    · have := store_entry (counted p).airport ct _ es (MAX_TRAIN - es.length - 1) f
        hb.objects hobj
      rw [hf] at this
      show (store_object (counted p).airport ct es.length f).trains[ct]? = _
      rw [this]
      unfold train_of
      simp only [List.length_append, List.length_singleton, List.append_assoc,
        List.singleton_append, Nat.sub_sub]
    · intro e1 he1
      simp only [List.mem_append, List.mem_singleton] at he1
      rcases he1 with he1 | he1
      · exact hb.named e1 he1
      · rw [he1]; exact h3
    · simp only [List.length_append, List.length_singleton]
      omega
  rcases hform with ⟨htok, hh⟩ | ⟨hd, htok, hv⟩
  · apply hfinal (fun o => { o with name := e.name, offset := e.offset })
    · cases e
      simp only at hh h4
      subst hh h4
      rfl
    · rw [readline_object sf p l e.name [t] ct _ hb.state hb.route hb.train hb.objects
        (htokens.trans htok) h1,
        train_line_two sf (counted p) ct _ e.name t e.offset (by rw [hn]; exact hroom) h2 ho,
        hn]
      rfl
  · apply hfinal (fun o => { o with name := e.name, offset := e.offset, heading := e.heading })
    · cases e
      simp only at h4
      subst h4
      rfl
    · rw [readline_object sf p l e.name [t, hd] ct _ hb.state hb.route hb.train hb.objects
        (htokens.trans htok) h1,
        train_line_three sf (counted p) ct _ e.name t hd e.offset e.heading
          (by rw [hn]; exact hroom) h2 ho hv,
        hn]
      rfl

/-- Object lines in a train block with room for them all are stored in order. -/
theorem object_steps (sf : List Char → scan_t ℚ) (ct : Nat) (nm : List Char)
    (body : List (List Char)) (es : List objdef_t)
    (hbody : List.Forall₂ (fun l e => object_entry sf l = some e) body es) :
    ∀ (p : parser_t) (es0 : List objdef_t), inblock p ct nm es0 →
      es0.length + es.length ≤ MAX_TRAIN →
      ∃ p2, readlines sf p body = line_t.next p2 ∧ inblock p2 ct nm (es0 ++ es) := by
  induction hbody with
  | nil =>
    intro p es0 hb _
    exact ⟨p, rfl, by rw [List.append_nil]; exact hb⟩
  | @cons l e body es h1 _ ih =>
    intro p es0 hb hlen
    simp only [List.length_cons] at hlen
    obtain ⟨p1, hr, hb1⟩ := object_step sf p ct nm es0 l e hb (by omega) h1
    obtain ⟨p2, hr2, hb2⟩ := ih p1 (es0 ++ [e]) hb1 (by
      simp only [List.length_append, List.length_singleton]; omega)
    refine ⟨p2, by simp only [readlines, hr]; exact hr2, ?_⟩
    rw [List.append_assoc] at hb2
    exact hb2

/-- A full train block: one more line that is neither blank nor a comment fails. -/
theorem object_full (sf : List Char → scan_t ℚ) (p : parser_t) (ct : Nat) (nm : List Char)
    (es : List objdef_t) (l c : List Char) (rest : List (List Char))
    (hb : inblock p ct nm es) (hfull : es.length = MAX_TRAIN)
    (htok : strtok l = c :: rest) (hc : c.head? ≠ some '#') :
    ∃ res, readline sf p l = line_t.stop (some res) ∧ res.ret = 1 ∧
      res.g = clearconfig p.airport := by
  have htokens : tokens p.lineno l = strtok l := by
    simp only [tokens]
    rw [if_neg (fun h => hb.lineno h.1)]
  have hn : trainlen (train_of nm es).objects = es.length :=
    trainlen_entries es _ hb.named hb.room
  rw [readline_object sf p l c rest ct _ hb.state hb.route hb.train hb.objects
    (htokens.trans htok) hc,
    train_line_full sf (counted p) ct _ c rest (by rw [hn, hfull])]
  exact endline_fail (counted p) _ _ rfl

/-- An accepted `train` line opens a train block with no named entry. -/
theorem train_start (sf : List Char → scan_t ℚ) (p : parser_t) (line c1 nm : List Char)
    (hw : wf p) (hl : lasttrain_ok p) (hst : p.airport.state ≠ state_t.noconfig)
    (hcr : p.currentroute = none) (hct : p.currenttrain = none)
    (htok : tokens p.lineno line = [c1, nm]) (hkw : strcaseeq c1 "train".toList = true)
    (hnm : nm.length < MAX_NAME - 1) :
    ∃ p1, readline sf p line = line_t.next p1 ∧ inblock p1 p.airport.trains.length nm [] := by
  have hc : c1.head? ≠ some '#' := keyword_no_comment c1 _ 't' hkw rfl (by decide)
  have hnr : strcaseeq c1 "route".toList = false := keyword_differs c1 _ _ hkw (by decide)
  have h2 : ¬ nm.length ≥ MAX_NAME - 1 := by omega
  have hlc : after (counted p).lasttrain = (counted p).airport.trains.length := hl
  have hr : readline sf p line = line_t.next
      { counted p with
        airport := { (counted p).airport with
          trains := (counted p).airport.trains ++ [train_of nm []] },
        currenttrain := some p.airport.trains.length,
        lasttrain := some p.airport.trains.length } := by
    rw [readline_toplevel sf p line c1 [nm] hst hcr hct htok hc]
    unfold toplevel new_train
    simp only [hnr, hkw, if_true, Bool.false_eq_true, if_false, h2, endline,
      link_last _ _ _ hlc, hlc]
    rfl
  refine ⟨_, hr, ?_⟩
  constructor
  · exact readline_wf sf p _ line hw hr
  · exact hst
  · exact hcr
  · rfl
  · simp [counted]
  · show (p.airport.trains ++ [train_of nm []])[p.airport.trains.length]? = _
    simp
  · intro e he; cases he
  · simp

/-- C21: a `train` line with a name, accepted outside any block, followed by object lines
`objectName offset [heading]`. Up to 16 such lines are all accepted, and the train then
holds their entries in the order of the lines as entries 0, 1, .., each with the name, the
offset and the heading of its line, the heading 0 when the line gives none, and after them
entries as `memset` left them. With 16 entries stored, any further line of the block that
is neither blank nor a comment, a 17th object line among them, fails the load (returns 1):
nothing is dropped or overwritten. -/
theorem train_block (sf : List Char → scan_t ℚ) (g : globals_t) (env : env_t)
    (pre : List (List Char)) (line : List Char) (body post : List (List Char))
    (p : parser_t) (c1 nm : List Char) (es : List objdef_t)
    (h : reaches sf g env pre line (body ++ post) p)
    (hst : p.airport.state ≠ state_t.noconfig) (hcr : p.currentroute = none)
    (hct : p.currenttrain = none) (htok : tokens p.lineno line = [c1, nm])
    (hkw : strcaseeq c1 "train".toList = true) (hnm : nm.length < MAX_NAME - 1)
    (hbody : List.Forall₂ (fun l e => object_entry sf l = some e) body es) :
    (es.length ≤ MAX_TRAIN →
      ∃ p2 ct, readlines sf p (line :: body) = line_t.next p2 ∧
        p2.currenttrain = some ct ∧
        p2.airport.trains[ct]? =
          some { name := nm, objects := es ++ List.replicate (MAX_TRAIN - es.length) noobject } ∧
        (es.length = MAX_TRAIN →
          ∀ (l17 : List Char) (more : List (List Char)) (c : List Char)
            (rest : List (List Char)),
            post = l17 :: more → strtok l17 = c :: rest → c.head? ≠ some '#' →
            ∃ res, readconfig sf g env = some res ∧ res.ret = 1 ∧
              res.g.airport.trains = [])) ∧
    (MAX_TRAIN < es.length → ∃ res, readconfig sf g env = some res ∧ res.ret = 1) := by
  have hw := reaches_wf sf g env pre line _ p h
  have hl := reaches_lasttrain sf g env pre line _ p h
  obtain ⟨p1, hr1, hb1⟩ := train_start sf p line c1 nm hw hl hst hcr hct htok hkw hnm
  have key : ∀ (body1 : List (List Char)) (es1 : List objdef_t) (l17 : List Char)
      (more : List (List Char)) (c : List Char) (rest : List (List Char)),
      List.Forall₂ (fun l e => object_entry sf l = some e) body1 es1 →
      es1.length = MAX_TRAIN → body ++ post = body1 ++ l17 :: more →
      strtok l17 = c :: rest → c.head? ≠ some '#' →
      ∃ res, readconfig sf g env = some res ∧ res.ret = 1 ∧ res.g.airport.trains = [] := by
    intro body1 es1 l17 more c rest hb hfull hfile htk hc
    obtain ⟨p2, hr2, hb2⟩ := object_steps sf _ nm body1 es1 hb p1 [] hb1 (by
      rw [hfull]; simp)
    rw [List.nil_append] at hb2
    obtain ⟨res, hstop, hret, hg⟩ := object_full sf p2 _ nm es1 l17 c rest hb2 hfull htk hc
    have hreach : reaches sf g env (pre ++ line :: body1) l17 more p2 := by
      refine ⟨h.opendir, h.found, h.changed, ?_, ?_⟩
      · rw [h.file, hfile]
        simp
      · rw [readlines_append sf pre _ p _ h.lines]
        simp only [readlines, hr1]
        exact hr2
    refine ⟨res, reaches_stop sf g env _ l17 more p2 hreach _ hstop, hret, ?_⟩
    rw [hg]
    rfl
  constructor
  · intro hlen
    obtain ⟨p2, hr2, hb2⟩ := object_steps sf _ nm body es hbody p1 [] hb1 (by
      simp only [List.length_nil, Nat.zero_add]; exact hlen)
    rw [List.nil_append] at hb2
    refine ⟨p2, _, by simp only [readlines, hr1]; exact hr2, hb2.train, hb2.objects, ?_⟩
    intro hfull l17 more c rest hpost htk hc
    exact key body es l17 more c rest hbody hfull (by rw [hpost]) htk hc
  · intro hlen
    have hbl : body.length = es.length := hbody.length_eq
    have hsplit : body = body.take MAX_TRAIN ++ body.drop MAX_TRAIN :=
      (List.take_append_drop _ _).symm
    cases hd : body.drop MAX_TRAIN with
    | nil =>
      have := congrArg List.length hd
      rw [List.length_drop] at this
      simp only [List.length_nil] at this
      omega
    | cons l17 more =>
      have hmem : l17 ∈ body := List.mem_of_mem_drop (by rw [hd]; exact List.mem_cons_self _ _)
      obtain ⟨i, hi, hget⟩ := List.mem_iff_getElem.1 hmem
      have hie : i < es.length := by omega
      have hent : object_entry sf l17 = some es[i] := by
        have := List.Forall₂.get hbody hi hie
        simp only [List.get_eq_getElem] at this
        rw [hget] at this
        exact this
      obtain ⟨h1, _, _, _, t, _, hform⟩ := object_entry_some sf l17 _ hent
      have hfile : body ++ post = body.take MAX_TRAIN ++ l17 :: (more ++ post) := by
        conv_lhs => rw [hsplit, hd]
        simp
      have htl : (es.take MAX_TRAIN).length = MAX_TRAIN := by
        rw [List.length_take]; omega
      rcases hform with ⟨htk, _⟩ | ⟨hd2, htk, _⟩
      · obtain ⟨res, hres, hret, _⟩ := key (body.take MAX_TRAIN) (es.take MAX_TRAIN) l17
          (more ++ post) _ _ (List.forall₂_take _ hbody) htl hfile htk h1
        exact ⟨res, hres, hret⟩
      · obtain ⟨res, hres, hret, _⟩ := key (body.take MAX_TRAIN) (es.take MAX_TRAIN) l17
          (more ++ post) _ _ (List.forall₂_take _ hbody) htl hfile htk h1
        exact ⟨res, hres, hret⟩

theorem train_block_witness :
    ∃ p2 ct,
      readlines scan_f (after_lines ["KSEA 47.45 -122.31\n"])
        ("train tug\n".toList :: ["tractor 0\n".toList, "cart 5 180\n".toList]) =
        line_t.next p2 ∧
      p2.currenttrain = some ct ∧
      p2.airport.trains[ct]? =
        some { name := "tug".toList, objects := tug_entries ++ List.replicate 14 noobject } :=
  ((train_block scan_f start (found_file 1 routeless_file) ["KSEA 47.45 -122.31\n".toList]
    "train tug\n".toList ["tractor 0\n".toList, "cart 5 180\n".toList] ["\n".toList]
    (after_lines ["KSEA 47.45 -122.31\n"]) "train".toList "tug".toList tug_entries
    ⟨rfl, rfl, ⟨1, rfl, by decide⟩, by rfl, by rfl⟩ (by decide) (by rfl) (by rfl) (by rfl)
    (by rfl) (by decide)
    (List.Forall₂.cons (by with_unfolding_all rfl)
      (List.Forall₂.cons (by with_unfolding_all rfl) List.Forall₂.nil))).1
    (by decide)).imp (fun _ h2 => h2.imp (fun _ h3 => ⟨h3.1, h3.2.1, h3.2.2.1⟩))

/-! ## Lines without a required argument -/

/-- C22 at failing inputs: a `pause` line with no argument after a waypoint, and a `train`
line with no name, hand the NULL that `strtok` returns to `sscanf` and to `strlen`: the
behaviour is undefined and no failure is reported, for these two files and in every state
of the reader. A `pause` line with a bad argument is reported as a failure (return 1, no
configuration). -/
theorem missing_argument_undefined :
    readconfig scan_f start (found_file 1 (good_file ++ ["pause\n"])) = none ∧
    readconfig scan_f start (found_file 1 ["KSEA 47.45 -122.31\n", "train\n"]) = none ∧
    (∀ (sf : List Char → scan_t ℚ) (p : parser_t) (cr : Nat) (r : route_t) (n : Nat),
      route_line sf p cr { r with pathlen := n + 1 } "pause".toList [] = branch_t.undef) ∧
    (∀ p : parser_t, new_train p [] = branch_t.undef) ∧
    (readconfig scan_f start (found_file 1 (good_file ++ ["pause abc\n"]))).map
      (fun r => (r.ret, r.g.airport.state)) = some (1, state_t.noconfig) := by
  refine ⟨by rfl, by rfl, ?_, fun _ => rfl, by rfl⟩
  intro sf p cr r n
  unfold route_line
  have hkw : strcaseeq "pause".toList "pause".toList = true := by decide
  have hn : ¬ n + 1 = 0 := by omega
  simp only [hkw, if_true, hn, if_false]

/-! ## The inlines `intersect` and `inside` -/

/-- What `intersect` computes when `d` is not 0. -/
theorem intersect_eq (p0 p1 p2 p3 : point_t)
    (hd : -(p3.x - p2.x) * (p1.z - p0.z) + (p1.x - p0.x) * (p3.z - p2.z) ≠ 0) :
    intersect p0 p1 p2 p3 = some (decide (
      (-(p1.z - p0.z) * (p0.x - p2.x) + (p1.x - p0.x) * (p0.z - p2.z)) /
        (-(p3.x - p2.x) * (p1.z - p0.z) + (p1.x - p0.x) * (p3.z - p2.z)) ≥ 0 ∧
      (-(p1.z - p0.z) * (p0.x - p2.x) + (p1.x - p0.x) * (p0.z - p2.z)) /
        (-(p3.x - p2.x) * (p1.z - p0.z) + (p1.x - p0.x) * (p3.z - p2.z)) ≤ 1 ∧
      ((p3.x - p2.x) * (p0.z - p2.z) - (p3.z - p2.z) * (p0.x - p2.x)) /
        (-(p3.x - p2.x) * (p1.z - p0.z) + (p1.x - p0.x) * (p3.z - p2.z)) ≥ 0 ∧
      ((p3.x - p2.x) * (p0.z - p2.z) - (p3.z - p2.z) * (p0.x - p2.x)) /
        (-(p3.x - p2.x) * (p1.z - p0.z) + (p1.x - p0.x) * (p3.z - p2.z)) ≤ 1)) := by
  unfold intersect
  simp only [hd, if_false]

/-- C23: for four points whose segments `p0`-`p1` and `p2`-`p3` are not parallel in the
x-z plane (the cross product of their directions is not 0), `intersect` in exact arithmetic
returns true or false, and it returns true exactly when the two closed segments have a
common point in the x-z plane; the `y` coordinates have no influence on the result. -/
theorem intersect_common (p0 p1 p2 p3 : point_t) (hd : cross p0 p1 p2 p3 ≠ 0) :
    (intersect p0 p1 p2 p3 = some true ∨ intersect p0 p1 p2 p3 = some false) ∧
    (intersect p0 p1 p2 p3 = some true ↔
      ∃ x z, on_segment p0 p1 x z ∧ on_segment p2 p3 x z) ∧
    ∀ y0 y1 y2 y3 : ℚ,
      intersect { p0 with y := y0 } { p1 with y := y1 } { p2 with y := y2 }
        { p3 with y := y3 } = intersect p0 p1 p2 p3 := by
  have hd2 : -(p3.x - p2.x) * (p1.z - p0.z) + (p1.x - p0.x) * (p3.z - p2.z) ≠ 0 := by
    intro h0
    apply hd
    unfold cross
    linarith
  have hS := div_mul_cancel₀
    (-(p1.z - p0.z) * (p0.x - p2.x) + (p1.x - p0.x) * (p0.z - p2.z)) hd2
  have hT := div_mul_cancel₀
    ((p3.x - p2.x) * (p0.z - p2.z) - (p3.z - p2.z) * (p0.x - p2.x)) hd2
  refine ⟨?_, ?_, fun _ _ _ _ => rfl⟩
  all_goals rw [intersect_eq p0 p1 p2 p3 hd2]
  all_goals generalize (-(p1.z - p0.z) * (p0.x - p2.x) + (p1.x - p0.x) * (p0.z - p2.z)) /
    (-(p3.x - p2.x) * (p1.z - p0.z) + (p1.x - p0.x) * (p3.z - p2.z)) = s at hS ⊢
  all_goals generalize ((p3.x - p2.x) * (p0.z - p2.z) - (p3.z - p2.z) * (p0.x - p2.x)) /
    (-(p3.x - p2.x) * (p1.z - p0.z) + (p1.x - p0.x) * (p3.z - p2.z)) = t at hT ⊢
  · by_cases hc : s ≥ 0 ∧ s ≤ 1 ∧ t ≥ 0 ∧ t ≤ 1
    · left; simp [hc]
    · right; simpa using hc
  · simp only [Option.some.injEq, decide_eq_true_eq]
    constructor
    · rintro ⟨hs0, hs1, ht0, ht1⟩
      refine ⟨_, _, ⟨t, ht0, ht1, rfl, rfl⟩, ⟨s, hs0, hs1, ?_, ?_⟩⟩
      · have h0 : (p0.x + t * (p1.x - p0.x) - (p2.x + s * (p3.x - p2.x))) *
            (-(p3.x - p2.x) * (p1.z - p0.z) + (p1.x - p0.x) * (p3.z - p2.z)) = 0 := by
          linear_combination (p1.x - p0.x) * hT - (p3.x - p2.x) * hS
        exact sub_eq_zero.1 ((mul_eq_zero.1 h0).resolve_right hd2)
      · have h0 : (p0.z + t * (p1.z - p0.z) - (p2.z + s * (p3.z - p2.z))) *
            (-(p3.x - p2.x) * (p1.z - p0.z) + (p1.x - p0.x) * (p3.z - p2.z)) = 0 := by
          linear_combination (p1.z - p0.z) * hT - (p3.z - p2.z) * hS
        exact sub_eq_zero.1 ((mul_eq_zero.1 h0).resolve_right hd2)
    · rintro ⟨x, z, ⟨a, ha0, ha1, hax, haz⟩, ⟨b, hb0, hb1, hbx, hbz⟩⟩
      have e1 : p0.x - p2.x = b * (p3.x - p2.x) - a * (p1.x - p0.x) := by linarith
      have e2 : p0.z - p2.z = b * (p3.z - p2.z) - a * (p1.z - p0.z) := by linarith
      have hs : s = b := by
        apply mul_right_cancel₀ hd2
        rw [hS, e1, e2]
        ring
      have ht : t = a := by
        apply mul_right_cancel₀ hd2
        rw [hT, e1, e2]
        ring
      rw [hs, ht]
      exact ⟨hb0, hb1, ha0, ha1⟩

/-- An edge whose ends have the same `z` is passed over. -/
theorem inside_level (p pj pi : point_t) (poly : List point_t) (c : Int) (h : pi.z = pj.z) :
    inside_from p pj (pi :: poly) c = inside_from p pi poly c := by
  have hn : ¬ ((pi.z ≤ p.z ∧ p.z < pj.z) ∨ (pj.z ≤ p.z ∧ p.z < pi.z)) := by
    rw [h]
    rintro (⟨h1, h2⟩ | ⟨h1, h2⟩) <;> exact absurd (lt_of_le_of_lt h1 h2) (lt_irrefl _)
  simp only [inside_from, hn, if_false]

/-- An edge at a constant `x` between `z0` and `z1` flips the flag exactly for the points
at its height with a smaller `x`; its quotient has a divisor that is not 0. -/
theorem inside_upright (p pj pi : point_t) (poly : List point_t) (c : Int) (z0 z1 : ℚ)
    (hz : z0 < z1) (hx : pj.x = pi.x)
    (he : (pi.z = z0 ∧ pj.z = z1) ∨ (pi.z = z1 ∧ pj.z = z0)) :
    inside_from p pj (pi :: poly) c =
      inside_from p pi poly
        (if z0 ≤ p.z ∧ p.z < z1 ∧ p.x < pi.x then (if c = 0 then 1 else 0) else c) := by
  have hne : pj.z - pi.z ≠ 0 := by
    rcases he with ⟨h1, h2⟩ | ⟨h1, h2⟩ <;> rw [h1, h2] <;> intro h0 <;> linarith
  have hq : (pj.x - pi.x) * (p.z - pi.z) / (pj.z - pi.z) + pi.x = pi.x := by
    rw [hx, sub_self, zero_mul, zero_div, zero_add]
  have hcond : ((pi.z ≤ p.z ∧ p.z < pj.z) ∨ (pj.z ≤ p.z ∧ p.z < pi.z)) ↔
      (z0 ≤ p.z ∧ p.z < z1) := by
    rcases he with ⟨h1, h2⟩ | ⟨h1, h2⟩ <;> rw [h1, h2]
    · constructor
      · rintro (h | ⟨h3, h4⟩)
        · exact h
        · exact absurd (lt_of_le_of_lt h3 h4) (not_lt.2 hz.le)
      · exact Or.inl
    · constructor
      · rintro (⟨h3, h4⟩ | h)
        · exact absurd (lt_of_le_of_lt h3 h4) (not_lt.2 hz.le)
        · exact h
      · exact Or.inr
  simp only [inside_from, hcond, hne, if_false, hq]
  by_cases h1 : z0 ≤ p.z ∧ p.z < z1
  · by_cases h2 : p.x < pi.x
    · simp [h1, h2]
    · simp [h1, h2]
  · have h3 : ¬ (z0 ≤ p.z ∧ p.z < z1 ∧ p.x < pi.x) := fun h => h1 ⟨h.1, h.2.1⟩
    simp only [h1, h3, if_false]

theorem cyclic_orders_corners (x0 x1 z0 z1 : ℚ) :
    cyclic_orders (corners x0 x1 z0 z1) =
      [[(x0, z0), (x1, z0), (x1, z1), (x0, z1)], [(x1, z0), (x1, z1), (x0, z1), (x0, z0)],
       [(x1, z1), (x0, z1), (x0, z0), (x1, z0)], [(x0, z1), (x0, z0), (x1, z0), (x1, z1)],
       [(x0, z1), (x1, z1), (x1, z0), (x0, z0)], [(x1, z1), (x1, z0), (x0, z0), (x0, z1)],
       [(x1, z0), (x0, z0), (x0, z1), (x1, z1)], [(x0, z0), (x0, z1), (x1, z1), (x1, z0)]] := by
  rfl

/-- A list of four points with given `x` and `z`. -/
theorem four_points (poly : List point_t) (a b c d : ℚ × ℚ)
    (h : poly.map (fun q => (q.x, q.z)) = [a, b, c, d]) :
    ∃ q0 q1 q2 q3 : point_t, poly = [q0, q1, q2, q3] ∧
      (q0.x = a.1 ∧ q0.z = a.2) ∧ (q1.x = b.1 ∧ q1.z = b.2) ∧
      (q2.x = c.1 ∧ q2.z = c.2) ∧ (q3.x = d.1 ∧ q3.z = d.2) := by
  match poly, h with
  | [q0, q1, q2, q3], h =>
    simp only [List.map_cons, List.map_nil, List.cons.injEq, Prod.ext_iff, and_true] at h
    exact ⟨q0, q1, q2, q3, rfl, h.1, h.2.1, h.2.2.1, h.2.2.2⟩

/-- The flag after the two edges at `x0` and `x1`, in either order. -/
theorem flips (p : point_t) (x0 x1 z0 z1 xa xb : ℚ) (hx : x0 < x1)
    (hxs : (xa = x0 ∧ xb = x1) ∨ (xa = x1 ∧ xb = x0)) :
    (if z0 ≤ p.z ∧ p.z < z1 ∧ p.x < xb then
        (if (if z0 ≤ p.z ∧ p.z < z1 ∧ p.x < xa then (if (0 : Int) = 0 then 1 else 0) else 0)
          = (0 : Int) then 1 else 0)
      else (if z0 ≤ p.z ∧ p.z < z1 ∧ p.x < xa then (if (0 : Int) = 0 then 1 else 0) else 0)) =
      (if x0 ≤ p.x ∧ p.x < x1 ∧ z0 ≤ p.z ∧ p.z < z1 then (1 : Int) else 0) := by
  rcases hxs with ⟨ha, hb⟩ | ⟨ha, hb⟩ <;> subst ha <;> subst hb
  · by_cases h1 : z0 ≤ p.z ∧ p.z < z1
    · by_cases h2 : p.x < xa
      · have h3 : p.x < xb := lt_trans h2 hx
        have h4 : ¬ xa ≤ p.x := not_le.2 h2
        simp [h1, h2, h3, h4]
      · by_cases h3 : p.x < xb
        · simp [h1, h2, h3, not_lt.1 h2]
        · simp [h1, h2, h3]
    · have h5 : ¬ (z0 ≤ p.z ∧ p.z < z1 ∧ p.x < xa) := fun h => h1 ⟨h.1, h.2.1⟩
      have h6 : ¬ (z0 ≤ p.z ∧ p.z < z1 ∧ p.x < xb) := fun h => h1 ⟨h.1, h.2.1⟩
      have h7 : ¬ (xa ≤ p.x ∧ p.x < xb ∧ z0 ≤ p.z ∧ p.z < z1) := fun h => h1 h.2.2
      simp only [h5, h6, h7, if_false]
  · by_cases h1 : z0 ≤ p.z ∧ p.z < z1
    · by_cases h2 : p.x < xb
      · have h3 : p.x < xa := lt_trans h2 hx
        have h4 : ¬ xb ≤ p.x := not_le.2 h2
        simp [h1, h2, h3, h4]
      · by_cases h3 : p.x < xa
        · simp [h1, h2, h3, not_lt.1 h2]
        · simp [h1, h2, h3]
    · have h5 : ¬ (z0 ≤ p.z ∧ p.z < z1 ∧ p.x < xa) := fun h => h1 ⟨h.1, h.2.1⟩
      have h6 : ¬ (z0 ≤ p.z ∧ p.z < z1 ∧ p.x < xb) := fun h => h1 ⟨h.1, h.2.1⟩
      have h7 : ¬ (xb ≤ p.x ∧ p.x < xa ∧ z0 ≤ p.z ∧ p.z < z1) := fun h => h1 h.2.2
      simp only [h5, h6, h7, if_false]

/-- Four points whose first and third edge are at a constant `x`. -/
theorem inside_upright_first (p q0 q1 q2 q3 : point_t) (x0 x1 z0 z1 : ℚ)
    (hx : x0 < x1) (hz : z0 < z1)
    (h0 : q3.x = q0.x) (e0 : (q0.z = z0 ∧ q3.z = z1) ∨ (q0.z = z1 ∧ q3.z = z0))
    (h1 : q1.z = q0.z)
    (h2 : q1.x = q2.x) (e2 : (q2.z = z0 ∧ q1.z = z1) ∨ (q2.z = z1 ∧ q1.z = z0))
    (h3 : q3.z = q2.z)
    (hxs : (q0.x = x0 ∧ q2.x = x1) ∨ (q0.x = x1 ∧ q2.x = x0)) :
    inside p [q0, q1, q2, q3] =
      some (if x0 ≤ p.x ∧ p.x < x1 ∧ z0 ≤ p.z ∧ p.z < z1 then 1 else 0) := by
  show inside_from p q3 [q0, q1, q2, q3] 0 = _
  rw [inside_upright p q3 q0 _ 0 z0 z1 hz h0 e0, inside_level p q0 q1 _ _ h1,
    inside_upright p q1 q2 _ _ z0 z1 hz h2 e2, inside_level p q2 q3 _ _ h3]
  exact congrArg some (flips p x0 x1 z0 z1 q0.x q2.x hx hxs)

/-- Four points whose second and fourth edge are at a constant `x`. -/
theorem inside_level_first (p q0 q1 q2 q3 : point_t) (x0 x1 z0 z1 : ℚ)
    (hx : x0 < x1) (hz : z0 < z1)
    (h0 : q0.z = q3.z)
    (h1 : q0.x = q1.x) (e1 : (q1.z = z0 ∧ q0.z = z1) ∨ (q1.z = z1 ∧ q0.z = z0))
    (h2 : q2.z = q1.z)
    (h3 : q2.x = q3.x) (e3 : (q3.z = z0 ∧ q2.z = z1) ∨ (q3.z = z1 ∧ q2.z = z0))
    (hxs : (q1.x = x0 ∧ q3.x = x1) ∨ (q1.x = x1 ∧ q3.x = x0)) :
    inside p [q0, q1, q2, q3] =
      some (if x0 ≤ p.x ∧ p.x < x1 ∧ z0 ≤ p.z ∧ p.z < z1 then 1 else 0) := by
  show inside_from p q3 [q0, q1, q2, q3] 0 = _
  rw [inside_level p q3 q0 _ 0 h0, inside_upright p q0 q1 _ _ z0 z1 hz h1 e1,
    inside_level p q1 q2 _ _ h2, inside_upright p q2 q3 _ _ z0 z1 hz h3 e3]
  exact congrArg some (flips p x0 x1 z0 z1 q1.x q3.x hx hxs)

/-- The four corners of an axis-aligned rectangle, from any corner on in either
orientation. -/
theorem inside_corners (p : point_t) (poly : List point_t) (x0 x1 z0 z1 : ℚ)
    (hx : x0 < x1) (hz : z0 < z1)
    (hp : poly.map (fun q => (q.x, q.z)) ∈ cyclic_orders (corners x0 x1 z0 z1)) :
    inside p poly = some (if x0 ≤ p.x ∧ p.x < x1 ∧ z0 ≤ p.z ∧ p.z < z1 then 1 else 0) := by
  rw [cyclic_orders_corners] at hp
  simp only [List.mem_cons, List.mem_singleton, List.not_mem_nil, or_false] at hp
  rcases hp with h | h | h | h | h | h | h | h
  · obtain ⟨q0, q1, q2, q3, rfl, ⟨a0, b0⟩, ⟨a1, b1⟩, ⟨a2, b2⟩, ⟨a3, b3⟩⟩ :=
      four_points poly _ _ _ _ h
    clear h
    refine inside_upright_first p q0 q1 q2 q3 x0 x1 z0 z1 hx hz ?_ ?_ ?_ ?_ ?_ ?_ ?_ <;>
      simp [*]
  · obtain ⟨q0, q1, q2, q3, rfl, ⟨a0, b0⟩, ⟨a1, b1⟩, ⟨a2, b2⟩, ⟨a3, b3⟩⟩ :=
      four_points poly _ _ _ _ h
    clear h
    refine inside_level_first p q0 q1 q2 q3 x0 x1 z0 z1 hx hz ?_ ?_ ?_ ?_ ?_ ?_ ?_ <;>
      simp [*]
  · obtain ⟨q0, q1, q2, q3, rfl, ⟨a0, b0⟩, ⟨a1, b1⟩, ⟨a2, b2⟩, ⟨a3, b3⟩⟩ :=
      four_points poly _ _ _ _ h
    clear h
    refine inside_upright_first p q0 q1 q2 q3 x0 x1 z0 z1 hx hz ?_ ?_ ?_ ?_ ?_ ?_ ?_ <;>
      simp [*]
  · obtain ⟨q0, q1, q2, q3, rfl, ⟨a0, b0⟩, ⟨a1, b1⟩, ⟨a2, b2⟩, ⟨a3, b3⟩⟩ :=
      four_points poly _ _ _ _ h
    clear h
    refine inside_level_first p q0 q1 q2 q3 x0 x1 z0 z1 hx hz ?_ ?_ ?_ ?_ ?_ ?_ ?_ <;>
      simp [*]
  · obtain ⟨q0, q1, q2, q3, rfl, ⟨a0, b0⟩, ⟨a1, b1⟩, ⟨a2, b2⟩, ⟨a3, b3⟩⟩ :=
      four_points poly _ _ _ _ h
    clear h
    refine inside_upright_first p q0 q1 q2 q3 x0 x1 z0 z1 hx hz ?_ ?_ ?_ ?_ ?_ ?_ ?_ <;>
      simp [*]
  · obtain ⟨q0, q1, q2, q3, rfl, ⟨a0, b0⟩, ⟨a1, b1⟩, ⟨a2, b2⟩, ⟨a3, b3⟩⟩ :=
      four_points poly _ _ _ _ h
    clear h
    refine inside_level_first p q0 q1 q2 q3 x0 x1 z0 z1 hx hz ?_ ?_ ?_ ?_ ?_ ?_ ?_ <;>
      simp [*]
  · obtain ⟨q0, q1, q2, q3, rfl, ⟨a0, b0⟩, ⟨a1, b1⟩, ⟨a2, b2⟩, ⟨a3, b3⟩⟩ :=
      four_points poly _ _ _ _ h
    clear h
    refine inside_upright_first p q0 q1 q2 q3 x0 x1 z0 z1 hx hz ?_ ?_ ?_ ?_ ?_ ?_ ?_ <;>
      simp [*]
  · obtain ⟨q0, q1, q2, q3, rfl, ⟨a0, b0⟩, ⟨a1, b1⟩, ⟨a2, b2⟩, ⟨a3, b3⟩⟩ :=
      four_points poly _ _ _ _ h
    clear h
    refine inside_level_first p q0 q1 q2 q3 x0 x1 z0 z1 hx hz ?_ ?_ ?_ ?_ ?_ ?_ ?_ <;>
      simp [*]

/-- The loop of `inside` never evaluates a quotient with the divisor 0: the test before it
holds only for an edge whose ends differ in `z`. -/
theorem inside_total (p : point_t) (poly : List point_t) :
    ∀ (pj : point_t) (c : Int), ∃ r, inside_from p pj poly c = some r := by
  induction poly with
  | nil => intro pj c; exact ⟨c, rfl⟩
  | cons pi poly ih =>
    intro pj c
    simp only [inside_from]
    split
    · rename_i hcond
      have hne : ¬ pj.z - pi.z = 0 := by
        intro h0
        have he : pj.z = pi.z := sub_eq_zero.1 h0
        rw [he] at hcond
        rcases hcond with ⟨h1, h2⟩ | ⟨h1, h2⟩ <;>
          exact absurd (lt_of_le_of_lt h1 h2) (lt_irrefl _)
      simp only [hne, if_false]
      split
      · exact ih _ _
      · exact ih _ _
    · exact ih _ _

theorem intersect_common_witness :
    intersect { x := 0, y := 0, z := 0 } { x := 2, y := 1, z := 2 } { x := 0, y := 5, z := 2 }
      { x := 2, y := -1, z := 0 } = some true :=
  (intersect_common { x := 0, y := 0, z := 0 } { x := 2, y := 1, z := 2 }
    { x := 0, y := 5, z := 2 } { x := 2, y := -1, z := 0 } (by norm_num [cross])).2.1.2
    ⟨1, 1, ⟨1 / 2, by norm_num, by norm_num, by norm_num, by norm_num⟩,
      ⟨1 / 2, by norm_num, by norm_num, by norm_num, by norm_num⟩⟩

/-- C24: for the corners `(x0,z0)`, `(x1,z0)`, `(x1,z1)`, `(x0,z1)` of an axis-aligned
rectangle with `x0 < x1` and `z0 < z1`, given in cyclic order from any corner on and in
either orientation, with any `y` coordinates, `inside` in exact arithmetic returns 1 if
`x0 ≤ p.x < x1` and `z0 ≤ p.z < z1` and 0 otherwise. For every polygon the evaluation
returns a value: no quotient with the divisor 0 is evaluated. -/
theorem inside_rectangle (p : point_t) (poly : List point_t) (x0 x1 z0 z1 : ℚ)
    (hx : x0 < x1) (hz : z0 < z1)
    (hp : poly.map (fun q => (q.x, q.z)) ∈ cyclic_orders (corners x0 x1 z0 z1)) :
    inside p poly = some (if x0 ≤ p.x ∧ p.x < x1 ∧ z0 ≤ p.z ∧ p.z < z1 then 1 else 0) ∧
    (inside p poly = some 1 ↔ x0 ≤ p.x ∧ p.x < x1 ∧ z0 ≤ p.z ∧ p.z < z1) ∧
    ∀ (q : point_t) (any : List point_t), ∃ r, inside q any = some r := by
  have h1 := inside_corners p poly x0 x1 z0 z1 hx hz hp
  refine ⟨h1, ?_, ?_⟩
  · rw [h1]
    by_cases hc : x0 ≤ p.x ∧ p.x < x1 ∧ z0 ≤ p.z ∧ p.z < z1
    · simp [hc]
    · simp [hc]
  · intro q any
    unfold inside
    cases any.getLast? with
    | none => exact ⟨0, rfl⟩
    | some pj => exact inside_total q any pj 0

theorem inside_rectangle_witness :
    inside { x := 1 / 2, y := 7, z := 1 / 2 }
      [{ x := 1, y := 5, z := 0 }, { x := 1, y := 0, z := 1 }, { x := 0, y := 3, z := 1 },
       { x := 0, y := 0, z := 0 }] = some 1 :=
  (inside_rectangle { x := 1 / 2, y := 7, z := 1 / 2 }
    [{ x := 1, y := 5, z := 0 }, { x := 1, y := 0, z := 1 }, { x := 0, y := 3, z := 1 },
     { x := 0, y := 0, z := 0 }] 0 1 0 1 (by norm_num) (by norm_num)
    (by rw [cyclic_orders_corners]; simp)).1.trans (by norm_num)

/-! ## Closing a route block by a blank line or the end of the file -/

/-- A blank line, or the end of the file, after an open route block that has a waypoint
closes the block with `expandtrain`: the blank line goes on with the airport and the last
route that `expandtrain(airport, currentroute)` gives and with no block open, and the end
of the file leaves that same airport. -/
theorem closed_block_expands (sf : List Char → scan_t ℚ) (g : globals_t) (env : env_t)
    (pre : List (List Char)) (line : List Char) (post : List (List Char)) (p : parser_t)
    (cr : Nat) (r : route_t)
    (h : reaches sf g env pre line post p) (hcur : p.currentroute = some cr)
    (hr : p.airport.routes[cr]? = some r) (hlen : r.pathlen ≠ 0) :
    (tokens p.lineno line = [] →
      ∃ p1, readline sf p line = line_t.next p1 ∧
        p1.airport = (expandtrain p.airport cr).1 ∧
        p1.lastroute = some (expandtrain p.airport cr).2 ∧
        p1.currentroute = none ∧ p1.currenttrain = none) ∧
    at_eof p = (expandtrain p.airport cr).1 := by
  have hb := reaches_wfblock sf g env pre line post p h
  have hct : p.currenttrain = none := hb.excl cr hcur
  refine ⟨?_, ?_⟩
  · intro htok
    rw [readline_blank sf p line htok]
    unfold blank_line counted
    simp only [hcur, hr, Option.map_some', Option.some.injEq, hlen, if_false, hct]
    exact ⟨_, rfl, rfl, rfl, rfl, rfl⟩
  · unfold at_eof
    simp only [hcur]

/-- C5 at a failing input: the train `tug` has the two entries `tractor` and `cart`, and a
route block for an object `tug` has two waypoints. Closed by `reverse`, the block leaves
one route in the list of the loaded airport, not two; closed by the end of the file or by
a blank line it leaves the two routes of the claim, the first without a parent, the second
with the first as its parent, both with the path length 2 and the same path. -/
theorem reverse_closed_block_one_route :
    trainlen (train_after train_file).objects = 2 ∧
    (route_after train_file 0).object.name = (train_after train_file).name ∧
    (readconfig scan_f start (found_file 1 (train_file ++ ["reverse\n"]))).map
      (fun r => (r.ret, r.g.airport.routes.map (fun c => (c.parent, c.pathlen)))) =
      some (2, [(none, 2)]) ∧
    (readconfig scan_f start (found_file 1 train_file)).map
      (fun r => (r.ret, r.g.airport.routes.map (fun c => (c.parent, c.pathlen)),
        r.g.airport.routes.map (fun c => c.path))) =
      some (2, [(none, 2), (some 0, 2)],
        [(route_after train_file 0).path, (route_after train_file 0).path]) ∧
    (readconfig scan_f start (found_file 1 (train_file ++ ["\n"]))).map
      (fun r => (r.ret, r.g.airport.routes.map (fun c => (c.parent, c.pathlen)),
        r.g.airport.routes.map (fun c => c.path))) =
      some (2, [(none, 2), (some 0, 2)],
        [(route_after train_file 0).path, (route_after train_file 0).path]) := by
  refine ⟨by rfl, by rfl, by rfl, by with_unfolding_all rfl, by with_unfolding_all rfl⟩

/-! ## A pause time too large for an `int` -/

/-- C11 at a failing input: after the example of the spec, the line `pause 4294967297`
gives `sscanf` a number that does not fit an `int`: the behaviour is undefined, for this
file and in every state of the reader with a waypoint in the open block, and the failure
that the range check would report is not reported. The number is 1 modulo 2 to the power
32, a value that the range check accepts. The lines `pause 86400` and `pause 0` are
reported as failures (return 1, no configuration), and `pause 86399` is accepted. -/
theorem pause_beyond_int_undefined :
    readconfig scan_f start (found_file 1 (good_file ++ ["pause 4294967297\n"])) = none ∧
    scan_d "4294967297".toList = scan_t.overflow ∧
    (∀ (sf : List Char → scan_t ℚ) (p : parser_t) (cr : Nat) (r : route_t) (n : Nat),
      route_line sf p cr { r with pathlen := n + 1 } "pause".toList ["4294967297".toList] =
        branch_t.undef) ∧
    (4294967297 : Int) % 2 ^ 32 = 1 ∧
    (readconfig scan_f start (found_file 1 (good_file ++ ["pause 86400\n"]))).map
      (fun r => (r.ret, r.g.airport.state)) = some (1, state_t.noconfig) ∧
    (readconfig scan_f start (found_file 1 (good_file ++ ["pause 0\n"]))).map
      (fun r => (r.ret, r.g.airport.state)) = some (1, state_t.noconfig) ∧
    (readconfig scan_f start (found_file 1 (good_file ++ ["pause 86399\n"]))).map
      (fun r => (r.ret, r.g.airport.routes.map (fun c => c.path.map (fun n => n.pausetime)))) =
      some (2, [[0, 86399]]) := by
  refine ⟨by rfl, by rfl, ?_, by decide, by rfl, by rfl, by rfl⟩
  intro sf p cr r n
  unfold route_line
  have hkw : strcaseeq "pause".toList "pause".toList = true := by decide
  have hn : ¬ n + 1 = 0 := by omega
  have hs : scan_d "4294967297".toList = scan_t.overflow := by rfl
  simp only [hkw, if_true, hn, if_false, List.getElem?_cons_zero, hs]

/-! ## Times of day as numerals -/

theorem takeWhile_front {α : Type} (p : α → Bool) (l r : List α)
    (hl : ∀ a ∈ l, p a = true) (hr : ∀ a r1, r = a :: r1 → p a = false) :
    (l ++ r).takeWhile p = l ∧ (l ++ r).dropWhile p = r := by
  induction l with
  | nil =>
    cases r with
    | nil => exact ⟨rfl, rfl⟩
    | cons a r1 =>
      have := hr a r1 rfl
      simp [List.takeWhile_cons, List.dropWhile_cons, this]
  | cons a l ih =>
    have ha := hl a (List.mem_cons_self _ _)
    have := ih (fun b hb => hl b (List.mem_cons_of_mem _ hb))
    simp [List.takeWhile_cons, List.dropWhile_cons, ha, this.1, this.2]

theorem few_digits_left (l r : List Char) (h : few_digits (l ++ r)) : few_digits l := by
  unfold few_digits at h ⊢
  rw [List.filter_append, List.length_append] at h
  omega

theorem dropWhile_spaces (s x : List Char) (hx : s.dropWhile isspace = x) (hne : x ≠ []) :
    (s.takeWhile isspace ++ x).dropWhile isspace = x := by
  have hhead : ∀ a r1, x = a :: r1 → isspace a = false := by
    intro a r1 hr
    have hne2 : s.dropWhile isspace ≠ [] := by rw [hx]; exact hne
    have := List.head_dropWhile_not isspace s hne2
    simp only [hx, hr, List.head_cons] at this
    simpa using this
  exact (takeWhile_front isspace (s.takeWhile isspace) x
    (fun a ha => List.mem_takeWhile_imp ha) hhead).2

end GroundTraffic
